import Mathlib

/-!
Verification of the word-adder core of LightApp_MyAnki
(`mytools/frequency_db_utils/word_adder.py`) against its specification.

Text is modelled as `List Char` (`Txt`), mirroring Python string
operations character by character.  SQL statements compiled by
`prepare_word_actions` are modelled as a structured `Stmt` type together
with a renderer producing the exact statement text and parameter list,
and an executor giving the statements' database semantics.
-/

set_option maxHeartbeats 1000000

/-- Text is a list of characters, mirroring Python `str`. -/
abbrev Txt := List Char

/-- Shorthand turning a Lean string literal into `Txt`. -/
def txt (s : String) : Txt := s.data

/-- Python `str.strip()` whitespace set (ASCII part, which is all the code relies on). -/
def pyIsWs (c : Char) : Bool :=
  c = ' ' || c = '\t' || c = '\n' || c = '\r' || c = '\x0b' || c = '\x0c'

/-- Left-strip whitespace, as in Python `str.lstrip()`. -/
def stripLeftWs (t : Txt) : Txt := t.dropWhile pyIsWs

/-- Right-strip whitespace, as in Python `str.rstrip()`. -/
def stripRightWs (t : Txt) : Txt := (t.reverse.dropWhile pyIsWs).reverse

/-- Python `str.strip()`. -/
def pyStrip (t : Txt) : Txt := stripRightWs (stripLeftWs t)

/-- Python `str.strip(chars)`: strip characters of `set` from both ends. -/
def pyStripChars (set : Txt) (t : Txt) : Txt :=
  ((t.dropWhile (set.contains ·)).reverse.dropWhile (set.contains ·)).reverse

/-- Python `re.sub(r"\s+", " ", s)`: collapse each whitespace run to one space. -/
def collapseWs : Txt → Txt
  | [] => []
  | c :: rest =>
    if pyIsWs c then
      let r := collapseWs rest
      if r.head? = some ' ' then r else ' ' :: r
    else c :: collapseWs rest

/-- Lower-case mapping table: ASCII plus the Latin-1/Latin-A letters relevant
to French/German, matching Python `str.lower` on the code's alphabets. -/
def lowerTable : List (Char × Char) :=
  [('A','a'),('B','b'),('C','c'),('D','d'),('E','e'),('F','f'),('G','g'),
   ('H','h'),('I','i'),('J','j'),('K','k'),('L','l'),('M','m'),('N','n'),
   ('O','o'),('P','p'),('Q','q'),('R','r'),('S','s'),('T','t'),('U','u'),
   ('V','v'),('W','w'),('X','x'),('Y','y'),('Z','z'),
   ('À','à'),('Á','á'),('Â','â'),('Ã','ã'),('Ä','ä'),('Å','å'),('Æ','æ'),
   ('Ç','ç'),('È','è'),('É','é'),('Ê','ê'),('Ë','ë'),('Ì','ì'),('Í','í'),
   ('Î','î'),('Ï','ï'),('Ñ','ñ'),('Ò','ò'),('Ó','ó'),('Ô','ô'),('Õ','õ'),
   ('Ö','ö'),('Ø','ø'),('Ù','ù'),('Ú','ú'),('Û','û'),('Ü','ü'),('Ý','ý'),
   ('Œ','œ'),('Ÿ','ÿ')]

/-- Lower-case one character via the table. -/
def lowerChar (c : Char) : Char := (lowerTable.lookup c).getD c

/-- Python `str.lower()` on the modelled alphabet. -/
def pyLower (t : Txt) : Txt := t.map lowerChar

/-- Python `str.split(sep)` for a single-character separator (keeps empty pieces). -/
def splitOnChar (sep : Char) : Txt → List Txt
  | [] => [[]]
  | c :: rest =>
    if c = sep then [] :: splitOnChar sep rest
    else
      match splitOnChar sep rest with
      | [] => [[c]]
      | p :: ps => (c :: p) :: ps

/-- Python `re.split` on runs of characters satisfying `p`
(like `re.split(r"\s+", s)`: empty pieces at the edges are kept). -/
def splitRunsBy (p : Char → Bool) : Txt → List Txt
  | [] => [[]]
  | c :: rest =>
    if p c then
      match rest with
      | [] => [[], []]
      | d :: _ => if p d then splitRunsBy p rest else [] :: splitRunsBy p rest
    else
      match splitRunsBy p rest with
      | [] => [[c]]
      | q :: qs => (c :: q) :: qs

/-- Does `t` start with `p`?  (Python `str.startswith`.) -/
def leadsWith : Txt → Txt → Bool
  | [], _ => true
  | _ :: _, [] => false
  | p :: ps, c :: cs => p = c && leadsWith ps cs

/-- Does `t` end with `p`?  (Python `str.endswith`.) -/
def trailsWith (p t : Txt) : Bool := leadsWith p.reverse t.reverse

/-- Split `t` at the first occurrence of `sep` (Python `str.split(sep, 1)`
when it succeeds); `none` when `sep` does not occur. -/
def splitFirstSub (sep : Txt) : Txt → Option (Txt × Txt)
  | [] => if leadsWith sep [] then some ([], []) else none
  | c :: rest =>
    if leadsWith sep (c :: rest) then some ([], (c :: rest).drop sep.length)
    else (splitFirstSub sep rest).map (fun pr => (c :: pr.1, pr.2))

/-- Python `sep in s` (substring containment). -/
def containsSub (sep t : Txt) : Bool := (splitFirstSub sep t).isSome

/-- Join a list of pieces with the separator `sep`
(Python `sep.join(pieces)`). -/
def joinSep (sep : Txt) : List Txt → Txt
  | [] => []
  | [x] => x
  | x :: xs => x ++ sep ++ joinSep sep xs

/-! ## Normalizers (`_normalize_apostrophes`, `_strip_edge_punctuation`,
`_normalize_user_text`, `_normalize_phrase_for_tts_storage`,
`_fr_drop_contraction_prefix`, `_tokenize_phrase`) -/

/-- `_UNICODE_APOSTROPHES` from the source. -/
def unicodeApostrophes : List Char := ['’', 'ʼ', '′', '‘']

/-- `_normalize_apostrophes`: map typographic apostrophes to ASCII `'`. -/
def normalizeApostrophes (t : Txt) : Txt :=
  t.map (fun c => if unicodeApostrophes.contains c then '\'' else c)

/-- Python `string.punctuation`. -/
def asciiPunctuation : Txt := txt "!\"#$%&'()*+,-./:;<=>?@[\\]^_`\x7b|\x7d~"

/-- `string.punctuation.replace("'", "")`. -/
def punctNoApostrophe : Txt := asciiPunctuation.filter (· ≠ '\'')

/-- The extra unicode punctuation appended in `_strip_edge_punctuation`. -/
def extraEdgePunct : Txt := txt "“”‘’«»¿¡…–—·"

/-- The `strip_chars` set of `_strip_edge_punctuation`. -/
def stripEdgeSet : Txt := punctNoApostrophe ++ extraEdgePunct ++ txt "\t\n\r"

/-- `_strip_edge_punctuation`: whitespace-strip, then strip the edge set. -/
def stripEdgePunctuation (t : Txt) : Txt := pyStripChars stripEdgeSet (pyStrip t)

/-- `_normalize_user_text`. -/
def normalizeUserText (language : Txt) (t : Txt) : Txt :=
  let s := stripEdgePunctuation (normalizeApostrophes t)
  let s := pyStrip (collapseWs s)
  if pyLower language = txt "fr" || pyLower language = txt "de" then pyLower s else s

/-- `_fr_drop_contraction_prefix`: drop a leading `d'`/`l'` (case-insensitive).
The regex `^(d|l)'(.+)$` is modelled for newline-free tokens, which is what
every call site passes (tokens already whitespace-collapsed). -/
def frDropContractionPrefix (token : Txt) : Txt :=
  let w := pyStrip token
  match w with
  | c1 :: c2 :: rest =>
    if (lowerChar c1 = 'd' || lowerChar c1 = 'l') && c2 = '\'' && rest ≠ [] then
      let rhs := pyStrip rest
      if rhs ≠ [] then rhs else w
    else w
  | _ => w

/-- Punctuation set replaced by spaces in `_normalize_phrase_for_tts_storage`. -/
def ttsPunctSet : Txt := punctNoApostrophe ++ extraEdgePunct

/-- `_normalize_phrase_for_tts_storage`. -/
def normalizePhraseForTtsStorage (language : Txt) (phrase : Txt) : Txt :=
  let lang := pyLower (pyStrip language)
  let s := normalizeUserText lang phrase
  if s = [] then []
  else
    let s := s.filter (· ≠ '\'')
    let s := s.map (fun c => if ttsPunctSet.contains c then ' ' else c)
    let s := pyStrip (collapseWs s)
    if lang = txt "fr" || lang = txt "de" then pyLower s else s

/-- Per-token strip set of `_tokenize_phrase`. -/
def tokenStripSet : Txt := txt "\"“”‘’()[]\x7b\x7d.,;:!?«»"

/-- One iteration of the `_tokenize_phrase` loop body (`none` = `continue`). -/
def tokenOfPart (language : Txt) (part : Txt) : Option Txt :=
  let p := normalizeApostrophes (pyStrip part)
  if p = [] then none
  else
    let p := pyStripChars tokenStripSet p
    if p = [] then none
    else
      let p := if pyLower language = txt "fr" || pyLower language = txt "de" then pyLower p else p
      let p := if pyLower language = txt "fr" then frDropContractionPrefix p else p
      some p

/-- `_tokenize_phrase`. -/
def tokenizePhrase (language : Txt) (phrase : Txt) : List Txt :=
  let text := normalizeUserText language phrase
  if text = [] then []
  else (splitRunsBy pyIsWs text).filterMap (tokenOfPart language)

/-! ## IPA validators (`_normalize_ipa_wrapping`, `_simple_ipa_from_text`,
`_ipa_is_reasonably_well_formed`, `_ipa_is_reasonably_well_formed_for_phrase`,
and the acceptance step of `_get_phrase_ipa`) -/

/-- Interior of a delimiter-wrapped value: `s[1:-1]`. -/
def insideOf (raw : Txt) : Txt := (raw.drop 1).dropLast

/-- `re.fullmatch(r"/[^/]+/", raw)`. -/
def isSingleSlashSegment (raw : Txt) : Bool :=
  decide (3 ≤ raw.length) && raw.head? == some '/' && raw.getLast? == some '/'
    && (insideOf raw).all (· ≠ '/')

/-- `_normalize_ipa_wrapping`: accept only an exact `/.../` segment with no
bracket characters inside. -/
def normalizeIpaWrapping (ipa : Txt) : Option Txt :=
  let raw := pyStrip ipa
  if raw = [] then none
  else if isSingleSlashSegment raw then
    if (insideOf raw).contains '[' || (insideOf raw).contains ']' then none
    else some raw
  else none

/-- `_simple_ipa_from_text`. -/
def simpleIpaFromText (content : Txt) : Option Txt :=
  normalizeIpaWrapping (pyStrip content)

/-- `_ipa_is_reasonably_well_formed`. -/
def ipaIsReasonablyWellFormed (ipa : Option Txt) : Bool :=
  match ipa with
  | none => false
  | some v =>
    if v = [] then false
    else
      let s := pyStrip v
      if containsSub (txt "//") s then false
      else if !(leadsWith (txt "/") s && trailsWith (txt "/") s) then false
      else
        let inside := pyStrip (insideOf s)
        if inside = [] then false
        else if inside.contains '\n' || inside.contains '\r' || inside.contains '\t' then false
        else if containsSub (txt " ‿") inside || containsSub (txt "‿ ") inside then false
        else if containsSub (txt "‿‿") inside then false
        else true

/-- `_ipa_is_reasonably_well_formed_for_phrase`. -/
def ipaWellFormedForPhrase (language phrase : Txt) (ipa : Option Txt) : Bool :=
  if !ipaIsReasonablyWellFormed ipa then false
  else
    let lang := pyStrip (pyLower language)
    if lang ≠ txt "fr" then true
    else
      let tokens := tokenizePhrase lang phrase
      if tokens = [] then true
      else if tokens.length ≤ 1 then true
      else
        let inside := pyStrip (insideOf (pyStrip (ipa.getD [])))
        let segments := (splitRunsBy (fun c => c = ' ' || c = '‿') inside).filter (· ≠ [])
        segments.length == tokens.length

/-- Acceptance step of `_get_phrase_ipa`: `parsedIpa` models `parsed.get("ipa")`
when the response text parses to a JSON object, `raw` the raw response text.
Note the result does not depend on the language or the phrase. -/
def phraseIpaFromResponse (parsedIpa : Option Txt) (raw : Txt) : Option Txt :=
  match parsedIpa with
  | some m => if pyStrip m ≠ [] then simpleIpaFromText m else simpleIpaFromText raw
  | none => simpleIpaFromText raw

/-! ## Plural normalization (`_fr_singular_candidate_for_plural_noun`
and its application site in `prepare_word_actions`) -/

/-- `_fr_singular_candidate_for_plural_noun`. -/
def frSingularCandidateForPluralNoun (word : Txt) : Option Txt :=
  let w := pyStrip word
  if w = [] then none
  else if w.any pyIsWs then none
  else
    let low := pyLower w
    if trailsWith (txt "eaux") low && decide (4 < w.length) then some w.dropLast
    else if trailsWith (txt "s") low && decide (3 < w.length) then some w.dropLast
    else none

/-- The plural-to-singular replacement step of `prepare_word_actions`
(lines 1367-1376): applied only for French nouns that are not verbs. -/
def normalizePluralNounStep (language : Txt) (isNoun isVerb isNounAndVerb : Bool)
    (palabra : Txt) : Txt :=
  if pyLower (pyStrip language) = txt "fr" && isNoun && !isVerb && !isNounAndVerb then
    let pluralOriginal := pyStrip palabra
    match frSingularCandidateForPluralNoun pluralOriginal with
    | some c => if c ≠ [] && c ≠ pluralOriginal then c else palabra
    | none => palabra
  else palabra

/-! ## C10: idempotence machinery for the normalizers -/

/-- No two adjacent whitespace characters. -/
def noAdjWs : Txt → Bool
  | [] => true
  | [_] => true
  | a :: b :: rest => !(pyIsWs a && pyIsWs b) && noAdjWs (b :: rest)

/-- Canonical-whitespace predicate: all whitespace is a single `' '` between
non-whitespace characters, and the edges are not whitespace. -/
def wsCanonical (t : Txt) : Prop :=
  (∀ c ∈ t, pyIsWs c = true → c = ' ') ∧ noAdjWs t = true ∧
    (∀ c, t.head? = some c → pyIsWs c = false) ∧
    (∀ c, t.getLast? = some c → pyIsWs c = false)

/-- Tail of `_normalize_phrase_for_tts_storage` after the user-text
normalization and the emptiness check. -/
def ttsFinish (lang s1 : Txt) : Txt :=
  let s := s1.filter (· ≠ '\'')
  let s := s.map (fun c => if ttsPunctSet.contains c then ' ' else c)
  let s := pyStrip (collapseWs s)
  if lang = txt "fr" || lang = txt "de" then pyLower s else s

/-! ## C9: verb paradigm ambiguous-pronoun grouping (`_group_ambiguous_pronouns`) -/

/-- One verb paradigm entry (a Python dict with these fields). -/
structure VerbEntry where
  pronoun : Txt
  phrase : Txt
  translation : Txt
  ipa : Option Txt
deriving DecidableEq, Repr

instance : Inhabited VerbEntry := ⟨⟨[], [], [], none⟩⟩

/-- French ambiguous-pronoun groups. -/
def frGroupMap : List (Txt × Txt) :=
  [(txt "il", txt "il/elle/on"), (txt "elle", txt "il/elle/on"),
   (txt "on", txt "il/elle/on"),
   (txt "ils", txt "ils/elles"), (txt "elles", txt "ils/elles")]

/-- German ambiguous-pronoun groups. -/
def deGroupMap : List (Txt × Txt) :=
  [(txt "er", txt "er/sie/man"), (txt "sie", txt "er/sie/man"),
   (txt "man", txt "er/sie/man")]

/-- One iteration of the `_group_ambiguous_pronouns` loop over the
insertion-ordered association list `st` (the Python `merged` dict plus
`order` list). -/
def gapStep (groupMap : List (Txt × Txt)) (st : List ((Txt × Txt) × VerbEntry))
    (e : VerbEntry) : List ((Txt × Txt) × VerbEntry) :=
  let phrase := pyStrip e.phrase
  if phrase = [] then st
  else
    match splitFirstSub (txt " ") phrase with
    | none =>
      let key := (([] : Txt), phrase)
      if (st.lookup key).isSome then st else st ++ [(key, e)]
    | some (p0, p1) =>
      let pron := pyLower (pyStrip p0)
      let rest := pyStrip p1
      match groupMap.lookup pron with
      | none =>
        let key := (pron, rest)
        if (st.lookup key).isSome then st else st ++ [(key, e)]
      | some group =>
        let key := (group, rest)
        match st.lookup key with
        | none =>
          st ++ [(key, { e with pronoun := group,
                                phrase := group ++ txt " " ++ rest,
                                ipa := none })]
        | some _ =>
          st.map (fun kv =>
            if kv.1 = key ∧ pyStrip kv.2.translation = []
            then (kv.1, { kv.2 with translation := pyStrip e.translation })
            else kv)

/-- `_group_ambiguous_pronouns`. -/
def groupAmbiguousPronouns (language : Txt) (verbEntries : List VerbEntry) :
    List VerbEntry :=
  let lang := pyLower language
  if ¬(lang = txt "fr" ∨ lang = txt "de") ∨ verbEntries = [] then verbEntries
  else
    let groupMap := if lang = txt "fr" then frGroupMap else deGroupMap
    ((verbEntries.foldl (gapStep groupMap) []).map (·.2))

/-- The slot key a verb entry is merged under (recomputed from the entry). -/
def slotKeyOf (groupMap : List (Txt × Txt)) (e : VerbEntry) : Txt × Txt :=
  match splitFirstSub (txt " ") (pyStrip e.phrase) with
  | none => (([] : Txt), pyStrip e.phrase)
  | some (p0, p1) =>
    let pron := pyLower (pyStrip p0)
    let rest := pyStrip p1
    match groupMap.lookup pron with
    | none => (pron, rest)
    | some group => (group, rest)

/-- Well-formedness of a pronoun group map: group labels are non-empty,
contain no whitespace, are lower-case, and are not themselves keys. -/
def gmWf (gm : List (Txt × Txt)) : Prop :=
  ∀ p ∈ gm, p.2 ≠ [] ∧ (p.2.any pyIsWs) = false ∧ pyLower p.2 = p.2 ∧
    gm.lookup p.2 = none

/-- Invariant of the grouping fold state: keys are distinct and each stored
entry recomputes to its stored key. -/
def StOk (gm : List (Txt × Txt)) (st : List ((Txt × Txt) × VerbEntry)) : Prop :=
  (st.map Prod.fst).Nodup ∧ ∀ kv ∈ st, slotKeyOf gm kv.2 = kv.1

/-- Parameter values of a SQL statement (Python str / int / None). -/
inductive Val where
  | vstr (s : Txt)
  | vint (n : Int)
  | vnull
deriving DecidableEq

/-- An optional text parameter: Python passes `None` for a missing string. -/
def optVal : Option Txt → Val
  | none => Val.vnull
  | some s => Val.vstr s

/-- Python truthiness of an `Optional[str]`. -/
def truthyOpt : Option Txt → Bool
  | none => false
  | some s => decide (s ≠ [])

/-- Resolved rejected-words guard data interpolated into guarded statements. -/
structure RejectCfg where
  table : Txt
  userId : Int
  lang : Txt
deriving DecidableEq

/-- The statements `prepare_word_actions`, `_prepare_phrase_actions` and
`_append_homophone_link_queries` can emit. -/
inductive Stmt where
  | insertWord (guard : Option RejectCfg) (word : Txt) (assoc : Option Txt)
      (listId : Int) (ipa : Option Txt)
  | updateIpa (guard : Option RejectCfg) (word : Txt) (listId : Int) (ipa : Txt)
  | updateAssoc (guard : Option RejectCfg) (repair : Bool) (word : Txt)
      (listId : Int) (assoc : Txt)
  | homSelf (listId : Int) (word : Txt) (ipa : Txt)
  | homOther (listId : Int) (word : Txt) (ipa : Txt)
deriving DecidableEq

/-- The unguarded INSERT statement text. -/
def plainInsertSql : Txt :=
  txt "INSERT INTO words (word, used, association, state, list_id, successes, \"IPA_word\", added)\n        VALUES (%s, FALSE, %s, 'New', %s, 0, %s, TRUE)\n        ON CONFLICT (word, list_id) DO NOTHING;"

/-- The guarded INSERT statement text, with the validated table name
interpolated. -/
def guardedInsertSql (table : Txt) : Txt :=
  txt "INSERT INTO words (word, used, association, state, list_id, successes, \"IPA_word\", added)\nSELECT %s, FALSE, %s, 'New', %s, 0, %s, TRUE\nWHERE NOT EXISTS (SELECT 1 FROM "
  ++ table
  ++ txt " r WHERE r.user_id = %s AND r.language = %s AND r.palabra = %s)\nON CONFLICT (word, list_id) DO NOTHING;"

/-- The UPDATE of the transcription column (before the terminator/guard). -/
def updIpaBase : Txt :=
  txt "UPDATE words SET \"IPA_word\" = %s\n            WHERE word = %s AND list_id = %s AND \"IPA_word\" IS NULL"

/-- The word-mode UPDATE of `association` (with the 3-part LIKE repair). -/
def updAssocRepairBase : Txt :=
  txt "UPDATE words SET association = %s\n            WHERE word = %s AND list_id = %s AND (association IS NULL OR association = '' OR association LIKE '%%,%%,%%')"

/-- The phrase-mode UPDATE of `association`. -/
def updAssocPlainBase : Txt :=
  txt "UPDATE words SET association = %s\n            WHERE word = %s AND list_id = %s AND (association IS NULL OR association = '')"

/-- The guard tail appended to guarded UPDATE statements. -/
def updGuardTail (table : Txt) : Txt :=
  txt "\n              AND NOT EXISTS (SELECT 1 FROM "
  ++ table
  ++ txt " r WHERE r.user_id = %s AND r.language = %s AND r.palabra = %s);"

/-- The first homophone-link statement text (update the current word). -/
def homSelfSql : Txt :=
  txt "UPDATE words w1\n\t\t\tSET association = CASE\n\t\t\t\tWHEN w1.association IS NULL OR w1.association = '' THEN\n\t\t\t\t\t(\n\t\t\t\t\t\tSELECT string_agg(w2.word, '; ')\n\t\t\t\t\t\tFROM words w2\n\t\t\t\t\t\tWHERE w2.list_id = w1.list_id\n\t\t\t\t\t\t  AND w2.\"IPA_word\" = w1.\"IPA_word\"\n\t\t\t\t\t\t  AND w2.word <> w1.word\n\t\t\t\t\t\t  AND w2.word NOT LIKE '%% %%'\n\t\t\t\t\t\t  -- Exclude non-lexical variants (contraction prefixes / trailing punctuation)\n\t\t\t\t\t\t  AND w2.word NOT LIKE 'd''%%'\n\t\t\t\t\t\t  AND w2.word NOT LIKE 'l''%%'\n\t\t\t\t\t\t  AND w2.word NOT LIKE '%%.'\n\t\t\t\t\t\t  AND w2.word NOT LIKE '%%,'\n\t\t\t\t\t\t  AND w2.word NOT LIKE '%%;'\n\t\t\t\t\t\t  AND w2.word NOT LIKE '%%:'\n\t\t\t\t\t)\n\t\t\t\tWHEN position(' | homófonos: ' in w1.association) > 0 THEN\n\t\t\t\t\tw1.association || '; ' || (\n\t\t\t\t\t\tSELECT string_agg(w2.word, '; ')\n\t\t\t\t\t\tFROM words w2\n\t\t\t\t\t\tWHERE w2.list_id = w1.list_id\n\t\t\t\t\t\t  AND w2.\"IPA_word\" = w1.\"IPA_word\"\n\t\t\t\t\t\t  AND w2.word <> w1.word\n\t\t\t\t\t\t  AND w2.word NOT LIKE '%% %%'\n\t\t\t\t\t\t  AND w2.word NOT LIKE 'd''%%'\n\t\t\t\t\t\t  AND w2.word NOT LIKE 'l''%%'\n\t\t\t\t\t\t  AND w2.word NOT LIKE '%%.'\n\t\t\t\t\t\t  AND w2.word NOT LIKE '%%,'\n\t\t\t\t\t\t  AND w2.word NOT LIKE '%%;'\n\t\t\t\t\t\t  AND w2.word NOT LIKE '%%:'\n\t\t\t\t\t\t  AND NOT (\n\t\t\t\t\t\t\tw2.word = ANY(\n\t\t\t\t\t\t\t\tregexp_split_to_array(\n\t\t\t\t\t\t\t\t\tCASE\n\t\t\t\t\t\t\t\t\t\tWHEN position(' | homófonos: ' in w1.association) > 0 THEN split_part(w1.association, ' | homófonos: ', 2)\n\t\t\t\t\t\t\t\t\t\tELSE ''\n\t\t\t\t\t\t\t\t\tEND,\n\t\t\t\t\t\t\t\t\t'\\s*;\\s*'\n\t\t\t\t\t\t\t\t)\n\t\t\t\t\t\t\t)\n\t\t\t\t\t\t  )\n\t\t\t\t\t)\n\t\t\t\tELSE\n\t\t\t\t\tw1.association || ' | homófonos: ' || (\n\t\t\t\t\t\tSELECT string_agg(w2.word, '; ')\n\t\t\t\t\t\tFROM words w2\n\t\t\t\t\t\tWHERE w2.list_id = w1.list_id\n\t\t\t\t\t\t  AND w2.\"IPA_word\" = w1.\"IPA_word\"\n\t\t\t\t\t\t  AND w2.word <> w1.word\n\t\t\t\t\t\t  AND w2.word NOT LIKE '%% %%'\n\t\t\t\t\t\t  AND w2.word NOT LIKE 'd''%%'\n\t\t\t\t\t\t  AND w2.word NOT LIKE 'l''%%'\n\t\t\t\t\t\t  AND w2.word NOT LIKE '%%.'\n\t\t\t\t\t\t  AND w2.word NOT LIKE '%%,'\n\t\t\t\t\t\t  AND w2.word NOT LIKE '%%;'\n\t\t\t\t\t\t  AND w2.word NOT LIKE '%%:'\n\t\t\t\t\t\t  AND NOT (\n\t\t\t\t\t\t\tw2.word = ANY(\n\t\t\t\t\t\t\t\tregexp_split_to_array(\n\t\t\t\t\t\t\t\t\tCASE\n\t\t\t\t\t\t\t\t\t\tWHEN position(' | homófonos: ' in w1.association) > 0 THEN split_part(w1.association, ' | homófonos: ', 2)\n\t\t\t\t\t\t\t\t\t\tELSE ''\n\t\t\t\t\t\t\t\t\tEND,\n\t\t\t\t\t\t\t\t\t'\\s*;\\s*'\n\t\t\t\t\t\t\t\t)\n\t\t\t\t\t\t\t)\n\t\t\t\t\t\t  )\n\t\t\t\t\t)\n\t\t\tEND\n\t\t\tWHERE w1.list_id = %s\n\t\t\t  AND w1.word = %s\n\t\t\t  AND w1.\"IPA_word\" = %s\n\t\t\t  AND EXISTS (\n\t\t\t\tSELECT 1\n\t\t\t\tFROM words w2\n\t\t\t\tWHERE w2.list_id = w1.list_id\n\t\t\t\t  AND w2.\"IPA_word\" = w1.\"IPA_word\"\n\t\t\t\t  AND w2.word <> w1.word\n\t\t\t\t  AND w2.word NOT LIKE '%% %%'\n\t\t\t\t  AND w2.word NOT LIKE 'd''%%'\n\t\t\t\t  AND w2.word NOT LIKE 'l''%%'\n\t\t\t\t  AND w2.word NOT LIKE '%%.'\n\t\t\t\t  AND w2.word NOT LIKE '%%,'\n\t\t\t\t  AND w2.word NOT LIKE '%%;'\n\t\t\t\t  AND w2.word NOT LIKE '%%:'\n\t\t\t\t  AND NOT (\n\t\t\t\t\tw2.word = ANY(\n\t\t\t\t\t\tregexp_split_to_array(\n\t\t\t\t\t\t\tCASE\n\t\t\t\t\t\t\t\tWHEN position(' | homófonos: ' in COALESCE(w1.association, '')) > 0 THEN split_part(COALESCE(w1.association, ''), ' | homófonos: ', 2)\n\t\t\t\t\t\t\t\tELSE ''\n\t\t\t\t\t\t\tEND,\n\t\t\t\t\t\t\t'\\s*;\\s*'\n\t\t\t\t\t\t)\n\t\t\t\t\t)\n\t\t\t\t  )\n\t\t\t  );"

/-- The second homophone-link statement text (update the other homophones). -/
def homOtherSql : Txt :=
  txt "UPDATE words w\n\t\t\tSET association = CASE\n\t\t\t\tWHEN w.association IS NULL OR w.association = '' THEN %s\n\t\t\t\tWHEN position(' | homófonos: ' in w.association) > 0 THEN w.association || '; ' || %s\n\t\t\t\tELSE w.association || ' | homófonos: ' || %s\n\t\t\tEND\n\t\t\tWHERE w.list_id = %s\n\t\t\t  AND w.\"IPA_word\" = %s\n\t\t\t  AND w.word <> %s\n\t\t\t  AND w.word NOT LIKE '%% %%'\n\t\t\t  AND w.word NOT LIKE 'd''%%'\n\t\t\t  AND w.word NOT LIKE 'l''%%'\n\t\t\t  AND w.word NOT LIKE '%%.'\n\t\t\t  AND w.word NOT LIKE '%%,'\n\t\t\t  AND w.word NOT LIKE '%%;'\n\t\t\t  AND w.word NOT LIKE '%%:'\n\t\t\t  AND NOT (\n\t\t\t\t%s = ANY(\n\t\t\t\t\tregexp_split_to_array(\n\t\t\t\t\t\tCASE\n\t\t\t\t\t\t\tWHEN position(' | homófonos: ' in COALESCE(w.association, '')) > 0 THEN split_part(COALESCE(w.association, ''), ' | homófonos: ', 2)\n\t\t\t\t\t\t\tELSE ''\n\t\t\t\t\t\tEND,\n\t\t\t\t\t\t'\\s*;\\s*'\n\t\t\t\t\t)\n\t\t\t\t)\n\t\t\t  );"

/-- Render a statement to its SQL text and parameter tuple, exactly as the
source builds the `queries` pairs. -/
def renderStmt : Stmt → Txt × List Val
  | Stmt.insertWord g w assoc lid ipa =>
    match g with
    | none => (plainInsertSql, [Val.vstr w, optVal assoc, Val.vint lid, optVal ipa])
    | some cfg => (guardedInsertSql cfg.table,
        [Val.vstr w, optVal assoc, Val.vint lid, optVal ipa,
         Val.vint cfg.userId, Val.vstr cfg.lang, Val.vstr w])
  | Stmt.updateIpa g w lid ipa =>
    match g with
    | none => (updIpaBase ++ txt ";", [Val.vstr ipa, Val.vstr w, Val.vint lid])
    | some cfg => (updIpaBase ++ updGuardTail cfg.table,
        [Val.vstr ipa, Val.vstr w, Val.vint lid, Val.vint cfg.userId,
         Val.vstr cfg.lang, Val.vstr w])
  | Stmt.updateAssoc g repair w lid assoc =>
    match g with
    | none => ((if repair then updAssocRepairBase else updAssocPlainBase) ++ txt ";",
        [Val.vstr assoc, Val.vstr w, Val.vint lid])
    | some cfg => ((if repair then updAssocRepairBase else updAssocPlainBase)
          ++ updGuardTail cfg.table,
        [Val.vstr assoc, Val.vstr w, Val.vint lid, Val.vint cfg.userId,
         Val.vstr cfg.lang, Val.vstr w])
  | Stmt.homSelf lid w ipa => (homSelfSql, [Val.vint lid, Val.vstr w, Val.vstr ipa])
  | Stmt.homOther lid w ipa => (homOtherSql,
      [Val.vstr w, Val.vstr w, Val.vstr w, Val.vint lid, Val.vstr ipa,
       Val.vstr w, Val.vstr w])

/-- `[A-Za-z_]`. -/
def identStartChar (c : Char) : Bool :=
  ('A' ≤ c && c ≤ 'Z') || ('a' ≤ c && c ≤ 'z') || c = '_'

/-- `[A-Za-z0-9_]`. -/
def identChar (c : Char) : Bool := identStartChar c || ('0' ≤ c && c ≤ '9')

/-- One identifier component of the registry-name pattern. -/
def isIdentCore : Txt → Bool
  | [] => false
  | c :: rest => identStartChar c && rest.all identChar

/-- `re.fullmatch(r"[A-Za-z_][A-Za-z0-9_]*(?:\.[A-Za-z_][A-Za-z0-9_]*)?", t)`:
one identifier, optionally a dot and a second identifier. -/
def isValidTableIdent (t : Txt) : Bool :=
  match splitOnChar '.' t with
  | [a] => isIdentCore a
  | [a, b] => isIdentCore a && isIdentCore b
  | _ => false

/-- `_resolve_rejected_words_config`. -/
def resolveRejectedWordsConfig (userId : Option Int) (rejectedWordsTable : Option Txt)
    (language : Txt) : Except Txt (Int × Txt × Txt) :=
  let langNorm := pyLower (pyStrip language)
  match userId with
  | none => Except.error (txt "user_id is required to enforce rejected-words validation")
  | some uid =>
    let table0 := match rejectedWordsTable with
      | none => ([] : Txt)
      | some t => pyStrip t
    let table := if table0 = [] then txt "palabras_rechazadas" else table0
    Except.ok (uid, table, langNorm)

/-- `_canonical_word_for_homophones`. -/
def canonicalWordForHomophones (language word : Txt) : Txt :=
  let lang := pyLower (pyStrip language)
  let s := normalizeUserText lang word
  if lang = txt "fr" then frDropContractionPrefix s else s

/-- `_should_link_homophones_for_word`, with the `WORD_ADDER_LINK_HOMOPHONES`
environment switch abstracted into `linkEnabled`. -/
def shouldLinkHomophonesForWord (linkEnabled : Bool) (word : Txt) : Bool :=
  if ¬linkEnabled then false
  else if word = [] then false
  else if containsSub (txt " ") (pyStrip word) then false
  else decide (canonicalWordForHomophones (txt "fr") word = pyStrip word)

/-- `_append_homophone_link_queries`: the statements appended (if any). -/
def appendHomophoneLinkQueries (linkEnabled : Bool) (listId : Int) (word : Txt)
    (ipaWord : Option Txt) : List Stmt :=
  if ¬ truthyOpt ipaWord then []
  else if ¬ shouldLinkHomophonesForWord linkEnabled word then []
  else
    let ipa := pyStrip (ipaWord.getD [])
    if ipa = [] then []
    else [Stmt.homSelf listId word ipa, Stmt.homOther listId word ipa]

/-- An extra derived entry (`extra_entries` item): word, association, ipa. -/
structure ExtraEntry where
  word : Txt
  assoc : Option Txt
  ipa : Option Txt
deriving DecidableEq

/-- A verb paradigm row at emission time: phrase, association, ipa. -/
structure VerbRow where
  phrase : Txt
  assoc : Option Txt
  ipa : Option Txt
deriving DecidableEq

/-- `(x or "").strip() or None`. -/
def optOfStripped (x : Option Txt) : Option Txt :=
  let s := pyStrip (x.getD [])
  if s = [] then none else some s

/-- The data reaching the query-compilation tail of `prepare_word_actions`
(everything the emission code from line 1743 on reads). -/
structure WordInput where
  palabra : Txt
  listId : Int
  language : Txt
  userId : Option Int
  rejectedWordsTable : Option Txt
  association : Option Txt
  ipaWord : Option Txt
  isVerb : Bool
  isNounAndVerb : Bool
  extraEntries : List ExtraEntry
  verbEntries : List VerbRow
  linkEnabled : Bool
deriving DecidableEq

/-- The query-emission tail of `prepare_word_actions`, in source order. -/
def emitWordQueries (g : Option RejectCfg) (inp : WordInput) : List Stmt :=
  if ¬inp.isVerb && ¬inp.isNounAndVerb then
    [Stmt.insertWord g inp.palabra inp.association inp.listId inp.ipaWord]
    ++ inp.extraEntries.filterMap (fun e =>
        let w := pyStrip e.word
        if w = [] then none
        else some (Stmt.insertWord g w e.assoc inp.listId e.ipa))
    ++ (if truthyOpt inp.ipaWord
        then [Stmt.updateIpa g inp.palabra inp.listId (inp.ipaWord.getD [])]
        else [])
    ++ (if truthyOpt inp.association
        then [Stmt.updateAssoc g true inp.palabra inp.listId (inp.association.getD [])]
        else [])
    ++ appendHomophoneLinkQueries inp.linkEnabled inp.listId inp.palabra inp.ipaWord
  else
    (if inp.isNounAndVerb then
      [Stmt.insertWord g inp.palabra inp.association inp.listId inp.ipaWord]
      ++ (if truthyOpt inp.ipaWord
          then [Stmt.updateIpa g inp.palabra inp.listId (inp.ipaWord.getD [])]
          else [])
      ++ (if truthyOpt inp.association
          then [Stmt.updateAssoc g true inp.palabra inp.listId (inp.association.getD [])]
          else [])
      ++ appendHomophoneLinkQueries inp.linkEnabled inp.listId inp.palabra inp.ipaWord
     else [])
    ++ inp.verbEntries.filterMap (fun e =>
        let phraseItem := pyStrip e.phrase
        let assocItem := optOfStripped e.assoc
        let ipaItem := optOfStripped e.ipa
        if phraseItem = [] then none
        else some (Stmt.insertWord g phraseItem assocItem inp.listId ipaItem))

/-- The rejected-words resolution plus query compilation of
`prepare_word_actions` (single-word mode): a raised error, or the ordered
statement list. -/
def prepareWordActionsCompile (inp : WordInput) : Except Txt (List Stmt) :=
  match resolveRejectedWordsConfig inp.userId inp.rejectedWordsTable inp.language with
  | Except.error e => Except.error e
  | Except.ok (uid, table, langNorm) =>
    if pyStrip table ≠ [] then
      if ¬ isValidTableIdent (pyStrip table) then
        Except.error (txt "Invalid rejected_words_table identifier")
      else
        Except.ok (emitWordQueries (some ⟨pyStrip table, uid, langNorm⟩) inp)
    else Except.ok (emitWordQueries none inp)

/-- Inputs of the phrase-level block of `_prepare_phrase_actions` (after the
token sub-calls have produced their queries). -/
structure PhraseInput where
  phraseForStorage : Txt
  listId : Int
  language : Txt
  userId : Option Int
  rejectedWordsTable : Option Txt
  phraseAssociation : Option Txt
  phraseIpa : Option Txt
deriving DecidableEq

/-- `_already_inserts_word` over modelled statements: an `INSERT INTO words`
statement whose first parameter is the word and third the list id. -/
def alreadyInsertsWord (qs : List Stmt) (w : Txt) (lid : Int) : Bool :=
  qs.any (fun s => match s with
    | Stmt.insertWord _ w' _ lid' _ => decide (w' = w) && decide (lid' = lid)
    | _ => false)

/-- The phrase-level statement block of `_prepare_phrase_actions`. -/
def emitPhraseBlock (g : Option RejectCfg) (alreadyIns : Bool) (inp : PhraseInput) :
    List Stmt :=
  (if ¬ alreadyIns
   then [Stmt.insertWord g inp.phraseForStorage inp.phraseAssociation inp.listId
          inp.phraseIpa]
   else [])
  ++ (if truthyOpt inp.phraseIpa
      then [Stmt.updateIpa g inp.phraseForStorage inp.listId (inp.phraseIpa.getD [])]
      else [])
  ++ (if truthyOpt inp.phraseAssociation
      then [Stmt.updateAssoc g false inp.phraseForStorage inp.listId
             (inp.phraseAssociation.getD [])]
      else [])

/-- The compilation tail of `_prepare_phrase_actions`: token queries first,
then the phrase block. -/
def preparePhraseActionsCompile (tokenQueries : List Stmt) (inp : PhraseInput) :
    Except Txt (List Stmt) :=
  match resolveRejectedWordsConfig inp.userId inp.rejectedWordsTable inp.language with
  | Except.error e => Except.error e
  | Except.ok (uid, table, langNorm) =>
    let alreadyIns := alreadyInsertsWord tokenQueries inp.phraseForStorage inp.listId
    if pyStrip table ≠ [] then
      if ¬ isValidTableIdent (pyStrip table) then
        Except.error (txt "Invalid rejected_words_table identifier")
      else
        Except.ok (tokenQueries
          ++ emitPhraseBlock (some ⟨pyStrip table, uid, langNorm⟩) alreadyIns inp)
    else Except.ok (tokenQueries ++ emitPhraseBlock none alreadyIns inp)

/-- Placeholder scanner: walks statement text tracking a pending `%`; returns
the number of `%s` placeholders, or `none` if some `%` is neither a `%s`
placeholder nor part of a doubled `%%`. -/
def scanPS : Txt → Bool → Option Nat
  | [], true => none
  | [], false => some 0
  | c :: rest, true =>
    if c = 's' then (scanPS rest false).map (· + 1)
    else if c = '%' then scanPS rest false
    else none
  | c :: rest, false =>
    if c = '%' then scanPS rest true else scanPS rest false

/-- The guard of a statement is either absent or carries a valid table name. -/
def guardValid : Option RejectCfg → Bool
  | none => true
  | some cfg => isValidTableIdent cfg.table

/-- Guard validity of a statement (homophone statements carry no guard). -/
def stmtGuardValid : Stmt → Bool
  | Stmt.insertWord g _ _ _ _ => guardValid g
  | Stmt.updateIpa g _ _ _ => guardValid g
  | Stmt.updateAssoc g _ _ _ _ => guardValid g
  | Stmt.homSelf _ _ _ => true
  | Stmt.homOther _ _ _ => true

/-- The (word, list id) key an UPDATE statement targets. -/
def updKeyOf : Stmt → Option (Txt × Int)
  | Stmt.updateIpa _ w lid _ => some (w, lid)
  | Stmt.updateAssoc _ _ w lid _ => some (w, lid)
  | _ => none

/-- Is the statement an association UPDATE? -/
def isUpdAssoc : Stmt → Bool
  | Stmt.updateAssoc _ _ _ _ _ => true
  | _ => false

/-- Replay well-ordering check: walking the statement list, every UPDATE's
(word, list id) key must already have an insert-or-skip statement behind it,
and an IPA update for a key must not come after an association update for
that key. -/
def wordActionsOrdered : List (Txt × Int) → List (Txt × Int) → List Stmt → Bool
  | _, _, [] => true
  | ins, ad, s :: rest =>
    match s with
    | Stmt.insertWord _ w _ lid _ => wordActionsOrdered ((w, lid) :: ins) ad rest
    | Stmt.updateIpa _ w lid _ =>
      decide ((w, lid) ∈ ins) && decide ((w, lid) ∉ ad) &&
        wordActionsOrdered ins ad rest
    | Stmt.updateAssoc _ _ w lid _ =>
      decide ((w, lid) ∈ ins) && wordActionsOrdered ins ((w, lid) :: ad) rest
    | _ => wordActionsOrdered ins ad rest

/-- State of the replay check after a statement list: inserted keys and
association-updated keys. -/
def stAfter : (List (Txt × Int) × List (Txt × Int)) → List Stmt →
    (List (Txt × Int) × List (Txt × Int))
  | st, [] => st
  | (ins, ad), s :: rest =>
    match s with
    | Stmt.insertWord _ w _ lid _ => stAfter ((w, lid) :: ins, ad) rest
    | Stmt.updateAssoc _ _ w lid _ => stAfter (ins, (w, lid) :: ad) rest
    | _ => stAfter (ins, ad) rest

/-- One row of the `words` table (the columns the compiled statements touch). -/
structure Row where
  word : Txt
  listId : Int
  association : Option Txt
  ipaWord : Option Txt
deriving DecidableEq

/-- Database state: the `words` rows plus the rejected-words registry rows
(user id, language, palabra). -/
structure DB where
  rows : List Row
  rejected : List (Int × Txt × Txt)
deriving DecidableEq

/-- Does the NOT-EXISTS rejected-words guard pass for the given word? -/
def guardPasses (rej : List (Int × Txt × Txt)) : Option RejectCfg → Txt → Bool
  | none, _ => true
  | some cfg, w => decide ((cfg.userId, cfg.lang, w) ∉ rej)

/-- Number of occurrences of a character. -/
def countChar (c : Char) (t : Txt) : Nat := (t.filter (· = c)).length

/-- `association LIKE '%,%,%'`: at least two commas. -/
def likeTwoCommas (t : Txt) : Bool := decide (2 ≤ countChar ',' t)

/-- `_HOMOPHONE_SECTION_SEPARATOR`. -/
def SEPt : Txt := txt " | homófonos: "

/-- The candidate filter of the homophone-link SQL: single token, no
contraction prefix, no trailing punctuation. -/
def homWordFilter (w : Txt) : Bool :=
  ¬ containsSub (txt " ") w && ¬ leadsWith (txt "d'") w && ¬ leadsWith (txt "l'") w
  && ¬ trailsWith (txt ".") w && ¬ trailsWith (txt ",") w
  && ¬ trailsWith (txt ";") w && ¬ trailsWith (txt ":") w

/-- `split_part(t, sep, 2)`: the text between the first and second occurrence
of `sep` (to the end when `sep` occurs once; empty when it does not occur). -/
def splitPart2 (sep t : Txt) : Txt :=
  match splitFirstSub sep t with
  | none => []
  | some (_, b) =>
    match splitFirstSub sep b with
    | none => b
    | some (b1, _) => b1

/-- Tail pieces of `regexp_split_to_array(·, '\s*;\s*')` after the first. -/
def regexpSplitSemiTail : List Txt → List Txt
  | [] => []
  | [q] => [stripLeftWs q]
  | q :: qs => pyStrip q :: regexpSplitSemiTail qs

/-- `regexp_split_to_array(t, '\s*;\s*')`: split on semicolons, consuming the
whitespace around each semicolon (edge whitespace of `t` is kept). -/
def regexpSplitSemi (t : Txt) : List Txt :=
  match splitOnChar ';' t with
  | [] => []
  | [p] => [p]
  | p :: ps => stripRightWs p :: regexpSplitSemiTail ps

/-- The exclusion items of the homophone SQL for a (possibly null)
association: the PG `split_part` field after the separator, split on
`\s*;\s*`. -/
def homExclItems (assoc : Option Txt) : List Txt :=
  let a := assoc.getD []
  regexpSplitSemi (if containsSub SEPt a then splitPart2 SEPt a else [])

/-- The candidate condition of the homophone-link SQL for row `r` against the
linked word `w0` (optionally with the duplicate-exclusion list). -/
def homCandOk (lid : Int) (ipa : Txt) (w0 : Txt) (excl : Option (List Txt))
    (r : Row) : Bool :=
  decide (r.listId = lid) && decide (r.ipaWord = some ipa) && decide (r.word ≠ w0)
  && homWordFilter r.word
  && (match excl with | none => true | some ex => decide (r.word ∉ ex))

/-- Candidate homophone words drawn from the table. -/
def homCandidates (rows : List Row) (lid : Int) (ipa : Txt) (w0 : Txt)
    (excl : Option (List Txt)) : List Txt :=
  rows.filterMap (fun r => if homCandOk lid ipa w0 excl r then some r.word else none)

/-- The CASE expression of the second homophone statement: seed the
association, extend an existing homophone section, or start one. -/
def homAppendCase (assoc : Option Txt) (w0 : Txt) : Txt :=
  match assoc with
  | none => w0
  | some a =>
    if a = [] then w0
    else if containsSub SEPt a then a ++ txt "; " ++ w0
    else a ++ SEPt ++ w0

/-- The CASE expression of the first homophone statement: the aggregated
missing-candidate list seeds the association, extends an existing homophone
section, or starts one. -/
def homSelfNewAssoc (rows : List Row) (lid : Int) (ipa : Txt) (w0 : Txt)
    (assoc : Option Txt) : Txt :=
  match assoc with
  | none => joinSep (txt "; ") (homCandidates rows lid ipa w0 none)
  | some a =>
    if a = [] then joinSep (txt "; ") (homCandidates rows lid ipa w0 none)
    else if containsSub SEPt a then
      a ++ txt "; " ++ joinSep (txt "; ")
        (homCandidates rows lid ipa w0 (some (homExclItems (some a))))
    else
      a ++ SEPt ++ joinSep (txt "; ")
        (homCandidates rows lid ipa w0 (some (homExclItems (some a))))

/-- Execute one compiled statement against the database. -/
def execStmt (db : DB) : Stmt → DB
  | Stmt.insertWord g w assoc lid ipa =>
    if guardPasses db.rejected g w
        && ¬ db.rows.any (fun r => decide (r.word = w) && decide (r.listId = lid))
    then { db with rows := db.rows ++ [⟨w, lid, assoc, ipa⟩] }
    else db
  | Stmt.updateIpa g w lid ipa =>
    { db with rows := db.rows.map (fun r =>
        if decide (r.word = w) && decide (r.listId = lid) && decide (r.ipaWord = none)
            && guardPasses db.rejected g w
        then { r with ipaWord := some ipa } else r) }
  | Stmt.updateAssoc g repair w lid assoc =>
    { db with rows := db.rows.map (fun r =>
        if decide (r.word = w) && decide (r.listId = lid)
            && (decide (r.association = none) || decide (r.association = some [])
                || (repair && likeTwoCommas (r.association.getD [])))
            && guardPasses db.rejected g w
        then { r with association := some assoc } else r) }
  | Stmt.homSelf lid w ipa =>
    { db with rows := db.rows.map (fun r =>
        if decide (r.word = w) && decide (r.listId = lid)
            && decide (r.ipaWord = some ipa)
            && ¬ (homCandidates db.rows lid ipa w (some (homExclItems r.association))).isEmpty
        then { r with
                association := some (homSelfNewAssoc db.rows lid ipa w r.association) }
        else r) }
  | Stmt.homOther lid w0 ipa =>
    { db with rows := db.rows.map (fun r =>
        if decide (r.listId = lid) && decide (r.ipaWord = some ipa)
            && decide (r.word ≠ w0) && homWordFilter r.word
            && decide (w0 ∉ homExclItems r.association)
        then { r with association := some (homAppendCase r.association w0) }
        else r) }

/-- Execute a statement list in order. -/
def execAll (db : DB) (qs : List Stmt) : DB := qs.foldl execStmt db

/-- Locate the row of a (word, list id) key. -/
def findRow (rows : List Row) (w : Txt) (lid : Int) : Option Row :=
  rows.find? (fun r => decide (r.word = w) && decide (r.listId = lid))

/-- The (word, list id) key of a row. -/
def rowKey (r : Row) : Txt × Int := (r.word, r.listId)

/-- Statements whose interpolated word parameter is comma-free (the two forms
whose word can end up inside an association value). -/
def stmtWordCommaFree : Stmt → Bool
  | Stmt.insertWord _ w _ _ _ => decide (countChar ',' w = 0)
  | Stmt.homOther _ w _ => decide (countChar ',' w = 0)
  | _ => true

/-- `UPDATE words SET association = %s WHERE word = %s AND list_id = %s;`. -/
def updateAssocRows (rows : List Row) (w : Txt) (lid : Int) (v : Txt) : List Row :=
  rows.map (fun r => if r.word = w ∧ r.listId = lid
    then { r with association := some v } else r)

/-- `_append_homophone_to_association`. -/
def appendHomophoneToAssociation (association : Option Txt) (homophoneWord : Txt) :
    Txt :=
  let assoc := pyStrip (association.getD [])
  let h := pyStrip homophoneWord
  if h = [] then assoc
  else if assoc = [] then h
  else
    let bi : Txt × List Txt :=
      match splitFirstSub SEPt assoc with
      | none => (assoc, [])
      | some (base0, tail) =>
        (pyStrip base0, (splitOnChar ';' tail).filterMap (fun part =>
          let p := pyStrip part
          if p = [] then none else some p))
    if h ∈ bi.2 then assoc
    else bi.1 ++ SEPt ++ joinSep (txt "; ") (bi.2 ++ [h])

/-- One candidate iteration of `_link_homophones_in_db` (state: rows and the
tracked `current_assoc`). -/
def linkStep (lid : Int) (word : Txt) :
    List Row × Option Txt → Txt × Option Txt → List Row × Option Txt
  | (rows, currentAssoc), (otherWord, otherAssoc) =>
    let otherW := pyStrip otherWord
    if otherW = [] ∨ otherW = word then (rows, currentAssoc)
    else if canonicalWordForHomophones (txt "fr") otherW ≠ otherW
    then (rows, currentAssoc)
    else
      let newCurrent := appendHomophoneToAssociation currentAssoc otherW
      let st1 : List Row × Option Txt :=
        if newCurrent ≠ pyStrip (currentAssoc.getD [])
        then (updateAssocRows rows word lid newCurrent, some newCurrent)
        else (rows, currentAssoc)
      let newOther := appendHomophoneToAssociation otherAssoc word
      if newOther ≠ pyStrip (otherAssoc.getD [])
      then (updateAssocRows st1.1 otherW lid newOther, st1.2)
      else st1

/-- `_link_homophones_in_db`. -/
def linkHomophonesInDb (rows : List Row) (lid : Int) (word : Txt) (ipaWord : Txt) :
    List Row :=
  if ipaWord = [] then rows
  else if canonicalWordForHomophones (txt "fr") word ≠ word then rows
  else
    let ipa := pyStrip ipaWord
    if ipa = [] then rows
    else
      let candidates := rows.filterMap (fun r =>
        if decide (r.listId = lid) && decide (r.ipaWord = some ipa)
            && decide (r.word ≠ word) && ¬ containsSub (txt " ") r.word
        then some (r.word, r.association) else none)
      if candidates = [] then rows
      else
        let currentAssoc := (findRow rows word lid).bind Row.association
        (candidates.foldl (linkStep lid word) (rows, currentAssoc)).1

theorem leadsWith_append (p : Txt) : ∀ t, leadsWith p t = true → t = p ++ t.drop p.length := by
  induction p with
  | nil => intro t _; simp
  | cons x xs ih =>
    intro t h
    cases t with
    | nil => simp [leadsWith] at h
    | cons c cs =>
      simp only [leadsWith, Bool.and_eq_true, decide_eq_true_eq] at h
      obtain ⟨rfl, h2⟩ := h
      simpa using ih cs h2

theorem leadsWith_self_append (p r : Txt) : leadsWith p (p ++ r) = true := by
  induction p with
  | nil => simp [leadsWith]
  | cons x xs ih => simp [leadsWith, ih]

theorem take_append_of_le {n : Nat} (u v : List Char) (h : n ≤ u.length) :
    (u ++ v).take n = u.take n := by
  induction u generalizing n with
  | nil => simp at h; simp [h]
  | cons x xs ih =>
    cases n with
    | zero => simp
    | succ m => simp only [List.cons_append, List.take_succ_cons]
                exact congrArg (x :: ·) (ih (Nat.le_of_succ_le_succ h))

theorem leadsWith_eq_take (p : Txt) : ∀ t, leadsWith p t = leadsWith p (t.take p.length) := by
  induction p with
  | nil => intro t; simp [leadsWith]
  | cons x xs ih =>
    intro t
    cases t with
    | nil => simp
    | cons c cs => simp only [leadsWith, List.length_cons, List.take_succ_cons]
                   rw [ih cs]

theorem drop_append_self (u v : List Char) : (u ++ v).drop u.length = v := by
  induction u with
  | nil => simp
  | cons x xs ih => simpa using ih

theorem leadsWith_append_indep (p u v v' : Txt) (h : p.length ≤ u.length) :
    leadsWith p (u ++ v) = leadsWith p (u ++ v') := by
  rw [leadsWith_eq_take p (u ++ v), leadsWith_eq_take p (u ++ v'),
    take_append_of_le u v h, take_append_of_le u v' h]

/-- Specification of `splitFirstSub`: on success it decomposes the string at
an occurrence of `sep`, and no occurrence starts earlier. -/
theorem splitFirstSub_spec (sep : Txt) : ∀ t a b,
    splitFirstSub sep t = some (a, b) →
    t = a ++ sep ++ b ∧ ∀ k < a.length, leadsWith sep (t.drop k) = false := by
  intro t
  induction t with
  | nil =>
    intro a b hsome
    by_cases h : leadsWith sep [] = true
    · rw [show splitFirstSub sep [] = some ([], []) by simp [splitFirstSub, h]] at hsome
      simp only [Option.some.injEq, Prod.mk.injEq] at hsome
      obtain ⟨rfl, rfl⟩ := hsome
      refine ⟨by cases sep with | nil => rfl | cons s ss => simp [leadsWith] at h, ?_⟩
      intro k hk; simp at hk
    · rw [show splitFirstSub sep [] = none by simp [splitFirstSub, h]] at hsome
      simp at hsome
  | cons c rest ih =>
    intro a b hsome
    by_cases h : leadsWith sep (c :: rest) = true
    · rw [show splitFirstSub sep (c :: rest)
          = some ([], (c :: rest).drop sep.length) by simp [splitFirstSub, h]] at hsome
      simp only [Option.some.injEq, Prod.mk.injEq] at hsome
      obtain ⟨rfl, rfl⟩ := hsome
      refine ⟨by simpa using leadsWith_append sep (c :: rest) h, ?_⟩
      intro k hk; simp at hk
    · rw [show splitFirstSub sep (c :: rest)
          = (splitFirstSub sep rest).map (fun pr => (c :: pr.1, pr.2)) by
            simp [splitFirstSub, h]] at hsome
      simp only [Option.map_eq_some'] at hsome
      obtain ⟨⟨a', b'⟩, hrec, hpair⟩ := hsome
      simp only [Prod.mk.injEq] at hpair
      obtain ⟨ha, hb⟩ := hpair
      subst ha; subst hb
      obtain ⟨ht, hfirst⟩ := ih a' b' hrec
      constructor
      · simp [ht]
      · intro k hk
        cases k with
        | zero =>
          simpa using Bool.eq_false_iff.mpr (fun hcon => h hcon)
        | succ m =>
          simp only [List.drop_succ_cons]
          exact hfirst m (by simpa using Nat.lt_of_succ_lt_succ hk)

/-- `splitFirstSub` fails exactly when no position carries an occurrence. -/
theorem splitFirstSub_none (sep : Txt) : ∀ t,
    splitFirstSub sep t = none → ∀ k, leadsWith sep (t.drop k) = false := by
  intro t
  induction t with
  | nil =>
    intro hnone k
    by_cases h : leadsWith sep [] = true
    · rw [show splitFirstSub sep [] = some ([], []) by simp [splitFirstSub, h]] at hnone
      simp at hnone
    · simpa using Bool.eq_false_iff.mpr (fun hcon => h hcon)
  | cons c rest ih =>
    intro hnone k
    by_cases h : leadsWith sep (c :: rest) = true
    · rw [show splitFirstSub sep (c :: rest)
          = some ([], (c :: rest).drop sep.length) by simp [splitFirstSub, h]] at hnone
      simp at hnone
    · rw [show splitFirstSub sep (c :: rest)
          = (splitFirstSub sep rest).map (fun pr => (c :: pr.1, pr.2)) by
            simp [splitFirstSub, h]] at hnone
      simp only [Option.map_eq_none'] at hnone
      cases k with
      | zero =>
        simpa using Bool.eq_false_iff.mpr (fun hcon => h hcon)
      | succ m =>
        simp only [List.drop_succ_cons]
        exact ih hnone m

/-- Construction form: if no occurrence of `sep` starts inside `a`
(checked against continuation `sep ++ b`), the first split of
`a ++ sep ++ b` is at `a`. -/
theorem splitFirstSub_construct (sep : Txt) : ∀ a b,
    (∀ k < a.length, leadsWith sep (a.drop k ++ sep ++ b) = false) →
    splitFirstSub sep (a ++ sep ++ b) = some (a, b) := by
  intro a
  induction a with
  | nil =>
    intro b _
    have hl : leadsWith sep (sep ++ b) = true := leadsWith_self_append sep b
    cases hsb : sep ++ b with
    | nil =>
      have hsep : sep = [] := by cases sep with | nil => rfl | cons s ss => simp at hsb
      have hb : b = [] := by cases sep <;> simp_all
      subst hsep; subst hb
      simp [splitFirstSub, leadsWith]
    | cons x xs =>
      rw [hsb] at hl
      simp only [List.nil_append, hsb]
      rw [show splitFirstSub sep (x :: xs) = some ([], (x :: xs).drop sep.length) by
        simp [splitFirstSub, hl]]
      rw [← hsb, drop_append_self]
  | cons x xs ih =>
    intro b hno
    have h0 : leadsWith sep ((x :: xs) ++ sep ++ b) = false := by
      simpa using hno 0 (by simp)
    have hxs := ih b (fun k hk => by simpa using hno (k + 1) (by simpa using Nat.succ_lt_succ hk))
    simp only [List.cons_append, List.append_assoc] at h0 hxs ⊢
    rw [show splitFirstSub sep (x :: (xs ++ (sep ++ b)))
        = (splitFirstSub sep (xs ++ (sep ++ b))).map (fun pr => (x :: pr.1, pr.2)) by
      simp [splitFirstSub, h0]]
    rw [hxs]
    rfl

theorem containsSub_iff (sep t : Txt) :
    containsSub sep t = true ↔ ∃ k, leadsWith sep (t.drop k) = true := by
  constructor
  · intro h
    unfold containsSub at h
    rw [Option.isSome_iff_exists] at h
    obtain ⟨⟨a, b⟩, hab⟩ := h
    obtain ⟨ht, _⟩ := splitFirstSub_spec sep t a b hab
    exact ⟨a.length, by rw [ht]; simpa [List.append_assoc, drop_append_self]
      using leadsWith_self_append sep b⟩
  · intro ⟨k, hk⟩
    unfold containsSub
    rw [Option.isSome_iff_exists]
    by_contra hcon
    push_neg at hcon
    cases hsf : splitFirstSub sep t with
    | some pr => exact hcon pr hsf
    | none => rw [splitFirstSub_none sep t hsf k] at hk; exact Bool.false_ne_true hk

/-! ## Shape of accepted transcriptions -/

theorem singleSlash_decomp (raw : Txt) (h : isSingleSlashSegment raw = true) :
    raw = '/' :: insideOf raw ++ ['/'] ∧ insideOf raw ≠ [] := by
  unfold isSingleSlashSegment at h
  simp only [Bool.and_eq_true, decide_eq_true_eq, beq_iff_eq, List.all_eq_true] at h
  obtain ⟨⟨⟨hlen, hhead⟩, hlast⟩, _⟩ := h
  rcases List.eq_nil_or_concat raw with hnil | ⟨l', x, rfl⟩
  · subst hnil; simp at hlen
  · cases l' with
    | nil => simp at hlen
    | cons c l'' =>
      simp only [List.concat_eq_append] at hlen hhead hlast ⊢
      simp only [List.cons_append, List.head?_cons, Option.some.injEq] at hhead
      rw [List.getLast?_concat] at hlast
      simp only [Option.some.injEq] at hlast
      subst hhead; subst hlast
      have hin : insideOf ('/' :: l'' ++ ['/']) = l'' := by
        simp [insideOf, List.dropLast_concat]
      constructor
      · rw [hin]
      · rw [hin]
        intro hcon
        subst hcon
        simp at hlen

theorem leadsWith_ds_aux (mid : Txt) (hmid : ∀ c ∈ mid, c ≠ '/') :
    ∀ j, leadsWith (txt "//") ((mid ++ ['/']).drop j) = false := by
  induction mid with
  | nil =>
    intro j
    cases j with
    | zero => decide
    | succ m =>
      rw [List.nil_append, List.drop_succ_cons, List.drop_nil]
      decide
  | cons m ms ih =>
    intro j
    cases j with
    | zero =>
      have hm : m ≠ '/' := fun hc => hmid m (by simp) (by rw [hc])
      simp only [List.cons_append, List.drop_zero]
      show (decide ('/' = m) && leadsWith ('/' :: []) (ms ++ ['/'])) = false
      rw [decide_eq_false (fun hc => hm hc.symm), Bool.false_and]
    | succ k =>
      simp only [List.cons_append, List.drop_succ_cons]
      exact ih (fun c hc => hmid c (by simp [hc])) k

theorem no_double_slash (mid : Txt) (hne : mid ≠ []) (hmid : ∀ c ∈ mid, c ≠ '/') :
    containsSub (txt "//") ('/' :: mid ++ ['/']) = false := by
  by_contra hcon
  rw [Bool.not_eq_false, containsSub_iff] at hcon
  obtain ⟨k, hk⟩ := hcon
  cases k with
  | zero =>
    cases mid with
    | nil => exact hne rfl
    | cons m ms =>
      simp only [List.drop_zero, List.cons_append] at hk
      have hm : m ≠ '/' := fun hc => hmid m (by simp) (by rw [hc])
      rw [show (txt "//") = '/' :: '/' :: [] from rfl] at hk
      have hk' : (decide ('/' = '/') && (decide ('/' = m)
          && leadsWith ([] : Txt) (ms ++ ['/']))) = true := hk
      rw [show (decide ('/' = m)) = false from decide_eq_false (fun hc => hm hc.symm),
        Bool.false_and, Bool.and_false] at hk'
      exact Bool.false_ne_true hk'
  | succ j =>
    rw [show List.drop (j + 1) ('/' :: mid ++ ['/'])
        = List.drop j (mid ++ ['/']) from rfl] at hk
    rw [leadsWith_ds_aux mid hmid j] at hk
    exact Bool.false_ne_true hk

/-- Shared shape lemma: everything `_simple_ipa_from_text` accepts is exactly
one `/.../` segment with non-empty interior, no interior slash, no bracket
characters, and (hence) no raw `//` substring. -/
theorem simpleIpaFromText_shape (s t : Txt) (h : simpleIpaFromText s = some t) :
    t = '/' :: insideOf t ++ ['/'] ∧ insideOf t ≠ [] ∧
      (∀ c ∈ insideOf t, c ≠ '/' ∧ c ≠ '[' ∧ c ≠ ']') ∧
      containsSub (txt "//") t = false := by
  unfold simpleIpaFromText normalizeIpaWrapping at h
  set raw := pyStrip (pyStrip s) with hraw
  by_cases h0 : raw = []
  · rw [if_pos h0] at h; simp at h
  rw [if_neg h0] at h
  by_cases h1 : isSingleSlashSegment raw = true
  · rw [if_pos h1] at h
    by_cases h2 : ((insideOf raw).contains '[' || (insideOf raw).contains ']') = true
    · rw [if_pos h2] at h; simp at h
    · rw [if_neg h2] at h
      simp only [Option.some.injEq] at h
      subst h
      obtain ⟨hdec, hne⟩ := singleSlash_decomp raw h1
      simp only [Bool.or_eq_true, List.elem_iff] at h2
      push_neg at h2
      unfold isSingleSlashSegment at h1
      simp only [Bool.and_eq_true, decide_eq_true_eq, beq_iff_eq, List.all_eq_true] at h1
      refine ⟨hdec, hne, ?_, ?_⟩
      · intro c hc
        refine ⟨by simpa using h1.2 c hc, ?_, ?_⟩
        · intro hcon; exact h2.1 (hcon ▸ hc)
        · intro hcon; exact h2.2 (hcon ▸ hc)
      · rw [hdec]
        exact no_double_slash _ hne (fun c hc => by simpa using h1.2 c hc)
  · rw [if_neg h1] at h; simp at h

/-- C4 (amended): every transcription accepted by the completion-service
validation path (`_simple_ipa_from_text` / `_normalize_ipa_wrapping`) is
exactly one delimiter-wrapped segment `/.../` with non-empty interior, no
bracket characters, and no raw `//` sequence.  (The claim's further
whitespace-adjacent-liaison condition is not checked on this path, and the
dictionary-fallback path stores its value without any validation.) -/
theorem c4_accepted_transcription_shape (s t : Txt)
    (h : simpleIpaFromText s = some t) :
    t = '/' :: insideOf t ++ ['/'] ∧ insideOf t ≠ [] ∧
      (∀ c ∈ insideOf t, c ≠ '/' ∧ c ≠ '[' ∧ c ≠ ']') ∧
      containsSub (txt "//") t = false :=
  simpleIpaFromText_shape s t h

/-- C4 witness: the shape theorem applied at a concrete accepted input. -/
theorem c4_accepted_transcription_shape_witness :
    insideOf (txt "/l‿ami/") ≠ [] ∧ containsSub (txt "//") (txt "/l‿ami/") = false := by
  have h := c4_accepted_transcription_shape (txt "/l‿ami/") (txt "/l‿ami/") (by decide)
  exact ⟨h.2.1, h.2.2.2⟩

/-- C4 counterexample: `/a ‿b/` has whitespace directly adjacent to the
liaison marker `‿` (the source's own stricter checker rejects it), yet the
pipeline's acceptance function accepts and stores it. -/
theorem c4_counterexample :
    simpleIpaFromText (txt "/a ‿b/") = some (txt "/a ‿b/") ∧
      containsSub (txt " ‿") (insideOf (txt "/a ‿b/")) = true ∧
      ipaIsReasonablyWellFormed (some (txt "/a ‿b/")) = false := by
  refine ⟨by decide, by decide, by decide⟩

/-- C5 (amended): a phrase-level transcription from the completion service is
accepted only if it passes the delimiter-wrapping validation; in particular
every accepted value has the single-segment `/.../` shape.  The token-count
segmentation condition is not enforced on this path. -/
theorem c5_phrase_ipa_acceptance (parsedIpa : Option Txt) (raw t : Txt)
    (h : phraseIpaFromResponse parsedIpa raw = some t) :
    t = '/' :: insideOf t ++ ['/'] ∧ insideOf t ≠ [] ∧
      (∀ c ∈ insideOf t, c ≠ '/' ∧ c ≠ '[' ∧ c ≠ ']') ∧
      containsSub (txt "//") t = false := by
  cases parsedIpa with
  | none => exact simpleIpaFromText_shape raw t h
  | some m =>
    have h' : (if pyStrip m ≠ [] then simpleIpaFromText m else simpleIpaFromText raw)
        = some t := h
    by_cases hm : pyStrip m ≠ []
    · rw [if_pos hm] at h'
      exact simpleIpaFromText_shape m t h'
    · rw [if_neg hm] at h'
      exact simpleIpaFromText_shape raw t h'

/-- C5 witness: the acceptance-shape theorem at a concrete response. -/
theorem c5_phrase_ipa_acceptance_witness :
    insideOf (txt "/mez‿ami/") ≠ [] := by
  have h := c5_phrase_ipa_acceptance (some (txt "/mez‿ami/")) (txt "junk")
    (txt "/mez‿ami/") (by decide)
  exact h.2.1

/-- C5 counterexample: for the two-token French phrase "nous avons" the
service transcription `/nu z‿avɔ̃/` has three whitespace/liaison segments,
so the segment-count condition fails — yet the phrase path accepts it
(the checker `_ipa_is_reasonably_well_formed_for_phrase` is never applied). -/
theorem c5_counterexample :
    phraseIpaFromResponse (some (txt "/nu z‿avɔ̃/")) (txt "raw")
        = some (txt "/nu z‿avɔ̃/") ∧
      (tokenizePhrase (txt "fr") (txt "nous avons")).length = 2 ∧
      ipaWellFormedForPhrase (txt "fr") (txt "nous avons")
        (some (txt "/nu z‿avɔ̃/")) = false := by
  refine ⟨by decide, by decide, by decide⟩

/-! ## C8: plural-to-singular normalization -/

theorem frSingular_spec (w : Txt) (hs : pyStrip w = w) (hws : w.any pyIsWs = false) :
    frSingularCandidateForPluralNoun w =
      if (trailsWith (txt "eaux") (pyLower w) && decide (4 < w.length))
          || (trailsWith (txt "s") (pyLower w) && decide (3 < w.length))
      then some w.dropLast else none := by
  by_cases h0 : w = []
  · subst h0; simp [frSingularCandidateForPluralNoun, trailsWith, leadsWith, txt, pyLower]
  · unfold frSingularCandidateForPluralNoun
    simp only [hs, hws]
    rw [if_neg h0, if_neg (by simp)]
    by_cases h1 : (trailsWith (txt "eaux") (pyLower w) && decide (4 < w.length)) = true
    · simp [h1]
    · by_cases h2 : (trailsWith (txt "s") (pyLower w) && decide (3 < w.length)) = true
      · simp [h1, h2]
      · simp [h1, h2]

/-- C8: for a French single-token input classified as noun (and not verb or
noun_verb), the pipeline's plural-normalization step replaces the token by
its singular candidate (the token minus its final letter) exactly when the
lower-cased token ends in "eaux" with length > 4 or ends in "s" with
length > 3; all other tokens — including irregular "-aux" plurals — are left
unchanged, and the step never fires when the verb flags are set. -/
theorem c8_plural_singular_rule (w : Txt) (hs : pyStrip w = w)
    (hws : w.any pyIsWs = false) :
    (normalizePluralNounStep (txt "fr") true false false w =
      if (trailsWith (txt "eaux") (pyLower w) && decide (4 < w.length))
          || (trailsWith (txt "s") (pyLower w) && decide (3 < w.length))
      then w.dropLast else w)
    ∧ (∀ v nv : Bool, v = true ∨ nv = true →
        normalizePluralNounStep (txt "fr") true v nv w = w) := by
  constructor
  · unfold normalizePluralNounStep
    rw [if_pos (by decide)]
    simp only [hs, frSingular_spec w hs hws]
    by_cases hrule : ((trailsWith (txt "eaux") (pyLower w) && decide (4 < w.length))
        || (trailsWith (txt "s") (pyLower w) && decide (3 < w.length))) = true
    · rw [if_pos hrule, if_pos hrule]
      have hlen : 3 < w.length := by
        rcases Bool.or_eq_true _ _ |>.mp hrule with h | h
        · have := (Bool.and_eq_true _ _ |>.mp h).2
          simp only [decide_eq_true_eq] at this
          omega
        · have := (Bool.and_eq_true _ _ |>.mp h).2
          simp only [decide_eq_true_eq] at this
          omega
      have hne : w.dropLast ≠ [] := by
        intro hcon
        have := congrArg List.length hcon
        simp [List.length_dropLast] at this
        omega
      have hneq : w.dropLast ≠ w := by
        intro hcon
        have := congrArg List.length hcon
        simp [List.length_dropLast] at this
        omega
      show (if (decide (List.dropLast w ≠ []) && decide (List.dropLast w ≠ w)) = true
          then List.dropLast w else w) = List.dropLast w
      rw [if_pos (by simp [hne, hneq])]
    · rw [if_neg hrule, if_neg hrule]
  · intro v nv hvnv
    unfold normalizePluralNounStep
    rw [if_neg ?_]
    rcases hvnv with h | h <;> subst h <;> simp

/-- C8 witness: regular plural "livres" is singularized, irregular "-aux"
plural "travaux" is left unchanged. -/
theorem c8_plural_singular_rule_witness :
    normalizePluralNounStep (txt "fr") true false false (txt "livres") = txt "livre" ∧
      normalizePluralNounStep (txt "fr") true false false (txt "travaux") = txt "travaux" := by
  have h1 := (c8_plural_singular_rule (txt "livres") (by decide) (by decide)).1
  have h2 := (c8_plural_singular_rule (txt "travaux") (by decide) (by decide)).1
  constructor
  · rw [h1]; decide
  · rw [h2]; decide

/-- Unfolding lemmas for `collapseWs`. -/
theorem collapseWs_cons_ws {a : Char} {rest : Txt} (ha : pyIsWs a = true) :
    collapseWs (a :: rest)
      = (if (collapseWs rest).head? = some ' ' then collapseWs rest
         else ' ' :: collapseWs rest) := by
  simp [collapseWs, ha]

theorem collapseWs_cons_nws {a : Char} {rest : Txt} (ha : pyIsWs a = false) :
    collapseWs (a :: rest) = a :: collapseWs rest := by
  simp [collapseWs, ha]

/-- Characters of `collapseWs t` are non-whitespace characters of `t` or `' '`. -/
theorem mem_collapseWs : ∀ t, ∀ c ∈ collapseWs t, (c ∈ t ∧ pyIsWs c = false) ∨ c = ' ' := by
  intro t
  induction t with
  | nil => intro c hc; simp [collapseWs] at hc
  | cons a rest ih =>
    intro c hc
    by_cases ha : pyIsWs a = true
    · rw [collapseWs_cons_ws ha] at hc
      have step : c ∈ collapseWs rest ∨ c = ' ' := by
        by_cases hh : (collapseWs rest).head? = some ' '
        · rw [if_pos hh] at hc; left; exact hc
        · rw [if_neg hh] at hc
          rcases List.mem_cons.mp hc with h | h
          · right; exact h
          · left; exact h
      rcases step with h | h
      · rcases ih c h with ⟨h1, h2⟩ | h1
        · left; exact ⟨List.mem_cons_of_mem _ h1, h2⟩
        · right; exact h1
      · right; exact h
    · rw [collapseWs_cons_nws (by simpa using ha)] at hc
      rcases List.mem_cons.mp hc with h | h
      · subst h; left; exact ⟨List.mem_cons_self _ _, by simpa using ha⟩
      · rcases ih c h with ⟨h1, h2⟩ | h1
        · left; exact ⟨List.mem_cons_of_mem _ h1, h2⟩
        · right; exact h1

theorem noAdjWs_tail {a : Char} {t : Txt} (h : noAdjWs (a :: t) = true) : noAdjWs t = true := by
  cases t with
  | nil => rfl
  | cons b rest =>
    have h' : (!(pyIsWs a && pyIsWs b) && noAdjWs (b :: rest)) = true := h
    exact (Bool.and_eq_true _ _ |>.mp h').2

theorem noAdjWs_cons {a b : Char} {t : Txt} (h : noAdjWs (a :: b :: t) = true) :
    (pyIsWs a && pyIsWs b) = false := by
  have h' : (!(pyIsWs a && pyIsWs b) && noAdjWs (b :: t)) = true := h
  have h2 := (Bool.and_eq_true _ _ |>.mp h').1
  cases hb : (pyIsWs a && pyIsWs b) with
  | false => rfl
  | true => rw [hb] at h2; simp at h2

theorem noAdjWs_of_append_right : ∀ (u m : Txt), noAdjWs (u ++ m) = true → noAdjWs m = true := by
  intro u
  induction u with
  | nil => intro m h; simpa using h
  | cons a u' ih => intro m h; exact ih m (noAdjWs_tail h)

theorem noAdjWs_of_append_left : ∀ (m v : Txt), noAdjWs (m ++ v) = true → noAdjWs m = true := by
  intro m
  induction m with
  | nil => intro v _; rfl
  | cons a m' ih =>
    intro v h
    cases m' with
    | nil => rfl
    | cons b rest =>
      have hpair : (pyIsWs a && pyIsWs b) = false := @noAdjWs_cons _ _ (rest ++ v) h
      have htail : noAdjWs (b :: rest) = true := ih v (noAdjWs_tail h)
      show (!(pyIsWs a && pyIsWs b) && noAdjWs (b :: rest)) = true
      rw [hpair, htail]
      rfl

/-- `collapseWs` output has no whitespace character besides `' '`. -/
theorem ws_mem_collapseWs {t : Txt} {c : Char} (hc : c ∈ collapseWs t)
    (hws : pyIsWs c = true) : c = ' ' := by
  rcases mem_collapseWs t c hc with ⟨_, h2⟩ | h1
  · rw [hws] at h2; cases h2
  · exact h1

theorem noAdjWs_collapseWs : ∀ t, noAdjWs (collapseWs t) = true := by
  intro t
  induction t with
  | nil => rfl
  | cons a rest ih =>
    by_cases ha : pyIsWs a = true
    · rw [collapseWs_cons_ws ha]
      by_cases hh : (collapseWs rest).head? = some ' '
      · rw [if_pos hh]; exact ih
      · rw [if_neg hh]
        cases hr : collapseWs rest with
        | nil => rfl
        | cons d ds =>
          have hd : pyIsWs d = false := by
            by_contra hcon
            rw [Bool.not_eq_false] at hcon
            have : d = ' ' := ws_mem_collapseWs (by rw [hr]; exact List.mem_cons_self _ _) hcon
            rw [hr, this] at hh
            simp at hh
          show (!(pyIsWs ' ' && pyIsWs d) && noAdjWs (d :: ds)) = true
          rw [hd, ← hr]
          simpa using ih
    · rw [collapseWs_cons_nws (by simpa using ha)]
      cases hr : collapseWs rest with
      | nil => rfl
      | cons d ds =>
        show (!(pyIsWs a && pyIsWs d) && noAdjWs (d :: ds)) = true
        rw [show pyIsWs a = false by simpa using ha, ← hr]
        simpa using ih

/-- `collapseWs` is the identity on texts whose whitespace is canonical. -/
theorem collapseWs_eq_self : ∀ t, (∀ c ∈ t, pyIsWs c = true → c = ' ') →
    noAdjWs t = true → collapseWs t = t := by
  intro t
  induction t with
  | nil => intro _ _; rfl
  | cons a rest ih =>
    intro hall hadj
    by_cases ha : pyIsWs a = true
    · have ha' : a = ' ' := hall a (List.mem_cons_self _ _) ha
      subst ha'
      rw [collapseWs_cons_ws ha]
      have hrest : collapseWs rest = rest :=
        ih (fun c hc hw => hall c (List.mem_cons_of_mem _ hc) hw) (noAdjWs_tail hadj)
      rw [hrest]
      cases rest with
      | nil => simp
      | cons b rs =>
        have hb : pyIsWs b = false := by
          have := noAdjWs_cons hadj
          simpa [ha] using this
        rw [if_neg ?_]
        simp only [List.head?_cons, Option.some.injEq]
        intro hcon
        rw [hcon] at hb
        simp [pyIsWs] at hb
    · rw [collapseWs_cons_nws (by simpa using ha)]
      rw [ih (fun c hc hw => hall c (List.mem_cons_of_mem _ hc) hw) (noAdjWs_tail hadj)]

theorem stripLeftWs_suffix (t : Txt) : ∃ u, t = u ++ stripLeftWs t :=
  ⟨t.takeWhile pyIsWs, (List.takeWhile_append_dropWhile ..).symm⟩

theorem stripRightWs_prefix (t : Txt) : ∃ v, t = stripRightWs t ++ v := by
  refine ⟨(t.reverse.takeWhile pyIsWs).reverse, ?_⟩
  unfold stripRightWs
  rw [← List.reverse_append, List.takeWhile_append_dropWhile, List.reverse_reverse]

/-- `pyStrip t` is a contiguous infix of `t`. -/
theorem pyStrip_infix (t : Txt) : ∃ u v, t = u ++ pyStrip t ++ v := by
  obtain ⟨u, hu⟩ := stripLeftWs_suffix t
  obtain ⟨v, hv⟩ := stripRightWs_prefix (stripLeftWs t)
  refine ⟨u, v, ?_⟩
  calc t = u ++ stripLeftWs t := hu
    _ = u ++ (stripRightWs (stripLeftWs t) ++ v) := by rw [← hv]
    _ = u ++ pyStrip t ++ v := by simp [pyStrip]

theorem head_dropWhile_false {p : Char → Bool} : ∀ (t : Txt) {c : Char},
    (t.dropWhile p).head? = some c → p c = false := by
  intro t
  induction t with
  | nil => intro c h; simp at h
  | cons a rest ih =>
    intro c h
    by_cases ha : p a = true
    · rw [List.dropWhile_cons_of_pos ha] at h
      exact ih h
    · rw [List.dropWhile_cons_of_neg (by simpa using ha)] at h
      simp only [List.head?_cons, Option.some.injEq] at h
      subst h
      simpa using ha

theorem pyStrip_head (t : Txt) {c : Char} (h : (pyStrip t).head? = some c) :
    pyIsWs c = false := by
  unfold pyStrip stripRightWs at h
  obtain ⟨v, hv⟩ := stripRightWs_prefix (stripLeftWs t)
  unfold stripRightWs at hv
  have hne : ((stripLeftWs t).reverse.dropWhile pyIsWs).reverse ≠ [] := by
    intro hcon; rw [hcon] at h; simp at h
  have : (stripLeftWs t).head? = some c := by
    rw [hv, List.head?_append, h]
    rfl
  exact head_dropWhile_false t this

theorem pyStrip_last (t : Txt) {c : Char} (h : (pyStrip t).getLast? = some c) :
    pyIsWs c = false := by
  unfold pyStrip stripRightWs at h
  rw [List.getLast?_reverse] at h
  exact head_dropWhile_false (stripLeftWs t).reverse h

theorem stripLeftWs_eq_self {t : Txt} (h : ∀ c, t.head? = some c → pyIsWs c = false) :
    stripLeftWs t = t := by
  cases t with
  | nil => rfl
  | cons a rest =>
    unfold stripLeftWs
    rw [List.dropWhile_cons_of_neg]
    simp [h a rfl]

theorem stripRightWs_eq_self {t : Txt} (h : ∀ c, t.getLast? = some c → pyIsWs c = false) :
    stripRightWs t = t := by
  unfold stripRightWs
  rw [show t.reverse.dropWhile pyIsWs = t.reverse from ?_, List.reverse_reverse]
  cases hr : t.reverse with
  | nil => rfl
  | cons a rest =>
    rw [List.dropWhile_cons_of_neg]
    have : t.getLast? = some a := by
      rw [← List.head?_reverse, hr]
      rfl
    simp [h a this]

theorem pyStrip_eq_self {t : Txt}
    (hh : ∀ c, t.head? = some c → pyIsWs c = false)
    (hl : ∀ c, t.getLast? = some c → pyIsWs c = false) :
    pyStrip t = t := by
  unfold pyStrip
  rw [stripLeftWs_eq_self hh, stripRightWs_eq_self hl]

theorem dropWhile_eq_self_of_all {p : Char → Bool} : ∀ (t : Txt),
    (∀ c ∈ t, p c = false) → t.dropWhile p = t := by
  intro t h
  cases t with
  | nil => rfl
  | cons a rest =>
    rw [List.dropWhile_cons_of_neg]
    simp [h a (List.mem_cons_self _ _)]

theorem pyStripChars_eq_self {set : Txt} {t : Txt}
    (h : ∀ c ∈ t, set.contains c = false) : pyStripChars set t = t := by
  unfold pyStripChars
  rw [dropWhile_eq_self_of_all t (fun c hc => h c hc),
    dropWhile_eq_self_of_all t.reverse (fun c hc => h c (List.mem_reverse.mp hc)),
    List.reverse_reverse]

theorem lookup_some_mem : ∀ {l : List (Char × Char)} {k v : Char},
    l.lookup k = some v → (k, v) ∈ l := by
  intro l
  induction l with
  | nil => intro k v h; simp [List.lookup] at h
  | cons p rest ih =>
    intro k v h
    rw [List.lookup] at h
    cases hk : (k == p.1) with
    | true =>
      rw [hk] at h
      simp only [Option.some.injEq] at h
      subst h
      have : k = p.1 := by simpa using hk
      rw [this]
      exact List.mem_cons_self _ _
    | false =>
      rw [hk] at h
      exact List.mem_cons_of_mem _ (ih h)

/-- Facts about the lower-case table, checked by computation: keys and values
are never whitespace, never apostrophes (plain or typographic), never in the
punctuation sets, and no value is itself a key. -/
theorem lowerTable_facts : ∀ p ∈ lowerTable,
    pyIsWs p.1 = false ∧ pyIsWs p.2 = false ∧ p.2 ≠ '\'' ∧
      unicodeApostrophes.contains p.2 = false ∧ ttsPunctSet.contains p.2 = false ∧
      stripEdgeSet.contains p.2 = false ∧ lowerTable.lookup p.2 = none := by decide

theorem lowerChar_idem (c : Char) : lowerChar (lowerChar c) = lowerChar c := by
  unfold lowerChar
  cases h : lowerTable.lookup c with
  | none => simp [h]
  | some v =>
    simp only [Option.getD_some]
    rw [(lowerTable_facts _ (lookup_some_mem h)).2.2.2.2.2.2]
    rfl

theorem lowerChar_ws (c : Char) : pyIsWs (lowerChar c) = pyIsWs c := by
  unfold lowerChar
  cases h : lowerTable.lookup c with
  | none => rfl
  | some v =>
    have hf := lowerTable_facts _ (lookup_some_mem h)
    simp only [Option.getD_some]
    rw [hf.2.1, hf.1]

theorem lowerChar_pres {bad : Char → Bool} (hval : ∀ p ∈ lowerTable, bad p.2 = false)
    {c : Char} (hc : bad c = false) : bad (lowerChar c) = false := by
  unfold lowerChar
  cases h : lowerTable.lookup c with
  | none => simpa using hc
  | some v => simpa using hval _ (lookup_some_mem h)

theorem noAdjWs_map_lower : ∀ t, noAdjWs (pyLower t) = noAdjWs t := by
  intro t
  induction t with
  | nil => rfl
  | cons a rest ih =>
    cases rest with
    | nil => rfl
    | cons b rest' =>
      show (!(pyIsWs (lowerChar a) && pyIsWs (lowerChar b))
          && noAdjWs (lowerChar b :: pyLower rest'))
        = (!(pyIsWs a && pyIsWs b) && noAdjWs (b :: rest'))
      rw [lowerChar_ws a, lowerChar_ws b]
      have hih : noAdjWs (lowerChar b :: pyLower rest') = noAdjWs (b :: rest') := ih
      rw [hih]

theorem mem_pyStrip {t : Txt} {c : Char} (h : c ∈ pyStrip t) : c ∈ t := by
  obtain ⟨u, v, huv⟩ := pyStrip_infix t
  rw [huv]
  simp only [List.mem_append]
  left; right; exact h

theorem mem_pyStripChars {set t : Txt} {c : Char} (h : c ∈ pyStripChars set t) : c ∈ t := by
  unfold pyStripChars at h
  rw [List.mem_reverse] at h
  have h1 := (List.dropWhile_sublist (set.contains ·)).mem h
  rw [List.mem_reverse] at h1
  exact (List.dropWhile_sublist (set.contains ·)).mem h1

theorem wsCanonical_normCore (x : Txt) : wsCanonical (pyStrip (collapseWs x)) := by
  refine ⟨?_, ?_, ?_, ?_⟩
  · intro c hc hw
    exact ws_mem_collapseWs (mem_pyStrip hc) hw
  · obtain ⟨u, v, huv⟩ := pyStrip_infix (collapseWs x)
    have h := noAdjWs_collapseWs x
    rw [huv] at h
    exact noAdjWs_of_append_left _ _ (noAdjWs_of_append_right u _ (by rwa [List.append_assoc] at h))
  · intro c hc; exact pyStrip_head _ hc
  · intro c hc; exact pyStrip_last _ hc

theorem wsCanonical_eq_self {t : Txt} (h : wsCanonical t) :
    pyStrip t = t ∧ collapseWs t = t :=
  ⟨pyStrip_eq_self h.2.2.1 h.2.2.2, collapseWs_eq_self t h.1 h.2.1⟩

theorem wsCanonical_lower {t : Txt} (h : wsCanonical t) : wsCanonical (pyLower t) := by
  obtain ⟨h1, h2, h3, h4⟩ := h
  refine ⟨?_, ?_, ?_, ?_⟩
  · intro c hc hw
    obtain ⟨c', hc', rfl⟩ := List.mem_map.mp hc
    rw [lowerChar_ws] at hw
    rw [h1 c' hc' hw]
    rfl
  · rw [noAdjWs_map_lower]; exact h2
  · intro c hc
    unfold pyLower at hc
    rw [List.head?_map] at hc
    cases ht : t.head? with
    | none => rw [ht] at hc; simp at hc
    | some d =>
      rw [ht] at hc
      simp only [Option.map_some', Option.some.injEq] at hc
      subst hc
      rw [lowerChar_ws]
      exact h3 d ht
  · intro c hc
    unfold pyLower at hc
    rw [List.getLast?_map] at hc
    cases ht : t.getLast? with
    | none => rw [ht] at hc; simp at hc
    | some d =>
      rw [ht] at hc
      simp only [Option.map_some', Option.some.injEq] at hc
      subst hc
      rw [lowerChar_ws]
      exact h4 d ht

theorem dropWhile_eq_self_of_head {p : Char → Bool} {t : Txt}
    (h : ∀ c, t.head? = some c → p c = false) : t.dropWhile p = t := by
  cases t with
  | nil => rfl
  | cons a rest =>
    rw [List.dropWhile_cons_of_neg]
    simp [h a rfl]

theorem pyStripChars_eq_self_edges {set t : Txt}
    (hh : ∀ c, t.head? = some c → set.contains c = false)
    (hl : ∀ c, t.getLast? = some c → set.contains c = false) :
    pyStripChars set t = t := by
  unfold pyStripChars
  rw [dropWhile_eq_self_of_head hh, dropWhile_eq_self_of_head ?_, List.reverse_reverse]
  intro c hc
  rw [List.head?_reverse] at hc
  exact hl c hc

theorem absent_normCore {bad : Char → Bool} (hsp : bad ' ' = false) {x : Txt}
    (hx : ∀ c ∈ x, bad c = false) : ∀ c ∈ pyStrip (collapseWs x), bad c = false := by
  intro c hc
  rcases mem_collapseWs x c (mem_pyStrip hc) with ⟨h1, _⟩ | h1
  · exact hx c h1
  · rw [h1]; exact hsp

theorem absent_pyLower {bad : Char → Bool} (hval : ∀ p ∈ lowerTable, bad p.2 = false)
    {x : Txt} (hx : ∀ c ∈ x, bad c = false) : ∀ c ∈ pyLower x, bad c = false := by
  intro c hc
  obtain ⟨c', hc', rfl⟩ := List.mem_map.mp hc
  exact lowerChar_pres hval (hx c' hc')

theorem normApos_absent (s : Txt) :
    ∀ c ∈ normalizeApostrophes s, unicodeApostrophes.contains c = false := by
  intro c hc
  obtain ⟨c', _, rfl⟩ := List.mem_map.mp hc
  by_cases h : unicodeApostrophes.contains c' = true
  · rw [if_pos h]; decide
  · rw [if_neg h]; simpa using h

/-- Absence of bad characters in `_normalize_user_text` output, given absence
after the edge-stripping stage. -/
theorem nu_absent {bad : Char → Bool} (hsp : bad ' ' = false)
    (hval : ∀ p ∈ lowerTable, bad p.2 = false) (lang s : Txt)
    (hs : ∀ c ∈ pyStripChars stripEdgeSet (pyStrip (normalizeApostrophes s)), bad c = false) :
    ∀ c ∈ normalizeUserText lang s, bad c = false := by
  intro c hc
  unfold normalizeUserText stripEdgePunctuation at hc
  have hcore := absent_normCore hsp hs
  by_cases hl : (pyLower lang = txt "fr" || pyLower lang = txt "de") = true
  · rw [if_pos hl] at hc
    exact absent_pyLower hval hcore c hc
  · rw [if_neg hl] at hc
    exact hcore c hc

/-- Whitespace canonicity of `_normalize_user_text` output. -/
theorem nu_wsCanonical (lang s : Txt) : wsCanonical (normalizeUserText lang s) := by
  unfold normalizeUserText stripEdgePunctuation
  by_cases hl : (pyLower lang = txt "fr" || pyLower lang = txt "de") = true
  · rw [if_pos hl]
    exact wsCanonical_lower (wsCanonical_normCore _)
  · rw [if_neg hl]
    exact wsCanonical_normCore _

/-- Fancy apostrophes never survive `_normalize_user_text`. -/
theorem nu_no_fancy (lang s : Txt) :
    ∀ c ∈ normalizeUserText lang s, unicodeApostrophes.contains c = false := by
  refine nu_absent (by decide) (fun p hp => (lowerTable_facts p hp).2.2.2.1) lang s ?_
  intro c hc
  exact normApos_absent s c (mem_pyStrip (mem_pyStripChars hc))

/-- For fr/de, `_normalize_user_text` output is fully lower-cased. -/
theorem nu_lowered (lang s : Txt)
    (hl : (pyLower lang = txt "fr" || pyLower lang = txt "de") = true) :
    pyLower (normalizeUserText lang s) = normalizeUserText lang s := by
  unfold normalizeUserText stripEdgePunctuation
  rw [if_pos hl]
  unfold pyLower
  rw [List.map_map]
  exact List.map_congr_left (fun c _ => lowerChar_idem c)

/-- `_normalize_user_text` is the identity on texts that are already clean. -/
theorem nu_eq_self {lang t : Txt} (hws : wsCanonical t)
    (hfancy : ∀ c ∈ t, unicodeApostrophes.contains c = false)
    (hh : ∀ c, t.head? = some c → stripEdgeSet.contains c = false)
    (hl : ∀ c, t.getLast? = some c → stripEdgeSet.contains c = false)
    (hlow : (pyLower lang = txt "fr" || pyLower lang = txt "de") = true →
      pyLower t = t) :
    normalizeUserText lang t = t := by
  unfold normalizeUserText stripEdgePunctuation
  have h1 : normalizeApostrophes t = t := by
    unfold normalizeApostrophes
    rw [show t.map _ = t.map id from List.map_congr_left ?_, List.map_id]
    intro c hc
    rw [if_neg ?_]
    · rfl
    · intro hmem
      rw [hfancy c hc] at hmem
      exact Bool.false_ne_true hmem
  rw [h1, (wsCanonical_eq_self hws).1, pyStripChars_eq_self_edges hh hl]
  show (if (pyLower lang = txt "fr" || pyLower lang = txt "de") = true
      then pyLower (pyStrip (collapseWs t)) else pyStrip (collapseWs t)) = t
  rw [(wsCanonical_eq_self hws).2, (wsCanonical_eq_self hws).1]
  by_cases hfr : (pyLower lang = txt "fr" || pyLower lang = txt "de") = true
  · rw [if_pos hfr]; exact hlow hfr
  · rw [if_neg hfr]

theorem contains_append (u v : Txt) (c : Char) :
    (u ++ v).contains c = (u.contains c || v.contains c) := by
  induction u with
  | nil => simp
  | cons a u' ih =>
    by_cases h : a == c
    · simp [List.contains_cons, h, Bool.or_assoc]
    · simp only [List.cons_append, List.contains_cons, ih, Bool.or_assoc]

theorem pyLower_idem (t : Txt) : pyLower (pyLower t) = pyLower t := by
  unfold pyLower
  rw [List.map_map]
  exact List.map_congr_left (fun c _ => lowerChar_idem c)

theorem nu_nil (lang : Txt) : normalizeUserText lang [] = [] := by
  unfold normalizeUserText stripEdgePunctuation
  show (if (pyLower lang = txt "fr" || pyLower lang = txt "de") = true
      then pyLower (pyStrip (collapseWs (pyStripChars stripEdgeSet
        (pyStrip (normalizeApostrophes []))))) else _) = []
  rw [show pyStrip (collapseWs (pyStripChars stripEdgeSet
    (pyStrip (normalizeApostrophes [])))) = [] from rfl]
  split <;> rfl

theorem tts_nil (lang : Txt) : normalizePhraseForTtsStorage lang [] = [] := by
  unfold normalizePhraseForTtsStorage
  simp only [nu_nil]
  rw [if_pos trivial]

theorem absent_mapPunct {bad : Char → Bool} (hsp : bad ' ' = false) {x : Txt}
    (hx : ∀ c ∈ x, bad c = false ∨ ttsPunctSet.contains c = true) :
    ∀ c ∈ x.map (fun c => if ttsPunctSet.contains c then ' ' else c), bad c = false := by
  intro c hc
  obtain ⟨c', hc', rfl⟩ := List.mem_map.mp hc
  by_cases h : ttsPunctSet.contains c' = true
  · rw [if_pos h]; exact hsp
  · rw [if_neg h]
    rcases hx c' hc' with h1 | h1
    · exact h1
    · exact absurd h1 h

theorem mapPunct_absent (x : Txt) :
    ∀ c ∈ x.map (fun c => if ttsPunctSet.contains c then ' ' else c),
      ttsPunctSet.contains c = false := by
  intro c hc
  obtain ⟨c', _, rfl⟩ := List.mem_map.mp hc
  by_cases h : ttsPunctSet.contains c' = true
  · rw [if_pos h]; decide
  · rw [if_neg h]; simpa using h

theorem tts_eq (lang s : Txt) :
    normalizePhraseForTtsStorage lang s =
      (if normalizeUserText (pyLower (pyStrip lang)) s = [] then []
       else ttsFinish (pyLower (pyStrip lang))
         (normalizeUserText (pyLower (pyStrip lang)) s)) := rfl

theorem ttsFinish_clean (lang' s1 : Txt)
    (hfancy : ∀ c ∈ s1, unicodeApostrophes.contains c = false) :
    wsCanonical (ttsFinish lang' s1) ∧
      (∀ c ∈ ttsFinish lang' s1, unicodeApostrophes.contains c = false) ∧
      (∀ c ∈ ttsFinish lang' s1, (c == '\'') = false) ∧
      (∀ c ∈ ttsFinish lang' s1, ttsPunctSet.contains c = false) ∧
      ((lang' = txt "fr" || lang' = txt "de") = true →
        pyLower (ttsFinish lang' s1) = ttsFinish lang' s1) := by
  unfold ttsFinish
  set s2 := s1.filter (fun c => decide (c ≠ '\'')) with hs2
  set s3 := s2.map (fun c => if ttsPunctSet.contains c then ' ' else c) with hs3
  set s4 := pyStrip (collapseWs s3) with hs4
  have hf2 : ∀ c ∈ s2, unicodeApostrophes.contains c = false :=
    fun c hc => hfancy c (List.mem_of_mem_filter hc)
  have hf3 : ∀ c ∈ s3, unicodeApostrophes.contains c = false :=
    absent_mapPunct (by decide) (fun c hc => Or.inl (hf2 c hc))
  have hf4 : ∀ c ∈ s4, unicodeApostrophes.contains c = false :=
    absent_normCore (by decide) hf3
  have ha2 : ∀ c ∈ s2, (c == '\'') = false := by
    intro c hc
    have := List.of_mem_filter hc
    simpa using of_decide_eq_true this
  have ha3 : ∀ c ∈ s3, (c == '\'') = false :=
    absent_mapPunct (by decide) (fun c hc => Or.inl (ha2 c hc))
  have ha4 : ∀ c ∈ s4, (c == '\'') = false :=
    absent_normCore (by decide) ha3
  have hp3 : ∀ c ∈ s3, ttsPunctSet.contains c = false := mapPunct_absent s2
  have hp4 : ∀ c ∈ s4, ttsPunctSet.contains c = false :=
    absent_normCore (by decide) hp3
  have hws4 : wsCanonical s4 := wsCanonical_normCore s3
  by_cases hfr : (lang' = txt "fr" || lang' = txt "de") = true
  · rw [if_pos hfr]
    refine ⟨wsCanonical_lower hws4, ?_, ?_, ?_, fun _ => pyLower_idem s4⟩
    · exact absent_pyLower (fun p hp => (lowerTable_facts p hp).2.2.2.1) hf4
    · exact absent_pyLower (fun p hp => by
        simpa using (lowerTable_facts p hp).2.2.1) ha4
    · exact absent_pyLower (fun p hp => (lowerTable_facts p hp).2.2.2.2.1) hp4
  · rw [if_neg hfr]
    exact ⟨hws4, hf4, ha4, hp4, fun h => absurd h hfr⟩

theorem ttsFinish_eq_self (lang' t : Txt)
    (hws : wsCanonical t) (hapos : ∀ c ∈ t, (c == '\'') = false)
    (hpunct : ∀ c ∈ t, ttsPunctSet.contains c = false)
    (hlow : (lang' = txt "fr" || lang' = txt "de") = true → pyLower t = t) :
    ttsFinish lang' t = t := by
  unfold ttsFinish
  have h2 : t.filter (fun c => decide (c ≠ '\'')) = t := by
    rw [List.filter_eq_self]
    intro c hc
    simpa using hapos c hc
  have h3 : t.map (fun c => if ttsPunctSet.contains c then ' ' else c) = t := by
    rw [show t.map _ = t.map id from List.map_congr_left ?_, List.map_id]
    intro c hc
    rw [if_neg ?_]
    · rfl
    · intro hcon
      rw [hpunct c hc] at hcon
      exact Bool.false_ne_true hcon
  rw [h2]
  show (if (lang' = txt "fr" || lang' = txt "de") = true
      then pyLower (pyStrip (collapseWs
        (t.map (fun c => if ttsPunctSet.contains c then ' ' else c))))
      else pyStrip (collapseWs
        (t.map (fun c => if ttsPunctSet.contains c then ' ' else c)))) = t
  rw [h3, (wsCanonical_eq_self hws).2, (wsCanonical_eq_self hws).1]
  by_cases hfr : (lang' = txt "fr" || lang' = txt "de") = true
  · rw [if_pos hfr]; exact hlow hfr
  · rw [if_neg hfr]

/-- C10 (amended): the TTS-storage normalizer is idempotent for every
language tag and every input; the user-text normalizer is idempotent on
every input whose normalized form carries no strip-set character at its
edges (in general it is not idempotent: whitespace collapse can re-expose
edge punctuation, see the counterexample). -/
theorem c10_normalizer_idempotence :
    (∀ lang s : Txt,
      normalizePhraseForTtsStorage lang (normalizePhraseForTtsStorage lang s)
        = normalizePhraseForTtsStorage lang s) ∧
    (∀ lang s : Txt,
      (∀ c, (normalizeUserText lang s).head? = some c →
        stripEdgeSet.contains c = false) →
      (∀ c, (normalizeUserText lang s).getLast? = some c →
        stripEdgeSet.contains c = false) →
      normalizeUserText lang (normalizeUserText lang s) = normalizeUserText lang s) := by
  constructor
  · intro lang s
    by_cases h1 : normalizeUserText (pyLower (pyStrip lang)) s = []
    · have hX : normalizePhraseForTtsStorage lang s = [] := by
        rw [tts_eq lang s, if_pos h1]
      rw [hX, tts_nil]
    · have hX : normalizePhraseForTtsStorage lang s
          = ttsFinish (pyLower (pyStrip lang))
            (normalizeUserText (pyLower (pyStrip lang)) s) := by
        rw [tts_eq lang s, if_neg h1]
      set lang' := pyLower (pyStrip lang) with hlang
      set X := ttsFinish lang' (normalizeUserText lang' s) with hXdef
      obtain ⟨F1, F2, F3, F4, F5⟩ :=
        ttsFinish_clean lang' (normalizeUserText lang' s) (nu_no_fancy lang' s)
      have hedge : ∀ c ∈ X, stripEdgeSet.contains c = false := by
        intro c hc
        rw [show stripEdgeSet = ttsPunctSet ++ txt "\t\n\r" from rfl, contains_append,
          F4 c hc, Bool.false_or]
        by_contra hcc
        rw [Bool.not_eq_false] at hcc
        have hmem : c ∈ txt "\t\n\r" := List.elem_iff.mp hcc
        have hwsc : pyIsWs c = true :=
          (by decide : ∀ x ∈ txt "\t\n\r", pyIsWs x = true) c hmem
        have hsp := F1.1 c hc hwsc
        rw [hsp] at hcc
        exact absurd hcc (by decide)
      have hmemhead : ∀ c, X.head? = some c → c ∈ X := fun c h =>
        List.mem_of_mem_head? (by rw [h]; rfl)
      have hmemlast : ∀ c, X.getLast? = some c → c ∈ X := by
        intro c h
        rw [← List.head?_reverse] at h
        exact List.mem_reverse.mp (List.mem_of_mem_head? (by rw [h]; rfl))
      have hll : pyLower lang' = lang' := pyLower_idem (pyStrip lang)
      have hXnu : normalizeUserText lang' X = X := by
        refine nu_eq_self F1 F2 (fun c h => hedge c (hmemhead c h))
          (fun c h => hedge c (hmemlast c h)) ?_
        intro hcond
        rw [hll] at hcond
        exact F5 hcond
      rw [hX, tts_eq lang X, ← hlang]
      by_cases hx : normalizeUserText lang' X = []
      · rw [if_pos hx]
        rw [hXnu] at hx
        exact hx.symm
      · rw [if_neg hx, hXnu]
        exact ttsFinish_eq_self lang' X F1 F3 F4 F5
  · intro lang s hh hl
    exact nu_eq_self (nu_wsCanonical lang s) (nu_no_fancy lang s) hh hl
      (fun hcond => nu_lowered lang s hcond)

/-- C10 witness: the idempotence theorem applied at concrete inputs. -/
theorem c10_normalizer_idempotence_witness :
    normalizePhraseForTtsStorage (txt "fr")
        (normalizePhraseForTtsStorage (txt "fr") (txt "Mes amis, d'accord!"))
      = normalizePhraseForTtsStorage (txt "fr") (txt "Mes amis, d'accord!") ∧
    normalizeUserText (txt "fr") (normalizeUserText (txt "fr") (txt "  Mes amis!  "))
      = normalizeUserText (txt "fr") (txt "  Mes amis!  ") :=
  ⟨c10_normalizer_idempotence.1 (txt "fr") (txt "Mes amis, d'accord!"),
   c10_normalizer_idempotence.2 (txt "fr") (txt "  Mes amis!  ")
     (by decide) (by decide)⟩

/-- C10 counterexample: `_normalize_user_text` is not idempotent — on
`"! !a"` the first pass yields `"!a"` (whitespace collapse re-exposes the
`!`), and the second pass strips it to `"a"`. -/
theorem c10_counterexample :
    normalizeUserText (txt "fr") (normalizeUserText (txt "fr") (txt "! !a"))
      ≠ normalizeUserText (txt "fr") (txt "! !a") := by decide

section AssocLookup

variable {κ β : Type} [BEq κ]

theorem lookupSomeMem [LawfulBEq κ] : ∀ {l : List (κ × β)} {k : κ} {v : β},
    l.lookup k = some v → (k, v) ∈ l := by
  intro l
  induction l with
  | nil => intro k v h; simp [List.lookup] at h
  | cons p rest ih =>
    intro k v h
    rw [List.lookup] at h
    cases hk : (k == p.1) with
    | true =>
      rw [hk] at h
      simp only [Option.some.injEq] at h
      subst h
      have : k = p.1 := eq_of_beq hk
      rw [this]
      exact List.mem_cons_self _ _
    | false =>
      rw [hk] at h
      exact List.mem_cons_of_mem _ (ih h)

theorem lookupNoneIff [LawfulBEq κ] : ∀ {l : List (κ × β)} {k : κ},
    l.lookup k = none ↔ ∀ x ∈ l.map Prod.fst, x ≠ k := by
  intro l
  induction l with
  | nil => intro k; simp [List.lookup]
  | cons p rest ih =>
    intro k
    rw [List.lookup]
    cases hk : (k == p.1) with
    | true =>
      have : k = p.1 := eq_of_beq hk
      subst this
      simp
    | false =>
      have hne : p.1 ≠ k := fun hcon => by
        rw [hcon] at hk
        simp at hk
      simp only [List.map_cons, List.mem_cons]
      constructor
      · intro h x hx
        rcases hx with rfl | hx
        · exact hne
        · exact ih.mp h x hx
      · intro h
        exact ih.mpr (fun x hx => h x (Or.inr hx))

theorem lookupAppendLeft {l₁ l₂ : List (κ × β)} {k : κ} {v : β}
    (h : l₁.lookup k = some v) : (l₁ ++ l₂).lookup k = some v := by
  induction l₁ with
  | nil => simp [List.lookup] at h
  | cons p rest ih =>
    rw [List.lookup] at h
    rw [List.cons_append, List.lookup]
    cases hk : (k == p.1) with
    | true => rw [hk] at h; exact h
    | false => rw [hk] at h; exact ih h

theorem lookupAppendRight {l₁ l₂ : List (κ × β)} {k : κ}
    (h : l₁.lookup k = none) : (l₁ ++ l₂).lookup k = l₂.lookup k := by
  induction l₁ with
  | nil => rfl
  | cons p rest ih =>
    rw [List.lookup] at h
    rw [List.cons_append, List.lookup]
    cases hk : (k == p.1) with
    | true => rw [hk] at h; cases h
    | false => rw [hk] at h; exact ih h

theorem lookupSingle [LawfulBEq κ] {k : κ} {v : β} :
    ([(k, v)] : List (κ × β)).lookup k = some v := by
  rw [List.lookup]
  rw [show (k == k) = true by simp]

end AssocLookup

theorem headAppend {u v : Txt} (h : u ≠ []) : (u ++ v).head? = u.head? := by
  cases u with
  | nil => exact absurd rfl h
  | cons a u' => rfl

theorem lastAppend {u v : Txt} (h : v ≠ []) : (u ++ v).getLast? = v.getLast? := by
  rw [← List.head?_reverse, ← List.head?_reverse, List.reverse_append]
  exact headAppend (by simpa using h)

theorem mem_of_getLast? {t : Txt} {c : Char} (h : t.getLast? = some c) : c ∈ t := by
  rw [← List.head?_reverse] at h
  exact List.mem_reverse.mp (List.mem_of_mem_head? (by rw [h]; rfl))

theorem pyStrip_idem (t : Txt) : pyStrip (pyStrip t) = pyStrip t :=
  pyStrip_eq_self (fun _ h => pyStrip_head t h) (fun _ h => pyStrip_last t h)

theorem pyStrip_ne_nil_of_last {t : Txt} {c : Char} (h : t.getLast? = some c)
    (hc : pyIsWs c = false) : pyStrip t ≠ [] := by
  have hsl : stripLeftWs t ≠ [] := by
    intro hcon
    have ht : t = t.takeWhile pyIsWs := by
      conv_lhs => rw [← List.takeWhile_append_dropWhile pyIsWs t]
      rw [show t.dropWhile pyIsWs = [] from hcon, List.append_nil]
    have hmem : c ∈ t := mem_of_getLast? h
    rw [ht] at hmem
    have := List.mem_takeWhile_imp hmem
    rw [hc] at this
    cases this
  have hlast : (stripLeftWs t).getLast? = some c := by
    obtain ⟨u, hu⟩ := stripLeftWs_suffix t
    rw [hu] at h
    rwa [lastAppend hsl] at h
  unfold pyStrip stripRightWs
  rw [dropWhile_eq_self_of_head ?_, List.reverse_reverse]
  · exact hsl
  · intro d hd
    rw [List.head?_reverse] at hd
    rw [hlast] at hd
    cases hd
    exact hc

theorem frGroupMap_wf : gmWf frGroupMap := by unfold gmWf; decide

theorem deGroupMap_wf : gmWf deGroupMap := by unfold gmWf; decide

theorem gapStep_blank {gm st} {e : VerbEntry} (hp : pyStrip e.phrase = []) :
    gapStep gm st e = st := by
  simp [gapStep, hp]

theorem gapStep_nosplit {gm st} {e : VerbEntry} (hp : pyStrip e.phrase ≠ [])
    (hsp : splitFirstSub (txt " ") (pyStrip e.phrase) = none) :
    gapStep gm st e =
      if (st.lookup (([] : Txt), pyStrip e.phrase)).isSome then st
      else st ++ [(((([] : Txt), pyStrip e.phrase)), e)] := by
  simp [gapStep, hp, hsp]

theorem gapStep_ungrouped {gm st} {e : VerbEntry} {p0 p1 : Txt}
    (hp : pyStrip e.phrase ≠ [])
    (hsp : splitFirstSub (txt " ") (pyStrip e.phrase) = some (p0, p1))
    (hg : gm.lookup (pyLower (pyStrip p0)) = none) :
    gapStep gm st e =
      if (st.lookup (pyLower (pyStrip p0), pyStrip p1)).isSome then st
      else st ++ [((pyLower (pyStrip p0), pyStrip p1), e)] := by
  simp [gapStep, hp, hsp, hg]

theorem gapStep_grouped_new {gm st} {e : VerbEntry} {p0 p1 group : Txt}
    (hp : pyStrip e.phrase ≠ [])
    (hsp : splitFirstSub (txt " ") (pyStrip e.phrase) = some (p0, p1))
    (hg : gm.lookup (pyLower (pyStrip p0)) = some group)
    (hlk : st.lookup (group, pyStrip p1) = none) :
    gapStep gm st e =
      st ++ [((group, pyStrip p1),
        { e with pronoun := group, phrase := group ++ txt " " ++ pyStrip p1,
                 ipa := none })] := by
  simp [gapStep, hp, hsp, hg, hlk]

theorem gapStep_grouped_merge {gm st} {e : VerbEntry} {p0 p1 group : Txt}
    {v : VerbEntry}
    (hp : pyStrip e.phrase ≠ [])
    (hsp : splitFirstSub (txt " ") (pyStrip e.phrase) = some (p0, p1))
    (hg : gm.lookup (pyLower (pyStrip p0)) = some group)
    (hlk : st.lookup (group, pyStrip p1) = some v) :
    gapStep gm st e =
      st.map (fun kv =>
        if kv.1 = (group, pyStrip p1) ∧ pyStrip kv.2.translation = []
        then (kv.1, { kv.2 with translation := pyStrip e.translation })
        else kv) := by
  simp [gapStep, hp, hsp, hg, hlk]

theorem slotKeyOf_nosplit {gm} {e : VerbEntry}
    (hsp : splitFirstSub (txt " ") (pyStrip e.phrase) = none) :
    slotKeyOf gm e = (([] : Txt), pyStrip e.phrase) := by
  simp [slotKeyOf, hsp]

theorem slotKeyOf_ungrouped {gm} {e : VerbEntry} {p0 p1 : Txt}
    (hsp : splitFirstSub (txt " ") (pyStrip e.phrase) = some (p0, p1))
    (hg : gm.lookup (pyLower (pyStrip p0)) = none) :
    slotKeyOf gm e = (pyLower (pyStrip p0), pyStrip p1) := by
  simp [slotKeyOf, hsp, hg]

theorem slotKeyOf_grouped_key {gm} {e : VerbEntry} {p0 p1 group : Txt}
    (hsp : splitFirstSub (txt " ") (pyStrip e.phrase) = some (p0, p1))
    (hg : gm.lookup (pyLower (pyStrip p0)) = some group) :
    slotKeyOf gm e = (group, pyStrip p1) := by
  simp [slotKeyOf, hsp, hg]

theorem slotKeyOf_of_grouped_entry {gm : List (Txt × Txt)} (hwf : gmWf gm)
    {k0 group rest : Txt} (hk0 : (k0, group) ∈ gm)
    (hrest : pyStrip rest = rest) (hrne : rest ≠ [])
    (E : VerbEntry) (hE : E.phrase = group ++ txt " " ++ rest) :
    slotKeyOf gm E = (group, rest) := by
  obtain ⟨hgne, hgws, hglow, hglk⟩ := hwf _ hk0
  have hgchars : ∀ c ∈ group, pyIsWs c = false := by
    intro c hc
    by_contra hcon
    rw [Bool.not_eq_false] at hcon
    have : group.any pyIsWs = true := List.any_eq_true.mpr ⟨c, hc, hcon⟩
    rw [hgws] at this
    cases this
  have hrlast : ∀ c, rest.getLast? = some c → pyIsWs c = false := by
    intro c hc
    have : (pyStrip rest).getLast? = some c := by rw [hrest]; exact hc
    exact pyStrip_last rest this
  have hstrip : pyStrip (group ++ txt " " ++ rest) = group ++ txt " " ++ rest := by
    apply pyStrip_eq_self
    · intro c hc
      rw [List.append_assoc, headAppend hgne] at hc
      exact hgchars c (List.mem_of_mem_head? (by rw [hc]; rfl))
    · intro c hc
      rw [lastAppend hrne] at hc
      exact hrlast c hc
  have hgstrip : pyStrip group = group := by
    apply pyStrip_eq_self
    · intro c hc
      exact hgchars c (List.mem_of_mem_head? (by rw [hc]; rfl))
    · intro c hc
      exact hgchars c (mem_of_getLast? hc)
  have hsplit : splitFirstSub (txt " ") (group ++ txt " " ++ rest)
      = some (group, rest) := by
    apply splitFirstSub_construct
    intro k hk
    cases hd : group.drop k with
    | nil =>
      have hlen := congrArg List.length hd
      simp at hlen
      omega
    | cons c cs =>
      have hcmem : c ∈ group := by
        have hmem : c ∈ group.drop k := by rw [hd]; exact List.mem_cons_self _ _
        exact (List.drop_sublist k group).mem hmem
      have hcws := hgchars c hcmem
      show leadsWith (txt " ") (c :: (cs ++ (txt " " ++ rest))) = false
      show (decide (' ' = c) && leadsWith ([] : Txt) (cs ++ (txt " " ++ rest))) = false
      rw [decide_eq_false ?_, Bool.false_and]
      intro hcon
      rw [← hcon] at hcws
      cases hcws
  unfold slotKeyOf
  rw [hE, hstrip, hsplit]
  show (match gm.lookup (pyLower (pyStrip group)) with
    | none => (pyLower (pyStrip group), pyStrip rest)
    | some group => (group, pyStrip rest)) = (group, rest)
  rw [hgstrip, hglow, hglk, hrest]

theorem split_rest_ne_nil {e : VerbEntry} {p0 p1 : Txt}
    (hp : pyStrip e.phrase ≠ [])
    (hsp : splitFirstSub (txt " ") (pyStrip e.phrase) = some (p0, p1)) :
    pyStrip p1 ≠ [] := by
  obtain ⟨heq, -⟩ := splitFirstSub_spec _ _ _ _ hsp
  cases hgl : (pyStrip e.phrase).getLast? with
  | none =>
    rw [List.getLast?_eq_none_iff] at hgl
    exact absurd hgl hp
  | some c =>
    have hcws := pyStrip_last e.phrase hgl
    by_cases hp1 : p1 = []
    · subst hp1
      rw [heq, List.append_nil, lastAppend (by simp [txt] : (txt " ") ≠ [])] at hgl
      have : c = ' ' := by
        have : (txt " ").getLast? = some ' ' := by decide
        rw [this] at hgl
        exact (Option.some.injEq _ _ ▸ hgl).symm
      rw [this] at hcws
      cases hcws
    · have hlast : p1.getLast? = some c := by
        rw [heq, lastAppend hp1] at hgl
        exact hgl
      exact pyStrip_ne_nil_of_last hlast hcws

theorem isSome_false_none {α : Type} {o : Option α} (h : ¬ o.isSome = true) : o = none := by
  cases o with
  | none => rfl
  | some v => simp at h

theorem StOk_append {gm st} {key : Txt × Txt} {E : VerbEntry}
    (h : StOk gm st) (hlk : st.lookup key = none) (hE : slotKeyOf gm E = key) :
    StOk gm (st ++ [(key, E)]) := by
  constructor
  · rw [List.map_append, List.map_cons, List.map_nil, List.nodup_append]
    refine ⟨h.1, List.nodup_singleton _, ?_⟩
    intro x hx hx'
    simp only [List.mem_singleton] at hx'
    subst hx'
    exact (lookupNoneIff.mp hlk x hx) rfl
  · intro kv hkv
    rcases List.mem_append.mp hkv with h1 | h1
    · exact h.2 kv h1
    · simp only [List.mem_singleton] at h1
      subst h1
      exact hE

theorem mergeUpd_fst (key : Txt × Txt) (tr : Txt) (kv : (Txt × Txt) × VerbEntry) :
    ((fun kv =>
      if kv.1 = key ∧ pyStrip kv.2.translation = []
      then (kv.1, { kv.2 with translation := tr })
      else kv) kv).1 = kv.1 := by
  by_cases hc : kv.1 = key ∧ pyStrip kv.2.translation = []
  · simp [hc]
  · simp [hc]

theorem mergeUpd_phrase (key : Txt × Txt) (tr : Txt) (kv : (Txt × Txt) × VerbEntry) :
    ((fun kv =>
      if kv.1 = key ∧ pyStrip kv.2.translation = []
      then (kv.1, { kv.2 with translation := tr })
      else kv) kv).2.phrase = kv.2.phrase ∧
    ((fun kv =>
      if kv.1 = key ∧ pyStrip kv.2.translation = []
      then (kv.1, { kv.2 with translation := tr })
      else kv) kv).2.pronoun = kv.2.pronoun := by
  by_cases hc : kv.1 = key ∧ pyStrip kv.2.translation = []
  · simp [hc]
  · simp [hc]

theorem gapStep_StOk {gm : List (Txt × Txt)} {st} {e : VerbEntry}
    (hwf : gmWf gm) (h : StOk gm st) : StOk gm (gapStep gm st e) := by
  by_cases hp : pyStrip e.phrase = []
  · rw [gapStep_blank hp]; exact h
  cases hsp : splitFirstSub (txt " ") (pyStrip e.phrase) with
  | none =>
    rw [gapStep_nosplit hp hsp]
    by_cases hlk : (st.lookup (([] : Txt), pyStrip e.phrase)).isSome = true
    · rw [if_pos hlk]; exact h
    · rw [if_neg hlk]
      exact StOk_append h (isSome_false_none hlk) (slotKeyOf_nosplit hsp)
  | some pr =>
    obtain ⟨p0, p1⟩ := pr
    cases hg : gm.lookup (pyLower (pyStrip p0)) with
    | none =>
      rw [gapStep_ungrouped hp hsp hg]
      by_cases hlk : (st.lookup (pyLower (pyStrip p0), pyStrip p1)).isSome = true
      · rw [if_pos hlk]; exact h
      · rw [if_neg hlk]
        exact StOk_append h (isSome_false_none hlk) (slotKeyOf_ungrouped hsp hg)
    | some group =>
      cases hlk : st.lookup (group, pyStrip p1) with
      | none =>
        rw [gapStep_grouped_new hp hsp hg hlk]
        refine StOk_append h hlk ?_
        exact slotKeyOf_of_grouped_entry hwf (lookupSomeMem hg) (pyStrip_idem p1)
          (split_rest_ne_nil hp hsp) _ rfl
      | some v =>
        rw [gapStep_grouped_merge hp hsp hg hlk]
        set f := (fun kv : (Txt × Txt) × VerbEntry =>
          if kv.1 = (group, pyStrip p1) ∧ pyStrip kv.2.translation = []
          then (kv.1, { kv.2 with translation := pyStrip e.translation })
          else kv) with hf
        have hfst : ∀ kv, (f kv).1 = kv.1 := by
          intro kv
          rw [hf]
          by_cases hc : kv.1 = (group, pyStrip p1) ∧ pyStrip kv.2.translation = []
          · simp [hc]
          · simp [hc]
        have hphr : ∀ kv, (f kv).2.phrase = kv.2.phrase := by
          intro kv
          rw [hf]
          by_cases hc : kv.1 = (group, pyStrip p1) ∧ pyStrip kv.2.translation = []
          · simp [hc]
          · simp [hc]
        constructor
        · rw [List.map_map]
          rw [show Prod.fst ∘ f = Prod.fst from funext hfst]
          exact h.1
        · intro kv hkv
          obtain ⟨kv0, hkv0, rfl⟩ := List.mem_map.mp hkv
          rw [hfst kv0]
          have hinv : slotKeyOf gm kv0.2 = kv0.1 := h.2 kv0 hkv0
          rw [← hinv]
          unfold slotKeyOf
          rw [hphr kv0]

theorem lookupSingleNe {κ β : Type} [BEq κ] [LawfulBEq κ] {k k' : κ} {v : β}
    (h : k ≠ k') : ([(k', v)] : List (κ × β)).lookup k = none := by
  rw [List.lookup]
  rw [show (k == k') = false from beq_eq_false_iff_ne.mpr h]
  rfl

theorem lookup_map_mergeF (st : List ((Txt × Txt) × VerbEntry))
    (key k : Txt × Txt) (tr : Txt) :
    (st.map (fun kv =>
        if kv.1 = key ∧ pyStrip kv.2.translation = []
        then (kv.1, { kv.2 with translation := tr })
        else kv)).lookup k
    = (st.lookup k).map (fun v =>
        if k = key ∧ pyStrip v.translation = []
        then { v with translation := tr } else v) := by
  induction st with
  | nil => rfl
  | cons p rest ih =>
    by_cases hc : p.1 = key ∧ pyStrip p.2.translation = []
    · simp only [List.map_cons]
      rw [if_pos hc]
      rw [List.lookup, List.lookup]
      cases hk : (k == p.1) with
      | true =>
        have hkeq : k = p.1 := eq_of_beq hk
        simp only [Option.map_some']
        rw [if_pos (by rw [hkeq]; exact hc)]
      | false => exact ih
    · simp only [List.map_cons]
      rw [if_neg hc]
      rw [List.lookup, List.lookup]
      cases hk : (k == p.1) with
      | true =>
        have hkeq : k = p.1 := eq_of_beq hk
        simp only [Option.map_some']
        rw [if_neg (by rw [hkeq]; exact hc)]
      | false => exact ih

theorem gapStep_lookup_stable {gm st} {e : VerbEntry} {key : Txt × Txt}
    {E : VerbEntry} (h : st.lookup key = some E) :
    ∃ E', (gapStep gm st e).lookup key = some E' ∧
      E'.pronoun = E.pronoun ∧ E'.phrase = E.phrase ∧
      (pyStrip E.translation ≠ [] → E'.translation = E.translation) := by
  by_cases hp : pyStrip e.phrase = []
  · exact ⟨E, by rw [gapStep_blank hp]; exact h, rfl, rfl, fun _ => rfl⟩
  cases hsp : splitFirstSub (txt " ") (pyStrip e.phrase) with
  | none =>
    rw [gapStep_nosplit hp hsp]
    by_cases hlk : (st.lookup (([] : Txt), pyStrip e.phrase)).isSome = true
    · rw [if_pos hlk]; exact ⟨E, h, rfl, rfl, fun _ => rfl⟩
    · rw [if_neg hlk]
      exact ⟨E, lookupAppendLeft h, rfl, rfl, fun _ => rfl⟩
  | some pr =>
    obtain ⟨p0, p1⟩ := pr
    cases hg : gm.lookup (pyLower (pyStrip p0)) with
    | none =>
      rw [gapStep_ungrouped hp hsp hg]
      by_cases hlk : (st.lookup (pyLower (pyStrip p0), pyStrip p1)).isSome = true
      · rw [if_pos hlk]; exact ⟨E, h, rfl, rfl, fun _ => rfl⟩
      · rw [if_neg hlk]
        exact ⟨E, lookupAppendLeft h, rfl, rfl, fun _ => rfl⟩
    | some group =>
      cases hlk : st.lookup (group, pyStrip p1) with
      | none =>
        rw [gapStep_grouped_new hp hsp hg hlk]
        exact ⟨E, lookupAppendLeft h, rfl, rfl, fun _ => rfl⟩
      | some v =>
        rw [gapStep_grouped_merge hp hsp hg hlk]
        refine ⟨if key = (group, pyStrip p1) ∧ pyStrip E.translation = []
          then { E with translation := pyStrip e.translation } else E, ?_, ?_, ?_, ?_⟩
        · rw [lookup_map_mergeF, h]
          rfl
        · by_cases hc : key = (group, pyStrip p1) ∧ pyStrip E.translation = []
          · simp [hc]
          · simp [hc]
        · by_cases hc : key = (group, pyStrip p1) ∧ pyStrip E.translation = []
          · simp [hc]
          · simp [hc]
        · intro htr
          rw [if_neg (fun hc => htr hc.2)]

theorem foldl_lookup_stable (gm : List (Txt × Txt)) :
    ∀ (es : List VerbEntry) (st) (key : Txt × Txt) (E : VerbEntry),
    st.lookup key = some E →
    ∃ E', (es.foldl (gapStep gm) st).lookup key = some E' ∧
      E'.pronoun = E.pronoun ∧ E'.phrase = E.phrase ∧
      (pyStrip E.translation ≠ [] → E'.translation = E.translation) := by
  intro es
  induction es with
  | nil => intro st key E h; exact ⟨E, h, rfl, rfl, fun _ => rfl⟩
  | cons e rest ih =>
    intro st key E h
    obtain ⟨E₁, h1, hpr1, hph1, htr1⟩ := @gapStep_lookup_stable gm _ e _ _ h
    obtain ⟨E₂, h2, hpr2, hph2, htr2⟩ := ih (gapStep gm st e) key E₁ h1
    refine ⟨E₂, h2, hpr2.trans hpr1, hph2.trans hph1, ?_⟩
    intro htr
    have he1 := htr1 htr
    have : pyStrip E₁.translation ≠ [] := by rw [he1]; exact htr
    rw [htr2 this, he1]

theorem lookupAppendSingleNe {κ β : Type} [BEq κ] [LawfulBEq κ]
    {l : List (κ × β)} {k k' : κ} {v : β} (h : k ≠ k') :
    (l ++ [(k', v)]).lookup k = l.lookup k := by
  cases hl : l.lookup k with
  | some w => exact lookupAppendLeft hl
  | none => rw [lookupAppendRight hl, lookupSingleNe h]

theorem gapStep_lookup_other {gm st} {e : VerbEntry} {key : Txt × Txt}
    (hne : pyStrip e.phrase = [] ∨ slotKeyOf gm e ≠ key) :
    (gapStep gm st e).lookup key = st.lookup key := by
  by_cases hp : pyStrip e.phrase = []
  · rw [gapStep_blank hp]
  · have hkey : slotKeyOf gm e ≠ key := hne.resolve_left hp
    cases hsp : splitFirstSub (txt " ") (pyStrip e.phrase) with
    | none =>
      rw [gapStep_nosplit hp hsp]
      by_cases hlk : (st.lookup (([] : Txt), pyStrip e.phrase)).isSome = true
      · rw [if_pos hlk]
      · rw [if_neg hlk]
        exact lookupAppendSingleNe
          (fun hcon => hkey ((slotKeyOf_nosplit hsp).trans hcon.symm))
    | some pr =>
      obtain ⟨p0, p1⟩ := pr
      cases hg : gm.lookup (pyLower (pyStrip p0)) with
      | none =>
        rw [gapStep_ungrouped hp hsp hg]
        by_cases hlk : (st.lookup (pyLower (pyStrip p0), pyStrip p1)).isSome = true
        · rw [if_pos hlk]
        · rw [if_neg hlk]
          exact lookupAppendSingleNe
            (fun hcon => hkey ((slotKeyOf_ungrouped hsp hg).trans hcon.symm))
      | some group =>
        have hne2 : key ≠ (group, pyStrip p1) :=
          fun hcon => hkey ((slotKeyOf_grouped_key hsp hg).trans hcon.symm)
        cases hlk : st.lookup (group, pyStrip p1) with
        | none =>
          rw [gapStep_grouped_new hp hsp hg hlk]
          exact lookupAppendSingleNe hne2
        | some v =>
          rw [gapStep_grouped_merge hp hsp hg hlk, lookup_map_mergeF]
          cases h0 : st.lookup key with
          | none => rfl
          | some w =>
            simp only [Option.map_some']
            rw [if_neg (fun hc => hne2 hc.1)]

theorem foldl_lookup_other (gm : List (Txt × Txt)) (key : Txt × Txt) :
    ∀ (es : List VerbEntry) (st : List ((Txt × Txt) × VerbEntry)),
    (∀ e' ∈ es, pyStrip e'.phrase = [] ∨ slotKeyOf gm e' ≠ key) →
    (es.foldl (gapStep gm) st).lookup key = st.lookup key := by
  intro es
  induction es with
  | nil => intro st _; rfl
  | cons e rest ih =>
    intro st h
    rw [List.foldl_cons, ih _ (fun e' he' => h e' (List.mem_cons_of_mem _ he')),
      gapStep_lookup_other (h e (List.mem_cons_self _ _))]

theorem foldl_StOk {gm : List (Txt × Txt)} (hwf : gmWf gm) :
    ∀ (es : List VerbEntry) (st), StOk gm st →
    StOk gm (es.foldl (gapStep gm) st) := by
  intro es
  induction es with
  | nil => intro st h; exact h
  | cons e rest ih => intro st h; exact ih _ (gapStep_StOk hwf h)

theorem gapStep_insert_grouped {gm st} {e : VerbEntry} {p0 p1 group : Txt}
    (hp : pyStrip e.phrase ≠ [])
    (hsp : splitFirstSub (txt " ") (pyStrip e.phrase) = some (p0, p1))
    (hg : gm.lookup (pyLower (pyStrip p0)) = some group)
    (hlk : st.lookup (group, pyStrip p1) = none) :
    (gapStep gm st e).lookup (group, pyStrip p1) =
      some { e with pronoun := group, phrase := group ++ txt " " ++ pyStrip p1,
                    ipa := none } := by
  rw [gapStep_grouped_new hp hsp hg hlk, lookupAppendRight hlk, lookupSingle]

theorem map_slotKey_of_StOk {gm st} (h : StOk gm st) :
    (st.map Prod.snd).map (slotKeyOf gm) = st.map Prod.fst := by
  rw [List.map_map]
  exact List.map_congr_left (fun kv hkv => h.2 kv hkv)

theorem mem_snd_of_lookup {st : List ((Txt × Txt) × VerbEntry)} {key : Txt × Txt}
    {E : VerbEntry} (h : st.lookup key = some E) : E ∈ st.map Prod.snd :=
  List.mem_map.mpr ⟨(key, E), lookupSomeMem h, rfl⟩

theorem groupAmbiguousPronouns_eq {lang : Txt} {es : List VerbEntry}
    (hl : pyLower lang = txt "fr" ∨ pyLower lang = txt "de") (hne : es ≠ []) :
    groupAmbiguousPronouns lang es =
      (es.foldl (gapStep (if pyLower lang = txt "fr" then frGroupMap
        else deGroupMap)) []).map Prod.snd := by
  show (if ¬(pyLower lang = txt "fr" ∨ pyLower lang = txt "de") ∨ es = []
      then es
      else ((es.foldl (gapStep (if pyLower lang = txt "fr" then frGroupMap
        else deGroupMap)) []).map (·.2))) = _
  rw [if_neg (by push_neg; exact ⟨hl, hne⟩)]

/-- C9: in the verb branch (`_group_ambiguous_pronouns` for French or German),
paradigm entries whose pronoun belongs to an ambiguous group and whose
remaining verb-form text is identical are merged into a single slot labelled
with the group: the output contains at most one slot per (group, verb-form)
key, and the slot created by the first such entry keeps that entry's
translation whenever it is non-blank, with pronoun set to the group label and
phrase rebuilt as "group verbform". -/
theorem c9_ambiguous_pronoun_grouping
    (lang : Txt) (es pre post : List VerbEntry) (e : VerbEntry)
    (p0 p1 group : Txt)
    (hl : pyLower lang = txt "fr" ∨ pyLower lang = txt "de")
    (hes : es = pre ++ e :: post)
    (hp : pyStrip e.phrase ≠ [])
    (hsp : splitFirstSub (txt " ") (pyStrip e.phrase) = some (p0, p1))
    (hg : (if pyLower lang = txt "fr" then frGroupMap else deGroupMap).lookup
        (pyLower (pyStrip p0)) = some group)
    (hfirst : ∀ e' ∈ pre, pyStrip e'.phrase = [] ∨
      slotKeyOf (if pyLower lang = txt "fr" then frGroupMap else deGroupMap) e'
        ≠ (group, pyStrip p1)) :
    ((groupAmbiguousPronouns lang es).map
        (slotKeyOf (if pyLower lang = txt "fr" then frGroupMap
          else deGroupMap))).Nodup
    ∧ ∃ E ∈ groupAmbiguousPronouns lang es,
        slotKeyOf (if pyLower lang = txt "fr" then frGroupMap else deGroupMap) E
          = (group, pyStrip p1) ∧
        E.pronoun = group ∧
        E.phrase = group ++ txt " " ++ pyStrip p1 ∧
        (pyStrip e.translation ≠ [] → E.translation = e.translation) := by
  have hwf : gmWf (if pyLower lang = txt "fr" then frGroupMap else deGroupMap) := by
    by_cases hfr : pyLower lang = txt "fr"
    · rw [if_pos hfr]; exact frGroupMap_wf
    · rw [if_neg hfr]; exact deGroupMap_wf
  have hne : es ≠ [] := by rw [hes]; simp
  have hout := groupAmbiguousPronouns_eq hl hne
  have hfold : es.foldl (gapStep (if pyLower lang = txt "fr" then frGroupMap
      else deGroupMap)) [] =
      post.foldl (gapStep (if pyLower lang = txt "fr" then frGroupMap
        else deGroupMap))
        (gapStep (if pyLower lang = txt "fr" then frGroupMap else deGroupMap)
          (pre.foldl (gapStep (if pyLower lang = txt "fr" then frGroupMap
            else deGroupMap)) []) e) := by
    rw [hes, List.foldl_append, List.foldl_cons]
  have hprenone : (pre.foldl (gapStep (if pyLower lang = txt "fr" then frGroupMap
      else deGroupMap)) []).lookup (group, pyStrip p1) = none := by
    rw [foldl_lookup_other _ _ _ _ hfirst]
    rfl
  have hins := gapStep_insert_grouped hp hsp hg hprenone
  obtain ⟨E, hE, hpr, hph, htr⟩ := foldl_lookup_stable _ post _ _ _ hins
  have hEfin : (es.foldl (gapStep (if pyLower lang = txt "fr" then frGroupMap
      else deGroupMap)) []).lookup (group, pyStrip p1) = some E := by
    rw [hfold]; exact hE
  have hstok : StOk (if pyLower lang = txt "fr" then frGroupMap else deGroupMap)
      (es.foldl (gapStep (if pyLower lang = txt "fr" then frGroupMap
        else deGroupMap)) []) :=
    foldl_StOk hwf es []
      ⟨List.nodup_nil, fun kv hkv => absurd hkv (List.not_mem_nil kv)⟩
  refine ⟨?_, E, ?_, ?_, ?_, ?_, ?_⟩
  · rw [hout, map_slotKey_of_StOk hstok]
    exact hstok.1
  · rw [hout]
    exact mem_snd_of_lookup hEfin
  · exact hstok.2 _ (lookupSomeMem hEfin)
  · exact hpr
  · exact hph
  · exact htr

theorem c9_ambiguous_pronoun_grouping_witness :
    ((groupAmbiguousPronouns (txt "fr")
        [VerbEntry.mk (txt "il") (txt "il parle") (txt "he speaks") none,
         VerbEntry.mk (txt "elle") (txt "elle parle") (txt "") none]).map
        (slotKeyOf (if pyLower (txt "fr") = txt "fr" then frGroupMap
          else deGroupMap))).Nodup
    ∧ ∃ E ∈ groupAmbiguousPronouns (txt "fr")
        [VerbEntry.mk (txt "il") (txt "il parle") (txt "he speaks") none,
         VerbEntry.mk (txt "elle") (txt "elle parle") (txt "") none],
        slotKeyOf (if pyLower (txt "fr") = txt "fr" then frGroupMap
            else deGroupMap) E
          = (txt "il/elle/on", pyStrip (txt "parle")) ∧
        E.pronoun = txt "il/elle/on" ∧
        E.phrase = txt "il/elle/on" ++ txt " " ++ pyStrip (txt "parle") ∧
        (pyStrip (VerbEntry.mk (txt "il") (txt "il parle")
            (txt "he speaks") none).translation ≠ [] →
          E.translation = (VerbEntry.mk (txt "il") (txt "il parle")
            (txt "he speaks") none).translation) :=
  c9_ambiguous_pronoun_grouping (txt "fr")
    [VerbEntry.mk (txt "il") (txt "il parle") (txt "he speaks") none,
     VerbEntry.mk (txt "elle") (txt "elle parle") (txt "") none]
    []
    [VerbEntry.mk (txt "elle") (txt "elle parle") (txt "") none]
    (VerbEntry.mk (txt "il") (txt "il parle") (txt "he speaks") none)
    (txt "il") (txt "parle") (txt "il/elle/on")
    (Or.inl (by decide)) rfl (by decide) (by decide) (by decide)
    (fun e' he' => absurd he' (List.not_mem_nil e'))

theorem scanPS_append : ∀ (a : Txt) (pend : Bool) (m : Nat),
    scanPS a pend = some m →
    ∀ b, scanPS (a ++ b) pend = (scanPS b false).map (· + m) := by
  intro a
  induction a with
  | nil =>
    intro pend m h b
    cases pend with
    | true => simp [scanPS] at h
    | false =>
      simp only [scanPS, Option.some.injEq] at h
      subst h
      rw [List.nil_append]
      cases hb : scanPS b false with
      | none => rfl
      | some n => simp
  | cons c rest ih =>
    intro pend m h b
    rw [List.cons_append]
    cases pend with
    | true =>
      by_cases hcs : c = 's'
      · rw [show scanPS (c :: rest) true = (scanPS rest false).map (· + 1) from by
          simp [scanPS, hcs]] at h
        cases hr : scanPS rest false with
        | none => rw [hr] at h; simp at h
        | some q =>
          rw [hr, Option.map_some', Option.some.injEq] at h
          subst h
          rw [show scanPS (c :: (rest ++ b)) true
              = (scanPS (rest ++ b) false).map (· + 1) from by simp [scanPS, hcs]]
          rw [ih false q hr b]
          cases hb : scanPS b false with
          | none => rfl
          | some n => simp only [Option.map_some', Option.some.injEq]; omega
      · by_cases hcp : c = '%'
        · rw [show scanPS (c :: rest) true = scanPS rest false from by
            simp [scanPS, hcs, hcp]] at h
          rw [show scanPS (c :: (rest ++ b)) true = scanPS (rest ++ b) false from by
            simp [scanPS, hcs, hcp]]
          exact ih false m h b
        · rw [show scanPS (c :: rest) true = none from by
            simp [scanPS, hcs, hcp]] at h
          cases h
    | false =>
      by_cases hcp : c = '%'
      · rw [show scanPS (c :: rest) false = scanPS rest true from by
          simp [scanPS, hcp]] at h
        rw [show scanPS (c :: (rest ++ b)) false = scanPS (rest ++ b) true from by
          simp [scanPS, hcp]]
        exact ih true m h b
      · rw [show scanPS (c :: rest) false = scanPS rest false from by
          simp [scanPS, hcp]] at h
        rw [show scanPS (c :: (rest ++ b)) false = scanPS (rest ++ b) false from by
          simp [scanPS, hcp]]
        exact ih false m h b

theorem scanPS_of_no_percent : ∀ t : Txt, (∀ c ∈ t, c ≠ '%') →
    scanPS t false = some 0 := by
  intro t
  induction t with
  | nil => intro _; rfl
  | cons c rest ih =>
    intro h
    rw [show scanPS (c :: rest) false = scanPS rest false from by
      simp [scanPS, h c (List.mem_cons_self _ _)]]
    exact ih (fun d hd => h d (List.mem_cons_of_mem _ hd))

theorem scanPS_append2 (A B : Txt) (a b : Nat) (hA : scanPS A false = some a)
    (hB : scanPS B false = some b) : scanPS (A ++ B) false = some (b + a) := by
  rw [scanPS_append A false a hA, hB]; rfl

theorem scanPS_concat3 (A mid B : Txt) (a b : Nat)
    (hA : scanPS A false = some a) (hmid : scanPS mid false = some 0)
    (hB : scanPS B false = some b) :
    scanPS (A ++ mid ++ B) false = some (b + a) := by
  rw [List.append_assoc, scanPS_append A false a hA,
      scanPS_append mid false 0 hmid, hB]
  simp

theorem splitOnChar_ne_nil (sep : Char) : ∀ t : Txt, splitOnChar sep t ≠ [] := by
  intro t
  cases t with
  | nil => simp [splitOnChar]
  | cons c rest =>
    by_cases hc : c = sep
    · simp [splitOnChar, hc]
    · cases hsp : splitOnChar sep rest with
      | nil => simp [splitOnChar, hc, hsp]
      | cons p ps => simp [splitOnChar, hc, hsp]

theorem splitOnChar_mem (sep : Char) : ∀ t : Txt, ∀ c ∈ t,
    c = sep ∨ ∃ p ∈ splitOnChar sep t, c ∈ p := by
  intro t
  induction t with
  | nil => intro c hc; cases hc
  | cons a rest ih =>
    intro c hc
    by_cases ha : a = sep
    · rcases List.mem_cons.mp hc with rfl | hc'
      · exact Or.inl ha
      · rcases ih c hc' with h | ⟨p, hp, hcp⟩
        · exact Or.inl h
        · refine Or.inr ⟨p, ?_, hcp⟩
          rw [show splitOnChar sep (a :: rest) = [] :: splitOnChar sep rest from by
            simp [splitOnChar, ha]]
          exact List.mem_cons_of_mem _ hp
    · cases hsp : splitOnChar sep rest with
      | nil => exact absurd hsp (splitOnChar_ne_nil sep rest)
      | cons p ps =>
        have hunf : splitOnChar sep (a :: rest) = (a :: p) :: ps := by
          simp [splitOnChar, ha, hsp]
        rcases List.mem_cons.mp hc with rfl | hc'
        · exact Or.inr ⟨c :: p, by rw [hunf]; exact List.mem_cons_self _ _,
            List.mem_cons_self _ _⟩
        · rcases ih c hc' with h | ⟨q, hq, hcq⟩
          · exact Or.inl h
          · rw [hsp] at hq
            rcases List.mem_cons.mp hq with rfl | hq'
            · exact Or.inr ⟨a :: q, by rw [hunf]; exact List.mem_cons_self _ _,
                List.mem_cons_of_mem _ hcq⟩
            · exact Or.inr ⟨q, by rw [hunf]; exact List.mem_cons_of_mem _ hq', hcq⟩

theorem identCore_no_percent : ∀ {t : Txt}, isIdentCore t = true →
    ∀ c ∈ t, c ≠ '%' := by
  intro t h c hc
  cases t with
  | nil => cases hc
  | cons a rest =>
    simp only [isIdentCore, Bool.and_eq_true] at h
    rcases List.mem_cons.mp hc with rfl | hc'
    · intro hcon; subst hcon; exact absurd h.1 (by decide)
    · intro hcon; subst hcon
      have := (List.all_eq_true.mp h.2) _ hc'
      exact absurd this (by decide)

theorem validIdent_no_percent {t : Txt} (h : isValidTableIdent t = true) :
    ∀ c ∈ t, c ≠ '%' := by
  intro c hc
  rcases splitOnChar_mem '.' t c hc with h' | ⟨p, hp, hcp⟩
  · intro hcon; rw [hcon] at h'; exact absurd h' (by decide)
  · unfold isValidTableIdent at h
    cases hsp : splitOnChar '.' t with
    | nil => exact absurd hsp (splitOnChar_ne_nil '.' t)
    | cons p1 ps =>
      rw [hsp] at h hp
      cases ps with
      | nil =>
        rcases List.mem_singleton.mp hp with rfl
        exact identCore_no_percent h c hcp
      | cons p2 ps2 =>
        cases ps2 with
        | nil =>
          simp only [Bool.and_eq_true] at h
          rcases List.mem_cons.mp hp with rfl | hp'
          · exact identCore_no_percent h.1 c hcp
          · rcases List.mem_singleton.mp hp' with rfl
            exact identCore_no_percent h.2 c hcp
        | cons p3 ps3 => cases h

theorem guardedInsertSql_scanPS {table : Txt} (h : ∀ c ∈ table, c ≠ '%') :
    scanPS (guardedInsertSql table) false = some 7 := by
  unfold guardedInsertSql
  exact scanPS_concat3 _ table _ 4 3 (by decide) (scanPS_of_no_percent _ h) (by decide)

theorem updGuardTail_scanPS {table : Txt} (h : ∀ c ∈ table, c ≠ '%') :
    scanPS (updGuardTail table) false = some 3 := by
  unfold updGuardTail
  exact scanPS_concat3 _ table _ 0 3 (by decide) (scanPS_of_no_percent _ h) (by decide)

set_option maxRecDepth 40000 in
theorem homSelfSql_scanPS : scanPS homSelfSql false = some 3 := by decide

set_option maxRecDepth 40000 in
theorem homOtherSql_scanPS : scanPS homOtherSql false = some 7 := by decide

/-- Every statement whose guard (if any) carries a valid identifier renders to
text whose placeholder count equals its parameter count, with every literal
percent doubled. -/
theorem renderStmt_scanPS (s : Stmt) (hg : stmtGuardValid s = true) :
    scanPS (renderStmt s).1 false = some (renderStmt s).2.length := by
  cases s with
  | insertWord g w assoc lid ipa =>
    cases g with
    | none =>
      show scanPS plainInsertSql false = some 4
      decide
    | some cfg =>
      have hv : isValidTableIdent cfg.table = true := hg
      show scanPS (guardedInsertSql cfg.table) false = some 7
      exact guardedInsertSql_scanPS (validIdent_no_percent hv)
  | updateIpa g w lid ipa =>
    cases g with
    | none =>
      show scanPS (updIpaBase ++ txt ";") false = some 3
      exact scanPS_append2 updIpaBase (txt ";") 3 0 (by decide) (by decide)
    | some cfg =>
      have hv : isValidTableIdent cfg.table = true := hg
      show scanPS (updIpaBase ++ updGuardTail cfg.table) false = some 6
      exact scanPS_append2 updIpaBase _ 3 3 (by decide)
        (updGuardTail_scanPS (validIdent_no_percent hv))
  | updateAssoc g repair w lid assoc =>
    cases g with
    | none =>
      show scanPS ((if repair then updAssocRepairBase else updAssocPlainBase)
        ++ txt ";") false = some 3
      cases repair with
      | true => exact scanPS_append2 updAssocRepairBase (txt ";") 3 0 (by decide) (by decide)
      | false => exact scanPS_append2 updAssocPlainBase (txt ";") 3 0 (by decide) (by decide)
    | some cfg =>
      have hv : isValidTableIdent cfg.table = true := hg
      show scanPS ((if repair then updAssocRepairBase else updAssocPlainBase)
        ++ updGuardTail cfg.table) false = some 6
      cases repair with
      | true =>
        exact scanPS_append2 updAssocRepairBase _ 3 3 (by decide)
          (updGuardTail_scanPS (validIdent_no_percent hv))
      | false =>
        exact scanPS_append2 updAssocPlainBase _ 3 3 (by decide)
          (updGuardTail_scanPS (validIdent_no_percent hv))
  | homSelf lid w ipa => exact homSelfSql_scanPS
  | homOther lid w ipa => exact homOtherSql_scanPS

theorem appendHom_guard {le : Bool} {lid : Int} {w : Txt} {ipa : Option Txt} :
    ∀ s ∈ appendHomophoneLinkQueries le lid w ipa, stmtGuardValid s = true := by
  intro s hs
  simp only [appendHomophoneLinkQueries] at hs
  by_cases h1 : ¬ truthyOpt ipa = true
  · rw [if_pos h1] at hs; cases hs
  rw [if_neg h1] at hs
  by_cases h2 : ¬ shouldLinkHomophonesForWord le w = true
  · rw [if_pos h2] at hs; cases hs
  rw [if_neg h2] at hs
  by_cases h3 : pyStrip (ipa.getD []) = []
  · rw [if_pos h3] at hs; cases hs
  · rw [if_neg h3] at hs
    rcases List.mem_cons.mp hs with rfl | hs'
    · rfl
    · rcases List.mem_singleton.mp hs' with rfl
      rfl

theorem emitWordQueries_guard {g : Option RejectCfg} {inp : WordInput}
    (hg : guardValid g = true) :
    ∀ s ∈ emitWordQueries g inp, stmtGuardValid s = true := by
  intro s hs
  unfold emitWordQueries at hs
  by_cases hv : (¬inp.isVerb && ¬inp.isNounAndVerb) = true
  · rw [if_pos hv] at hs
    rcases List.mem_append.mp hs with hs | hs
    swap
    · exact appendHom_guard s hs
    rcases List.mem_append.mp hs with hs | hs
    swap
    · by_cases ha : truthyOpt inp.association = true
      · rw [if_pos ha] at hs
        rcases List.mem_singleton.mp hs with rfl
        exact hg
      · rw [if_neg ha] at hs; cases hs
    rcases List.mem_append.mp hs with hs | hs
    swap
    · by_cases hi : truthyOpt inp.ipaWord = true
      · rw [if_pos hi] at hs
        rcases List.mem_singleton.mp hs with rfl
        exact hg
      · rw [if_neg hi] at hs; cases hs
    rcases List.mem_append.mp hs with hs | hs
    · rcases List.mem_singleton.mp hs with rfl
      exact hg
    · obtain ⟨e, he, hfe⟩ := List.mem_filterMap.mp hs
      by_cases hw : pyStrip e.word = []
      · simp [hw] at hfe
      · simp [hw] at hfe
        subst hfe
        exact hg
  · rw [if_neg hv] at hs
    rcases List.mem_append.mp hs with hs | hs
    swap
    · obtain ⟨e, he, hfe⟩ := List.mem_filterMap.mp hs
      by_cases hw : pyStrip e.phrase = []
      · simp [hw] at hfe
      · simp [hw] at hfe
        subst hfe
        exact hg
    · by_cases hnv : inp.isNounAndVerb = true
      · rw [if_pos hnv] at hs
        rcases List.mem_append.mp hs with hs | hs
        swap
        · exact appendHom_guard s hs
        rcases List.mem_append.mp hs with hs | hs
        swap
        · by_cases ha : truthyOpt inp.association = true
          · rw [if_pos ha] at hs
            rcases List.mem_singleton.mp hs with rfl
            exact hg
          · rw [if_neg ha] at hs; cases hs
        rcases List.mem_append.mp hs with hs | hs
        · rcases List.mem_singleton.mp hs with rfl
          exact hg
        · by_cases hi : truthyOpt inp.ipaWord = true
          · rw [if_pos hi] at hs
            rcases List.mem_singleton.mp hs with rfl
            exact hg
          · rw [if_neg hi] at hs; cases hs
      · rw [if_neg hnv] at hs; cases hs

theorem emitPhraseBlock_guard {g : Option RejectCfg} {ai : Bool} {pinp : PhraseInput}
    (hg : guardValid g = true) :
    ∀ s ∈ emitPhraseBlock g ai pinp, stmtGuardValid s = true := by
  intro s hs
  unfold emitPhraseBlock at hs
  rcases List.mem_append.mp hs with hs | hs
  swap
  · by_cases ha : truthyOpt pinp.phraseAssociation = true
    · rw [if_pos ha] at hs
      rcases List.mem_singleton.mp hs with rfl
      exact hg
    · rw [if_neg ha] at hs; cases hs
  rcases List.mem_append.mp hs with hs | hs
  · by_cases hai : ¬ai = true
    · rw [if_pos hai] at hs
      rcases List.mem_singleton.mp hs with rfl
      exact hg
    · rw [if_neg hai] at hs; cases hs
  · by_cases hi : truthyOpt pinp.phraseIpa = true
    · rw [if_pos hi] at hs
      rcases List.mem_singleton.mp hs with rfl
      exact hg
    · rw [if_neg hi] at hs; cases hs

theorem prepareWordActionsCompile_guard {inp : WordInput} {qs : List Stmt}
    (hok : prepareWordActionsCompile inp = Except.ok qs) :
    ∀ s ∈ qs, stmtGuardValid s = true := by
  unfold prepareWordActionsCompile at hok
  cases hres : resolveRejectedWordsConfig inp.userId inp.rejectedWordsTable inp.language with
  | error e => rw [hres] at hok; cases hok
  | ok r =>
    rw [hres] at hok
    obtain ⟨uid, table, langNorm⟩ := r
    dsimp only at hok
    by_cases h1 : pyStrip table ≠ []
    · rw [if_pos h1] at hok
      by_cases h2 : ¬ isValidTableIdent (pyStrip table) = true
      · rw [if_pos h2] at hok; cases hok
      · rw [if_neg h2] at hok
        injection hok with hok
        subst hok
        exact emitWordQueries_guard (by simpa using h2)
    · rw [if_neg h1] at hok
      injection hok with hok
      subst hok
      exact emitWordQueries_guard rfl

theorem preparePhraseActionsCompile_guard {tokenQueries : List Stmt}
    {pinp : PhraseInput} {qs : List Stmt}
    (htok : ∀ s ∈ tokenQueries, stmtGuardValid s = true)
    (hok : preparePhraseActionsCompile tokenQueries pinp = Except.ok qs) :
    ∀ s ∈ qs, stmtGuardValid s = true := by
  unfold preparePhraseActionsCompile at hok
  cases hres : resolveRejectedWordsConfig pinp.userId pinp.rejectedWordsTable pinp.language with
  | error e => rw [hres] at hok; cases hok
  | ok r =>
    rw [hres] at hok
    obtain ⟨uid, table, langNorm⟩ := r
    dsimp only at hok
    by_cases h1 : pyStrip table ≠ []
    · rw [if_pos h1] at hok
      by_cases h2 : ¬ isValidTableIdent (pyStrip table) = true
      · rw [if_pos h2] at hok; cases hok
      · rw [if_neg h2] at hok
        injection hok with hok
        subst hok
        intro s hs
        rcases List.mem_append.mp hs with hs | hs
        · exact htok s hs
        · exact emitPhraseBlock_guard (by simpa using h2) s hs
    · rw [if_neg h1] at hok
      injection hok with hok
      subst hok
      intro s hs
      rcases List.mem_append.mp hs with hs | hs
      · exact htok s hs
      · refine emitPhraseBlock_guard ?_ s hs
        rfl

/-- C3: every (statement, parameters) pair emitted by the single-word
compilation — including the appended homophone-link statements — and by the
phrase compilation (run on token queries whose guards are valid, as the
recursive word-mode calls guarantee) has exactly as many `%s` placeholders as
parameters, and every literal percent sign in the text is doubled (the
scanner `scanPS` succeeds only under that discipline). -/
theorem c3_placeholder_discipline
    (inp : WordInput) (qs : List Stmt)
    (tokenQueries : List Stmt) (pinp : PhraseInput) (pqs : List Stmt)
    (hok : prepareWordActionsCompile inp = Except.ok qs)
    (htok : ∀ s ∈ tokenQueries, stmtGuardValid s = true)
    (hpok : preparePhraseActionsCompile tokenQueries pinp = Except.ok pqs) :
    (∀ q ∈ qs.map renderStmt, scanPS q.1 false = some q.2.length) ∧
    (∀ q ∈ pqs.map renderStmt, scanPS q.1 false = some q.2.length) := by
  constructor
  · intro q hq
    obtain ⟨s, hs, rfl⟩ := List.mem_map.mp hq
    exact renderStmt_scanPS s (prepareWordActionsCompile_guard hok s hs)
  · intro q hq
    obtain ⟨s, hs, rfl⟩ := List.mem_map.mp hq
    exact renderStmt_scanPS s (preparePhraseActionsCompile_guard htok hpok s hs)

theorem c3_placeholder_discipline_witness :
    (∀ q ∈ ([Stmt.insertWord (some (RejectCfg.mk (txt "palabras_rechazadas") 7 (txt "fr")))
          (txt "chat") (some (txt "chat, gato")) 1 (some (txt "/ʃa/")),
        Stmt.updateIpa (some (RejectCfg.mk (txt "palabras_rechazadas") 7 (txt "fr")))
          (txt "chat") 1 (txt "/ʃa/"),
        Stmt.updateAssoc (some (RejectCfg.mk (txt "palabras_rechazadas") 7 (txt "fr")))
          true (txt "chat") 1 (txt "chat, gato"),
        Stmt.homSelf 1 (txt "chat") (txt "/ʃa/"),
        Stmt.homOther 1 (txt "chat") (txt "/ʃa/")].map renderStmt),
      scanPS q.1 false = some q.2.length) ∧
    (∀ q ∈ ([Stmt.insertWord (some (RejectCfg.mk (txt "palabras_rechazadas") 7 (txt "fr")))
          (txt "le chat") none 1 none].map renderStmt),
      scanPS q.1 false = some q.2.length) :=
  c3_placeholder_discipline
    (WordInput.mk (txt "chat") 1 (txt "fr") (some 7) none (some (txt "chat, gato"))
      (some (txt "/ʃa/")) false false [] [] true)
    _ [] (PhraseInput.mk (txt "le chat") 1 (txt "fr") (some 7) none none none) _
    (by rfl)
    (fun s h => absurd h (List.not_mem_nil s))
    (by rfl)

theorem appendHom_no_insert {le : Bool} {l : Int} {w0 : Txt} {ipa : Option Txt}
    {g' : Option RejectCfg} {w : Txt} {a : Option Txt} {lid : Int} {i : Option Txt} :
    Stmt.insertWord g' w a lid i ∉ appendHomophoneLinkQueries le l w0 ipa := by
  intro hs
  simp only [appendHomophoneLinkQueries] at hs
  by_cases h1 : ¬ truthyOpt ipa = true
  · rw [if_pos h1] at hs; cases hs
  rw [if_neg h1] at hs
  by_cases h2 : ¬ shouldLinkHomophonesForWord le w0 = true
  · rw [if_pos h2] at hs; cases hs
  rw [if_neg h2] at hs
  by_cases h3 : pyStrip (ipa.getD []) = []
  · rw [if_pos h3] at hs; cases hs
  · rw [if_neg h3] at hs
    rcases List.mem_cons.mp hs with heq | hs'
    · exact Stmt.noConfusion heq
    · rcases List.mem_singleton.mp hs' with heq
      exact Stmt.noConfusion heq

theorem emitWordQueries_insert_guard {g : Option RejectCfg} {inp : WordInput}
    {g' : Option RejectCfg} {w : Txt} {a : Option Txt} {lid : Int} {i : Option Txt}
    (hs : Stmt.insertWord g' w a lid i ∈ emitWordQueries g inp) : g' = g := by
  unfold emitWordQueries at hs
  by_cases hv : (¬inp.isVerb && ¬inp.isNounAndVerb) = true
  · rw [if_pos hv] at hs
    rcases List.mem_append.mp hs with hs | hs
    swap
    · exact absurd hs appendHom_no_insert
    rcases List.mem_append.mp hs with hs | hs
    swap
    · by_cases ha : truthyOpt inp.association = true
      · rw [if_pos ha] at hs
        rcases List.mem_singleton.mp hs with heq
        exact Stmt.noConfusion heq
      · rw [if_neg ha] at hs; cases hs
    rcases List.mem_append.mp hs with hs | hs
    swap
    · by_cases hi : truthyOpt inp.ipaWord = true
      · rw [if_pos hi] at hs
        rcases List.mem_singleton.mp hs with heq
        exact Stmt.noConfusion heq
      · rw [if_neg hi] at hs; cases hs
    rcases List.mem_append.mp hs with hs | hs
    · rcases List.mem_singleton.mp hs with heq
      exact (Stmt.insertWord.inj heq).1
    · obtain ⟨e, he, hfe⟩ := List.mem_filterMap.mp hs
      by_cases hw : pyStrip e.word = []
      · simp [hw] at hfe
      · have hfe' : Stmt.insertWord g (pyStrip e.word) e.assoc inp.listId e.ipa
            = Stmt.insertWord g' w a lid i := by simpa [hw] using hfe
        exact (Stmt.insertWord.inj hfe').1.symm
  · rw [if_neg hv] at hs
    rcases List.mem_append.mp hs with hs | hs
    swap
    · obtain ⟨e, he, hfe⟩ := List.mem_filterMap.mp hs
      by_cases hw : pyStrip e.phrase = []
      · simp [hw] at hfe
      · have hfe' : Stmt.insertWord g (pyStrip e.phrase) (optOfStripped e.assoc)
            inp.listId (optOfStripped e.ipa) = Stmt.insertWord g' w a lid i := by
          simpa [hw] using hfe
        exact (Stmt.insertWord.inj hfe').1.symm
    · by_cases hnv : inp.isNounAndVerb = true
      · rw [if_pos hnv] at hs
        rcases List.mem_append.mp hs with hs | hs
        swap
        · exact absurd hs appendHom_no_insert
        rcases List.mem_append.mp hs with hs | hs
        swap
        · by_cases ha : truthyOpt inp.association = true
          · rw [if_pos ha] at hs
            rcases List.mem_singleton.mp hs with heq
            exact Stmt.noConfusion heq
          · rw [if_neg ha] at hs; cases hs
        rcases List.mem_append.mp hs with hs | hs
        · rcases List.mem_singleton.mp hs with heq
          exact (Stmt.insertWord.inj heq).1
        · by_cases hi : truthyOpt inp.ipaWord = true
          · rw [if_pos hi] at hs
            rcases List.mem_singleton.mp hs with heq
            exact Stmt.noConfusion heq
          · rw [if_neg hi] at hs; cases hs
      · rw [if_neg hnv] at hs; cases hs

theorem resolve_table_props (userId : Option Int) (rt : Option Txt) (lang : Txt)
    (uid : Int) (table l : Txt)
    (h : resolveRejectedWordsConfig userId rt lang = Except.ok (uid, table, l)) :
    pyStrip table = table ∧ table ≠ [] := by
  unfold resolveRejectedWordsConfig at h
  cases userId with
  | none => cases h
  | some u =>
    dsimp only at h
    injection h with h
    have htab := congrArg (fun p : Int × Txt × Txt => p.2.1) h
    dsimp only at htab
    cases rt with
    | none =>
      dsimp only at htab
      rw [if_pos rfl] at htab
      rw [← htab]
      exact ⟨by decide, by decide⟩
    | some t =>
      dsimp only at htab
      by_cases hp : pyStrip t = []
      · rw [if_pos hp] at htab
        rw [← htab]
        exact ⟨by decide, by decide⟩
      · rw [if_neg hp] at htab
        rw [← htab]
        exact ⟨pyStrip_idem t, hp⟩

/-- C6 counterexample: the caller supplies a user identity but no registry
name, yet the compiled insert still carries the NOT-EXISTS guard — the
resolver substitutes the production default `palabras_rechazadas`, so the
guard is not restricted to calls that supply both values. -/
theorem c6_counterexample :
    prepareWordActionsCompile
      (WordInput.mk (txt "chien") 1 (txt "fr") (some 7) none none none
        false false [] [] false)
    = Except.ok [Stmt.insertWord
        (some (RejectCfg.mk (txt "palabras_rechazadas") 7 (txt "fr")))
        (txt "chien") none 1 none] := by rfl

/-- C6 (amended): a missing user identity always makes compilation raise; a
supplied registry name that strips to a non-empty non-identifier always makes
compilation raise before interpolation; and every successfully compiled
INSERT carries a NOT-EXISTS guard whose table satisfies the identifier
pattern.  (The guard is however also applied with the default registry when
the caller supplies none — see the counterexample — so it is not limited to
calls supplying both values.) -/
theorem c6_rejected_words_guard (inp : WordInput) :
    (inp.userId = none →
      prepareWordActionsCompile inp =
        Except.error (txt "user_id is required to enforce rejected-words validation")) ∧
    (∀ t u, inp.userId = some u → inp.rejectedWordsTable = some t →
      pyStrip t ≠ [] → isValidTableIdent (pyStrip t) = false →
      prepareWordActionsCompile inp =
        Except.error (txt "Invalid rejected_words_table identifier")) ∧
    (∀ qs, prepareWordActionsCompile inp = Except.ok qs →
      ∀ g w a lid i, Stmt.insertWord g w a lid i ∈ qs →
        ∃ cfg, g = some cfg ∧ isValidTableIdent cfg.table = true) := by
  refine ⟨?_, ?_, ?_⟩
  · intro h
    unfold prepareWordActionsCompile
    rw [show resolveRejectedWordsConfig inp.userId inp.rejectedWordsTable inp.language
        = Except.error (txt "user_id is required to enforce rejected-words validation")
      from by unfold resolveRejectedWordsConfig; rw [h]]
  · intro t u hu hrt hne hval
    have hres : resolveRejectedWordsConfig inp.userId inp.rejectedWordsTable inp.language
        = Except.ok (u, pyStrip t, pyLower (pyStrip inp.language)) := by
      unfold resolveRejectedWordsConfig
      rw [hu, hrt]
      dsimp only
      rw [if_neg hne]
    unfold prepareWordActionsCompile
    rw [hres]
    dsimp only
    rw [if_pos (by rw [pyStrip_idem]; exact hne),
        if_pos (by rw [pyStrip_idem]; simp [hval])]
  · intro qs hok g w a lid i hmem
    unfold prepareWordActionsCompile at hok
    cases hres : resolveRejectedWordsConfig inp.userId inp.rejectedWordsTable inp.language with
    | error e => rw [hres] at hok; cases hok
    | ok r =>
      rw [hres] at hok
      obtain ⟨uid, table, langNorm⟩ := r
      dsimp only at hok
      obtain ⟨hstr, hne⟩ := resolve_table_props _ _ _ _ _ _ hres
      rw [if_pos (by rw [hstr]; exact hne)] at hok
      by_cases h2 : ¬ isValidTableIdent (pyStrip table) = true
      · rw [if_pos h2] at hok; cases hok
      · rw [if_neg h2] at hok
        injection hok with hok
        subst hok
        refine ⟨⟨pyStrip table, uid, langNorm⟩, ?_, by simpa using h2⟩
        exact emitWordQueries_insert_guard hmem

theorem c6_rejected_words_guard_witness :
    ((WordInput.mk (txt "rue") 1 (txt "fr") none none none none
        false false [] [] false).userId = none →
      prepareWordActionsCompile (WordInput.mk (txt "rue") 1 (txt "fr") none none none none
        false false [] [] false) =
        Except.error (txt "user_id is required to enforce rejected-words validation")) ∧
    (∀ t u, (WordInput.mk (txt "rue") 1 (txt "fr") none none none none
        false false [] [] false).userId = some u →
      (WordInput.mk (txt "rue") 1 (txt "fr") none none none none
        false false [] [] false).rejectedWordsTable = some t →
      pyStrip t ≠ [] → isValidTableIdent (pyStrip t) = false →
      prepareWordActionsCompile (WordInput.mk (txt "rue") 1 (txt "fr") none none none none
        false false [] [] false) =
        Except.error (txt "Invalid rejected_words_table identifier")) ∧
    (∀ qs, prepareWordActionsCompile (WordInput.mk (txt "rue") 1 (txt "fr") none none none none
        false false [] [] false) = Except.ok qs →
      ∀ g w a lid i, Stmt.insertWord g w a lid i ∈ qs →
        ∃ cfg, g = some cfg ∧ isValidTableIdent cfg.table = true) :=
  c6_rejected_words_guard
    (WordInput.mk (txt "rue") 1 (txt "fr") none none none none false false [] [] false)

theorem ordered_append : ∀ (l1 l2 : List Stmt) (ins ad : List (Txt × Int)),
    wordActionsOrdered ins ad (l1 ++ l2) =
      (wordActionsOrdered ins ad l1 &&
        wordActionsOrdered (stAfter (ins, ad) l1).1 (stAfter (ins, ad) l1).2 l2) := by
  intro l1
  induction l1 with
  | nil => intro l2 ins ad; rfl
  | cons s rest ih =>
    intro l2 ins ad
    cases s with
    | insertWord g w a lid i =>
      simp only [List.cons_append, wordActionsOrdered, stAfter]
      exact ih l2 _ _
    | updateIpa g w lid i =>
      simp only [List.cons_append, wordActionsOrdered, stAfter, List.append_eq]
      rw [ih l2 _ _]
      simp only [Bool.and_assoc]
    | updateAssoc g r w lid a =>
      simp only [List.cons_append, wordActionsOrdered, stAfter, List.append_eq]
      rw [ih l2 _ _]
      simp only [Bool.and_assoc]
    | homSelf lid w i =>
      simp only [List.cons_append, wordActionsOrdered, stAfter]
      exact ih l2 _ _
    | homOther lid w i =>
      simp only [List.cons_append, wordActionsOrdered, stAfter]
      exact ih l2 _ _

theorem ordered_of_no_upd : ∀ (l : List Stmt) (ins ad : List (Txt × Int)),
    (∀ s ∈ l, updKeyOf s = none) → wordActionsOrdered ins ad l = true := by
  intro l
  induction l with
  | nil => intro ins ad _; rfl
  | cons s rest ih =>
    intro ins ad h
    cases s with
    | insertWord g w a lid i =>
      simp only [wordActionsOrdered]
      exact ih _ _ (fun s hs => h s (List.mem_cons_of_mem _ hs))
    | updateIpa g w lid i =>
      exact absurd (h _ (List.mem_cons_self _ _)) (by simp [updKeyOf])
    | updateAssoc g r w lid a =>
      exact absurd (h _ (List.mem_cons_self _ _)) (by simp [updKeyOf])
    | homSelf lid w i =>
      simp only [wordActionsOrdered]
      exact ih _ _ (fun s hs => h s (List.mem_cons_of_mem _ hs))
    | homOther lid w i =>
      simp only [wordActionsOrdered]
      exact ih _ _ (fun s hs => h s (List.mem_cons_of_mem _ hs))

theorem stAfter_fst_mono : ∀ (l : List Stmt) (ins ad : List (Txt × Int))
    (k : Txt × Int), k ∈ ins → k ∈ (stAfter (ins, ad) l).1 := by
  intro l
  induction l with
  | nil => intro ins ad k hk; exact hk
  | cons s rest ih =>
    intro ins ad k hk
    cases s with
    | insertWord g w a lid i =>
      exact ih _ _ _ (List.mem_cons_of_mem _ hk)
    | updateIpa g w lid i => exact ih _ _ _ hk
    | updateAssoc g r w lid a => exact ih _ _ _ hk
    | homSelf lid w i => exact ih _ _ _ hk
    | homOther lid w i => exact ih _ _ _ hk

theorem stAfter_snd_sub : ∀ (l : List Stmt) (ins ad : List (Txt × Int))
    (k : Txt × Int), k ∉ ad → (∀ s ∈ l, updKeyOf s ≠ some k) →
    k ∉ (stAfter (ins, ad) l).2 := by
  intro l
  induction l with
  | nil => intro ins ad k hk _; exact hk
  | cons s rest ih =>
    intro ins ad k hk h
    cases s with
    | insertWord g w a lid i =>
      exact ih _ _ _ hk (fun s hs => h s (List.mem_cons_of_mem _ hs))
    | updateIpa g w lid i =>
      exact ih _ _ _ hk (fun s hs => h s (List.mem_cons_of_mem _ hs))
    | updateAssoc g r w lid a =>
      refine ih _ _ _ ?_ (fun s hs => h s (List.mem_cons_of_mem _ hs))
      intro hmem
      rcases List.mem_cons.mp hmem with heq | hmem'
      · exact h _ (List.mem_cons_self _ _) (by rw [heq]; rfl)
      · exact hk hmem'
    | homSelf lid w i =>
      exact ih _ _ _ hk (fun s hs => h s (List.mem_cons_of_mem _ hs))
    | homOther lid w i =>
      exact ih _ _ _ hk (fun s hs => h s (List.mem_cons_of_mem _ hs))

theorem stAfter_snd_no_assoc : ∀ (l : List Stmt) (ins ad : List (Txt × Int)),
    (∀ s ∈ l, isUpdAssoc s = false) → (stAfter (ins, ad) l).2 = ad := by
  intro l
  induction l with
  | nil => intro ins ad _; rfl
  | cons s rest ih =>
    intro ins ad h
    cases s with
    | insertWord g w a lid i =>
      exact ih _ _ (fun s hs => h s (List.mem_cons_of_mem _ hs))
    | updateIpa g w lid i =>
      exact ih _ _ (fun s hs => h s (List.mem_cons_of_mem _ hs))
    | updateAssoc g r w lid a =>
      exact absurd (h _ (List.mem_cons_self _ _)) (by simp [isUpdAssoc])
    | homSelf lid w i =>
      exact ih _ _ (fun s hs => h s (List.mem_cons_of_mem _ hs))
    | homOther lid w i =>
      exact ih _ _ (fun s hs => h s (List.mem_cons_of_mem _ hs))

theorem stAfter_fst_of_already : ∀ (l : List Stmt) (ins ad : List (Txt × Int))
    (w : Txt) (lid : Int), alreadyInsertsWord l w lid = true →
    (w, lid) ∈ (stAfter (ins, ad) l).1 := by
  intro l
  induction l with
  | nil => intro ins ad w lid h; cases h
  | cons s rest ih =>
    intro ins ad w lid h
    cases s with
    | insertWord g w' a lid' i =>
      by_cases hk : w' = w ∧ lid' = lid
      · obtain ⟨rfl, rfl⟩ := hk
        exact stAfter_fst_mono rest ((w', lid') :: ins) ad (w', lid')
          (List.mem_cons_self _ _)
      · refine ih _ _ _ _ ?_
        simp only [alreadyInsertsWord, List.any_cons, Bool.or_eq_true] at h
        rcases h with h | h
        · simp only [Bool.and_eq_true, decide_eq_true_eq] at h
          exact absurd h hk
        · exact h
    | updateIpa g w' lid' i =>
      refine ih _ _ _ _ ?_
      simpa [alreadyInsertsWord] using h
    | updateAssoc g r w' lid' a =>
      refine ih _ _ _ _ ?_
      simpa [alreadyInsertsWord] using h
    | homSelf lid' w' i =>
      refine ih _ _ _ _ ?_
      simpa [alreadyInsertsWord] using h
    | homOther lid' w' i =>
      refine ih _ _ _ _ ?_
      simpa [alreadyInsertsWord] using h

theorem stAfter_append : ∀ (l1 l2 : List Stmt) (st),
    stAfter st (l1 ++ l2) = stAfter (stAfter st l1) l2 := by
  intro l1
  induction l1 with
  | nil => intro l2 st; rfl
  | cons s rest ih =>
    intro l2 st
    obtain ⟨ins, ad⟩ := st
    cases s with
    | insertWord g w a lid i => exact ih l2 _
    | updateIpa g w lid i => exact ih l2 _
    | updateAssoc g r w lid a => exact ih l2 _
    | homSelf lid w i => exact ih l2 _
    | homOther lid w i => exact ih l2 _

theorem ordered_word_block (g g1 g2 : Option RejectCfg) (w : Txt) (a i : Option Txt)
    (ii aa : Txt) (r : Bool) (lid : Int) (B E : List Stmt) (useIpa useAssoc : Bool)
    (hB : ∀ s ∈ B, updKeyOf s = none ∧ isUpdAssoc s = false)
    (hE : ∀ s ∈ E, updKeyOf s = none) :
    wordActionsOrdered [] []
      ([Stmt.insertWord g w a lid i] ++ B
        ++ (if useIpa then [Stmt.updateIpa g1 w lid ii] else [])
        ++ (if useAssoc then [Stmt.updateAssoc g2 r w lid aa] else [])
        ++ E) = true := by
  have h1 : stAfter (([], []) : List (Txt × Int) × List (Txt × Int))
      [Stmt.insertWord g w a lid i] = ([(w, lid)], []) := rfl
  have h2 : ∀ st, stAfter st [Stmt.updateIpa g1 w lid ii] = st := by
    intro st; obtain ⟨x, y⟩ := st; rfl
  have hBsnd : (stAfter (([(w, lid)], []) : List (Txt × Int) × List (Txt × Int)) B).2
      = [] := stAfter_snd_no_assoc B _ _ (fun s hs => (hB s hs).2)
  have hBfst : (w, lid) ∈ (stAfter (([(w, lid)], []) :
      List (Txt × Int) × List (Txt × Int)) B).1 :=
    stAfter_fst_mono B _ _ _ (List.mem_cons_self _ _)
  rw [ordered_append, ordered_append, ordered_append, ordered_append]
  simp only [stAfter_append, h1, h2]
  simp only [Bool.and_eq_true]
  by_cases hui : useIpa = true
  · simp only [if_pos hui, h2]
    by_cases hua : useAssoc = true
    · simp only [if_pos hua]
      refine ⟨⟨⟨⟨rfl, ?_⟩, ?_⟩, ?_⟩, ?_⟩
      · exact ordered_of_no_upd B _ _ (fun s hs => (hB s hs).1)
      · simp only [wordActionsOrdered, Bool.and_eq_true, decide_eq_true_eq]
        exact ⟨⟨hBfst, by rw [hBsnd]; exact List.not_mem_nil _⟩, trivial⟩
      · simp only [wordActionsOrdered, Bool.and_eq_true, decide_eq_true_eq]
        exact ⟨hBfst, trivial⟩
      · exact ordered_of_no_upd E _ _ hE
    · simp only [if_neg hua]
      refine ⟨⟨⟨⟨rfl, ?_⟩, ?_⟩, rfl⟩, ?_⟩
      · exact ordered_of_no_upd B _ _ (fun s hs => (hB s hs).1)
      · simp only [wordActionsOrdered, Bool.and_eq_true, decide_eq_true_eq]
        exact ⟨⟨hBfst, by rw [hBsnd]; exact List.not_mem_nil _⟩, trivial⟩
      · exact ordered_of_no_upd E _ _ hE
  · simp only [if_neg hui]
    by_cases hua : useAssoc = true
    · simp only [if_pos hua]
      refine ⟨⟨⟨⟨rfl, ?_⟩, rfl⟩, ?_⟩, ?_⟩
      · exact ordered_of_no_upd B _ _ (fun s hs => (hB s hs).1)
      · simp only [wordActionsOrdered, Bool.and_eq_true, decide_eq_true_eq]
        exact ⟨hBfst, trivial⟩
      · exact ordered_of_no_upd E _ _ hE
    · simp only [if_neg hua]
      refine ⟨⟨⟨⟨rfl, ?_⟩, rfl⟩, rfl⟩, ?_⟩
      · exact ordered_of_no_upd B _ _ (fun s hs => (hB s hs).1)
      · exact ordered_of_no_upd E _ _ hE

theorem appendHom_no_upd {le : Bool} {l : Int} {w0 : Txt} {ipa : Option Txt} :
    ∀ s ∈ appendHomophoneLinkQueries le l w0 ipa, updKeyOf s = none := by
  intro s hs
  simp only [appendHomophoneLinkQueries] at hs
  by_cases h1 : ¬ truthyOpt ipa = true
  · rw [if_pos h1] at hs; cases hs
  rw [if_neg h1] at hs
  by_cases h2 : ¬ shouldLinkHomophonesForWord le w0 = true
  · rw [if_pos h2] at hs; cases hs
  rw [if_neg h2] at hs
  by_cases h3 : pyStrip (ipa.getD []) = []
  · rw [if_pos h3] at hs; cases hs
  · rw [if_neg h3] at hs
    rcases List.mem_cons.mp hs with rfl | hs'
    · rfl
    · rcases List.mem_singleton.mp hs' with rfl
      rfl

theorem extraInserts_no_upd {g : Option RejectCfg} {inp : WordInput} :
    ∀ s ∈ inp.extraEntries.filterMap (fun e =>
        let w := pyStrip e.word
        if w = [] then none
        else some (Stmt.insertWord g w e.assoc inp.listId e.ipa)),
      updKeyOf s = none ∧ isUpdAssoc s = false := by
  intro s hs
  obtain ⟨e, he, hfe⟩ := List.mem_filterMap.mp hs
  by_cases hw : pyStrip e.word = []
  · simp [hw] at hfe
  · have heq : Stmt.insertWord g (pyStrip e.word) e.assoc inp.listId e.ipa = s := by
      simpa [hw] using hfe
    rw [← heq]
    exact ⟨rfl, rfl⟩

theorem verbInserts_no_upd {g : Option RejectCfg} {inp : WordInput} :
    ∀ s ∈ inp.verbEntries.filterMap (fun e =>
        let phraseItem := pyStrip e.phrase
        let assocItem := optOfStripped e.assoc
        let ipaItem := optOfStripped e.ipa
        if phraseItem = [] then none
        else some (Stmt.insertWord g phraseItem assocItem inp.listId ipaItem)),
      updKeyOf s = none := by
  intro s hs
  obtain ⟨e, he, hfe⟩ := List.mem_filterMap.mp hs
  by_cases hw : pyStrip e.phrase = []
  · simp [hw] at hfe
  · have heq : Stmt.insertWord g (pyStrip e.phrase) (optOfStripped e.assoc)
        inp.listId (optOfStripped e.ipa) = s := by
      simpa [hw] using hfe
    rw [← heq]
    rfl

theorem emitWordQueries_ordered (g : Option RejectCfg) (inp : WordInput) :
    wordActionsOrdered [] [] (emitWordQueries g inp) = true := by
  unfold emitWordQueries
  by_cases hv : (¬inp.isVerb && ¬inp.isNounAndVerb) = true
  · rw [if_pos hv]
    exact ordered_word_block g g g inp.palabra inp.association inp.ipaWord
      (inp.ipaWord.getD []) (inp.association.getD []) true inp.listId _ _
      (truthyOpt inp.ipaWord) (truthyOpt inp.association)
      extraInserts_no_upd appendHom_no_upd
  · rw [if_neg hv]
    rw [ordered_append]
    simp only [Bool.and_eq_true]
    constructor
    · by_cases hnv : inp.isNounAndVerb = true
      · rw [if_pos hnv]
        have hshape : [Stmt.insertWord g inp.palabra inp.association inp.listId inp.ipaWord]
            ++ (if truthyOpt inp.ipaWord
                then [Stmt.updateIpa g inp.palabra inp.listId (inp.ipaWord.getD [])]
                else [])
            ++ (if truthyOpt inp.association
                then [Stmt.updateAssoc g true inp.palabra inp.listId (inp.association.getD [])]
                else [])
            ++ appendHomophoneLinkQueries inp.linkEnabled inp.listId inp.palabra inp.ipaWord
            = [Stmt.insertWord g inp.palabra inp.association inp.listId inp.ipaWord]
            ++ []
            ++ (if truthyOpt inp.ipaWord
                then [Stmt.updateIpa g inp.palabra inp.listId (inp.ipaWord.getD [])]
                else [])
            ++ (if truthyOpt inp.association
                then [Stmt.updateAssoc g true inp.palabra inp.listId (inp.association.getD [])]
                else [])
            ++ appendHomophoneLinkQueries inp.linkEnabled inp.listId inp.palabra inp.ipaWord := by
          rw [List.append_nil]
        rw [hshape]
        exact ordered_word_block g g g inp.palabra inp.association inp.ipaWord
          (inp.ipaWord.getD []) (inp.association.getD []) true inp.listId [] _
          (truthyOpt inp.ipaWord) (truthyOpt inp.association)
          (fun s hs => absurd hs (List.not_mem_nil s)) appendHom_no_upd
      · rw [if_neg hnv]
        rfl
    · exact ordered_of_no_upd _ _ _ verbInserts_no_upd

theorem ordered_phrase_block (g : Option RejectCfg) (pinp : PhraseInput)
    (ins ad : List (Txt × Int)) (ai : Bool)
    (hins : ai = true → (pinp.phraseForStorage, pinp.listId) ∈ ins)
    (had : (pinp.phraseForStorage, pinp.listId) ∉ ad) :
    wordActionsOrdered ins ad (emitPhraseBlock g ai pinp) = true := by
  unfold emitPhraseBlock
  cases hai : ai with
  | false =>
    rw [if_pos (by simp)]
    by_cases hip : truthyOpt pinp.phraseIpa = true
    · by_cases hpa : truthyOpt pinp.phraseAssociation = true
      · simp [hip, hpa, wordActionsOrdered, had]
      · simp [hip, hpa, wordActionsOrdered, had]
    · by_cases hpa : truthyOpt pinp.phraseAssociation = true
      · simp [hip, hpa, wordActionsOrdered, had]
      · simp [hip, hpa, wordActionsOrdered, had]
  | true =>
    rw [if_neg (by simp)]
    have hk := hins hai
    by_cases hip : truthyOpt pinp.phraseIpa = true
    · by_cases hpa : truthyOpt pinp.phraseAssociation = true
      · simp [hip, hpa, wordActionsOrdered, had, hk]
      · simp [hip, hpa, wordActionsOrdered, had, hk]
    · by_cases hpa : truthyOpt pinp.phraseAssociation = true
      · simp [hip, hpa, wordActionsOrdered, had, hk]
      · simp [hip, hpa, wordActionsOrdered, had, hk]

theorem preparePhrase_ordered (g : Option RejectCfg) (tokenQueries : List Stmt)
    (pinp : PhraseInput)
    (htok : wordActionsOrdered [] [] tokenQueries = true)
    (htokupd : ∀ s ∈ tokenQueries,
      updKeyOf s ≠ some (pinp.phraseForStorage, pinp.listId)) :
    wordActionsOrdered [] [] (tokenQueries ++ emitPhraseBlock g
      (alreadyInsertsWord tokenQueries pinp.phraseForStorage pinp.listId) pinp)
      = true := by
  rw [ordered_append]
  simp only [Bool.and_eq_true]
  refine ⟨htok, ?_⟩
  apply ordered_phrase_block
  · intro hai
    exact stAfter_fst_of_already tokenQueries [] [] _ _ hai
  · exact stAfter_snd_sub tokenQueries [] [] _ (List.not_mem_nil _) htokupd

theorem prepareWordActionsCompile_ok_shape {inp : WordInput} {qs : List Stmt}
    (hok : prepareWordActionsCompile inp = Except.ok qs) :
    ∃ g, qs = emitWordQueries g inp := by
  unfold prepareWordActionsCompile at hok
  cases hres : resolveRejectedWordsConfig inp.userId inp.rejectedWordsTable inp.language with
  | error e => rw [hres] at hok; cases hok
  | ok r =>
    rw [hres] at hok
    obtain ⟨uid, table, langNorm⟩ := r
    dsimp only at hok
    by_cases h1 : pyStrip table ≠ []
    · rw [if_pos h1] at hok
      by_cases h2 : ¬ isValidTableIdent (pyStrip table) = true
      · rw [if_pos h2] at hok; cases hok
      · rw [if_neg h2] at hok
        injection hok with hok
        exact ⟨_, hok.symm⟩
    · rw [if_neg h1] at hok
      injection hok with hok
      exact ⟨none, hok.symm⟩

theorem preparePhraseActionsCompile_ok_shape {tokenQueries : List Stmt}
    {pinp : PhraseInput} {qs : List Stmt}
    (hok : preparePhraseActionsCompile tokenQueries pinp = Except.ok qs) :
    ∃ g, qs = tokenQueries ++ emitPhraseBlock g
      (alreadyInsertsWord tokenQueries pinp.phraseForStorage pinp.listId) pinp := by
  unfold preparePhraseActionsCompile at hok
  cases hres : resolveRejectedWordsConfig pinp.userId pinp.rejectedWordsTable pinp.language with
  | error e => rw [hres] at hok; cases hok
  | ok r =>
    rw [hres] at hok
    obtain ⟨uid, table, langNorm⟩ := r
    dsimp only at hok
    by_cases h1 : pyStrip table ≠ []
    · rw [if_pos h1] at hok
      by_cases h2 : ¬ isValidTableIdent (pyStrip table) = true
      · rw [if_pos h2] at hok; cases hok
      · rw [if_neg h2] at hok
        injection hok with hok
        exact ⟨_, hok.symm⟩
    · rw [if_neg h1] at hok
      injection hok with hok
      exact ⟨none, hok.symm⟩

/-- C7: the compiled statement sequences replay correctly — in single-word
mode, and in phrase mode given token queries that replay correctly and whose
updates do not target the phrase-level key (tokens are single words), every
UPDATE statement's (word, list id) key is preceded by that key's
insert-or-skip statement, and no IPA update for a key comes after an
association update for that key (so when both are present, the IPA update
precedes the association update). -/
theorem c7_insert_before_update
    (inp : WordInput) (qs : List Stmt)
    (tokenQueries : List Stmt) (pinp : PhraseInput) (pqs : List Stmt)
    (hok : prepareWordActionsCompile inp = Except.ok qs)
    (htok : wordActionsOrdered [] [] tokenQueries = true)
    (htokupd : ∀ s ∈ tokenQueries,
      updKeyOf s ≠ some (pinp.phraseForStorage, pinp.listId))
    (hpok : preparePhraseActionsCompile tokenQueries pinp = Except.ok pqs) :
    wordActionsOrdered [] [] qs = true ∧ wordActionsOrdered [] [] pqs = true := by
  constructor
  · obtain ⟨g, rfl⟩ := prepareWordActionsCompile_ok_shape hok
    exact emitWordQueries_ordered g inp
  · obtain ⟨g, rfl⟩ := preparePhraseActionsCompile_ok_shape hpok
    exact preparePhrase_ordered g tokenQueries pinp htok htokupd

theorem c7_insert_before_update_witness :
    wordActionsOrdered [] []
      [Stmt.insertWord (some (RejectCfg.mk (txt "palabras_rechazadas") 7 (txt "fr")))
        (txt "pomme") (some (txt "pomme, manzana")) 2 (some (txt "/pɔm/")),
       Stmt.updateIpa (some (RejectCfg.mk (txt "palabras_rechazadas") 7 (txt "fr")))
        (txt "pomme") 2 (txt "/pɔm/"),
       Stmt.updateAssoc (some (RejectCfg.mk (txt "palabras_rechazadas") 7 (txt "fr")))
        true (txt "pomme") 2 (txt "pomme, manzana")] = true ∧
    wordActionsOrdered [] []
      [Stmt.insertWord (some (RejectCfg.mk (txt "palabras_rechazadas") 7 (txt "fr")))
        (txt "la pomme") none 2 none] = true :=
  c7_insert_before_update
    (WordInput.mk (txt "pomme") 2 (txt "fr") (some 7) none
      (some (txt "pomme, manzana")) (some (txt "/pɔm/")) false false [] [] false)
    _ [] (PhraseInput.mk (txt "la pomme") 2 (txt "fr") (some 7) none none none) _
    (by rfl) rfl (fun s h => absurd h (List.not_mem_nil s)) (by rfl)

/-- C1 counterexample: the compiled statements for the entry "x" (association
"x, tx") overwrite a pre-existing non-empty association "a, b, c" of the same
row — the repair path of the association UPDATE rewrites any stored value
with two or more commas — so "never overwrites a non-empty association" is
false for double (and even single) execution. -/
theorem c1_counterexample :
    prepareWordActionsCompile
      (WordInput.mk (txt "x") 1 (txt "fr") (some 7) none (some (txt "x, tx"))
        none false false [] [] false)
      = Except.ok
        [Stmt.insertWord (some (RejectCfg.mk (txt "palabras_rechazadas") 7 (txt "fr")))
          (txt "x") (some (txt "x, tx")) 1 none,
         Stmt.updateAssoc (some (RejectCfg.mk (txt "palabras_rechazadas") 7 (txt "fr")))
          true (txt "x") 1 (txt "x, tx")] ∧
    (execAll (execAll
        (DB.mk [Row.mk (txt "x") 1 (some (txt "a, b, c")) none] [])
        [Stmt.insertWord (some (RejectCfg.mk (txt "palabras_rechazadas") 7 (txt "fr")))
          (txt "x") (some (txt "x, tx")) 1 none,
         Stmt.updateAssoc (some (RejectCfg.mk (txt "palabras_rechazadas") 7 (txt "fr")))
          true (txt "x") 1 (txt "x, tx")])
        [Stmt.insertWord (some (RejectCfg.mk (txt "palabras_rechazadas") 7 (txt "fr")))
          (txt "x") (some (txt "x, tx")) 1 none,
         Stmt.updateAssoc (some (RejectCfg.mk (txt "palabras_rechazadas") 7 (txt "fr")))
          true (txt "x") 1 (txt "x, tx")]).rows
      = [Row.mk (txt "x") 1 (some (txt "x, tx")) none] :=
  ⟨rfl, rfl⟩

theorem countChar_append (c : Char) (a b : Txt) :
    countChar c (a ++ b) = countChar c a + countChar c b := by
  unfold countChar
  rw [List.filter_append, List.length_append]

theorem joinSep_comma_free : ∀ (ws : List Txt), (∀ w ∈ ws, countChar ',' w = 0) →
    countChar ',' (joinSep (txt "; ") ws) = 0 := by
  intro ws
  induction ws with
  | nil => intro _; rfl
  | cons w rest ih =>
    intro h
    cases rest with
    | nil => exact h w (List.mem_cons_self _ _)
    | cons w2 rest2 =>
      show countChar ',' (w ++ txt "; " ++ joinSep (txt "; ") (w2 :: rest2)) = 0
      rw [countChar_append, countChar_append,
        h w (List.mem_cons_self _ _),
        ih (fun x hx => h x (List.mem_cons_of_mem _ hx))]
      rfl

theorem homCandidates_comma_free {rows : List Row} {lid : Int} {ipa w0 : Txt}
    {excl : Option (List Txt)}
    (hwords : ∀ r ∈ rows, countChar ',' r.word = 0) :
    ∀ w ∈ homCandidates rows lid ipa w0 excl, countChar ',' w = 0 := by
  intro w hw
  obtain ⟨r, hr, hfr⟩ := List.mem_filterMap.mp hw
  by_cases hc : homCandOk lid ipa w0 excl r = true
  · rw [if_pos hc] at hfr
    injection hfr with hfr
    rw [← hfr]
    exact hwords r hr
  · rw [if_neg hc] at hfr
    cases hfr

theorem find?_append_left {α : Type} {p : α → Bool} {l l' : List α} {x : α}
    (h : l.find? p = some x) : (l ++ l').find? p = some x := by
  induction l with
  | nil => simp [List.find?] at h
  | cons a rest ih =>
    rw [List.cons_append, List.find?]
    rw [List.find?] at h
    cases hp : p a with
    | true => rw [hp] at h; simpa using h
    | false => rw [hp] at h; simp only [hp]; exact ih h

theorem find?_map_keyfix {p : Row → Bool} {f : Row → Row} {l : List Row}
    (hf : ∀ r, p (f r) = p r) :
    (l.map f).find? p = (l.find? p).map f := by
  induction l with
  | nil => rfl
  | cons a rest ih =>
    rw [List.map_cons, List.find?, List.find?, hf a]
    cases hp : p a with
    | true => rfl
    | false => exact ih

theorem findRow_map {rows : List Row} {f : Row → Row} {w : Txt} {lid : Int}
    (hf : ∀ r, (f r).word = r.word ∧ (f r).listId = r.listId) :
    findRow (rows.map f) w lid = (findRow rows w lid).map f := by
  unfold findRow
  exact find?_map_keyfix (fun r => by rw [(hf r).1, (hf r).2])

theorem findRow_key {rows : List Row} {w : Txt} {lid : Int} {r : Row}
    (h : findRow rows w lid = some r) : r.word = w ∧ r.listId = lid := by
  have := List.find?_some h
  simp only [Bool.and_eq_true, decide_eq_true_eq] at this
  exact this

theorem findRow_mem {rows : List Row} {w : Txt} {lid : Int} {r : Row}
    (h : findRow rows w lid = some r) : r ∈ rows :=
  List.mem_of_find?_eq_some h

/-- The words of the table stay comma-free across execution. -/
theorem execStmt_words_comma_free {db : DB} {s : Stmt}
    (hwords : ∀ r ∈ db.rows, countChar ',' r.word = 0)
    (hins : stmtWordCommaFree s = true) :
    ∀ r ∈ (execStmt db s).rows, countChar ',' r.word = 0 := by
  intro r hr
  cases s with
  | insertWord g w a lid i =>
    unfold execStmt at hr
    dsimp only at hr
    split at hr
    · dsimp only at hr
      rcases List.mem_append.mp hr with hr | hr
      · exact hwords r hr
      · rcases List.mem_singleton.mp hr with rfl
        simpa [stmtWordCommaFree] using hins
    · exact hwords r hr
  | updateIpa g w lid i =>
    unfold execStmt at hr
    dsimp only at hr
    obtain ⟨r0, hr0, rfl⟩ := List.mem_map.mp hr
    split
    · exact hwords r0 hr0
    · exact hwords r0 hr0
  | updateAssoc g rep w lid a =>
    unfold execStmt at hr
    dsimp only at hr
    obtain ⟨r0, hr0, rfl⟩ := List.mem_map.mp hr
    split
    · exact hwords r0 hr0
    · exact hwords r0 hr0
  | homSelf lid w i =>
    unfold execStmt at hr
    dsimp only at hr
    obtain ⟨r0, hr0, rfl⟩ := List.mem_map.mp hr
    split
    · exact hwords r0 hr0
    · exact hwords r0 hr0
  | homOther lid w0 i =>
    unfold execStmt at hr
    dsimp only at hr
    obtain ⟨r0, hr0, rfl⟩ := List.mem_map.mp hr
    split
    · exact hwords r0 hr0
    · exact hwords r0 hr0

theorem map_rowKey_of_keyfix (rows : List Row) (f : Row → Row)
    (hf : ∀ r, (f r).word = r.word ∧ (f r).listId = r.listId) :
    (rows.map f).map rowKey = rows.map rowKey := by
  rw [List.map_map]
  exact List.map_congr_left (fun r _ => by
    simp only [Function.comp_apply, rowKey, (hf r).1, (hf r).2])

theorem rows_any_key {rows : List Row} {w : Txt} {lid : Int} :
    rows.any (fun r => decide (r.word = w) && decide (r.listId = lid)) = true
      ↔ (w, lid) ∈ rows.map rowKey := by
  rw [List.any_eq_true]
  constructor
  · rintro ⟨r, hr, hp⟩
    simp only [Bool.and_eq_true, decide_eq_true_eq] at hp
    exact List.mem_map.mpr ⟨r, hr, by rw [rowKey, hp.1, hp.2]⟩
  · rintro hmem
    obtain ⟨r, hr, hk⟩ := List.mem_map.mp hmem
    refine ⟨r, hr, ?_⟩
    rw [rowKey, Prod.mk.injEq] at hk
    simp [hk.1, hk.2]

theorem execStmt_rows_keys_eq {db : DB} {s : Stmt}
    (hnotins : ∀ g w a lid i, s ≠ Stmt.insertWord g w a lid i) :
    (execStmt db s).rows.map rowKey = db.rows.map rowKey := by
  cases s with
  | insertWord g w a lid i => exact absurd rfl (hnotins g w a lid i)
  | updateIpa g w lid i =>
    unfold execStmt
    dsimp only
    exact map_rowKey_of_keyfix _ _ (fun r => by split <;> exact ⟨rfl, rfl⟩)
  | updateAssoc g rep w lid a =>
    unfold execStmt
    dsimp only
    exact map_rowKey_of_keyfix _ _ (fun r => by split <;> exact ⟨rfl, rfl⟩)
  | homSelf lid w i =>
    unfold execStmt
    dsimp only
    exact map_rowKey_of_keyfix _ _ (fun r => by split <;> exact ⟨rfl, rfl⟩)
  | homOther lid w0 i =>
    unfold execStmt
    dsimp only
    exact map_rowKey_of_keyfix _ _ (fun r => by split <;> exact ⟨rfl, rfl⟩)

theorem execStmt_keys_nodup {db : DB} (s : Stmt)
    (h : (db.rows.map rowKey).Nodup) : ((execStmt db s).rows.map rowKey).Nodup := by
  cases s with
  | insertWord g w a lid i =>
    unfold execStmt
    dsimp only
    split
    · rename_i hc
      dsimp only
      rw [List.map_append, List.nodup_append]
      refine ⟨h, List.nodup_singleton _, ?_⟩
      intro k hk hk'
      simp only [List.map_cons, List.map_nil, List.mem_singleton] at hk'
      subst hk'
      simp only [Bool.and_eq_true, decide_eq_true_eq] at hc
      exact hc.2 (rows_any_key.mpr hk)
    · exact h
  | updateIpa g w lid i =>
    rw [execStmt_rows_keys_eq (fun g' w' a' lid' i' heq => Stmt.noConfusion heq)]
    exact h
  | updateAssoc g rep w lid a =>
    rw [execStmt_rows_keys_eq (fun g' w' a' lid' i' heq => Stmt.noConfusion heq)]
    exact h
  | homSelf lid w i =>
    rw [execStmt_rows_keys_eq (fun g' w' a' lid' i' heq => Stmt.noConfusion heq)]
    exact h
  | homOther lid w0 i =>
    rw [execStmt_rows_keys_eq (fun g' w' a' lid' i' heq => Stmt.noConfusion heq)]
    exact h

theorem execStmt_ipa_preserved {db : DB} (s : Stmt) {w : Txt} {lid : Int} {r : Row}
    {v : Txt} (h : findRow db.rows w lid = some r) (hv : r.ipaWord = some v) :
    ∃ r', findRow (execStmt db s).rows w lid = some r' ∧ r'.ipaWord = some v := by
  cases s with
  | insertWord g w' a lid' i =>
    unfold execStmt
    dsimp only
    split
    · dsimp only
      exact ⟨r, find?_append_left h, hv⟩
    · exact ⟨r, h, hv⟩
  | updateIpa g w' lid' i =>
    unfold execStmt
    dsimp only
    rw [show findRow ((db.rows).map _) w lid = _ from
      findRow_map (fun r0 => by split <;> exact ⟨rfl, rfl⟩), h, Option.map_some']
    refine ⟨_, rfl, ?_⟩
    split
    · rename_i hcnd
      rw [hv] at hcnd
      simp at hcnd
    · exact hv
  | updateAssoc g rep w' lid' a =>
    unfold execStmt
    dsimp only
    rw [show findRow ((db.rows).map _) w lid = _ from
      findRow_map (fun r0 => by split <;> exact ⟨rfl, rfl⟩), h, Option.map_some']
    refine ⟨_, rfl, ?_⟩
    split
    · exact hv
    · exact hv
  | homSelf lid' w' i =>
    unfold execStmt
    dsimp only
    rw [show findRow ((db.rows).map _) w lid = _ from
      findRow_map (fun r0 => by split <;> exact ⟨rfl, rfl⟩), h, Option.map_some']
    refine ⟨_, rfl, ?_⟩
    split
    · exact hv
    · exact hv
  | homOther lid' w0 i =>
    unfold execStmt
    dsimp only
    rw [show findRow ((db.rows).map _) w lid = _ from
      findRow_map (fun r0 => by split <;> exact ⟨rfl, rfl⟩), h, Option.map_some']
    refine ⟨_, rfl, ?_⟩
    split
    · exact hv
    · exact hv

theorem SEPt_comma_free : countChar ',' SEPt = 0 := by decide

theorem append_ne_nil_left {a b : Txt} (ha : a ≠ []) : a ++ b ≠ [] := by
  intro hcon
  exact ha (List.append_eq_nil.mp hcon).1

theorem execStmt_assoc_extend {db : DB} (s : Stmt) {w : Txt} {lid : Int} {r : Row}
    {a suf : Txt}
    (hwords : ∀ rr ∈ db.rows, countChar ',' rr.word = 0)
    (hins : stmtWordCommaFree s = true)
    (h : findRow db.rows w lid = some r)
    (hassoc : r.association = some (a ++ suf))
    (ha : a ≠ []) (hc : countChar ',' a < 2) (hsc : countChar ',' suf = 0) :
    ∃ r' suf', findRow (execStmt db s).rows w lid = some r' ∧
      r'.association = some (a ++ suf') ∧ countChar ',' suf' = 0 := by
  cases s with
  | insertWord g w' a' lid' i =>
    unfold execStmt
    dsimp only
    split
    · dsimp only
      exact ⟨r, suf, find?_append_left h, hassoc, hsc⟩
    · exact ⟨r, suf, h, hassoc, hsc⟩
  | updateIpa g w' lid' i =>
    unfold execStmt
    dsimp only
    rw [show findRow ((db.rows).map _) w lid = _ from
      findRow_map (fun r0 => by split <;> exact ⟨rfl, rfl⟩), h, Option.map_some']
    refine ⟨_, suf, rfl, ?_, hsc⟩
    split
    · exact hassoc
    · exact hassoc
  | updateAssoc g rep w' lid' a' =>
    unfold execStmt
    dsimp only
    rw [show findRow ((db.rows).map _) w lid = _ from
      findRow_map (fun r0 => by split <;> exact ⟨rfl, rfl⟩), h, Option.map_some']
    refine ⟨_, suf, rfl, ?_, hsc⟩
    split
    · rename_i hcnd
      exfalso
      rw [hassoc] at hcnd
      simp only [Bool.and_eq_true, Bool.or_eq_true, decide_eq_true_eq] at hcnd
      rcases hcnd.1.2 with (hx | hx) | hx
      · cases hx
      · exact ha (List.append_eq_nil.mp (Option.some.inj hx)).1
      · have h2 := hx.2
        unfold likeTwoCommas at h2
        simp only [Option.getD_some, decide_eq_true_eq] at h2
        rw [countChar_append, hsc] at h2
        omega
    · exact hassoc
  | homSelf lid' w' i =>
    unfold execStmt
    dsimp only
    rw [show findRow ((db.rows).map _) w lid = _ from
      findRow_map (fun r0 => by split <;> exact ⟨rfl, rfl⟩), h, Option.map_some']
    split
    · rename_i hcnd
      have hjoin : countChar ','
          (joinSep (txt "; ") (homCandidates db.rows lid' i w'
            (some (homExclItems r.association)))) = 0 :=
        joinSep_comma_free _ (homCandidates_comma_free hwords)
      by_cases hsep : containsSub SEPt (a ++ suf) = true
      · refine ⟨_, suf ++ (txt "; " ++ joinSep (txt "; ")
          (homCandidates db.rows lid' i w' (some (homExclItems r.association)))),
          rfl, ?_, ?_⟩
        · show some (homSelfNewAssoc db.rows lid' i w' r.association) = _
          rw [hassoc]
          unfold homSelfNewAssoc
          dsimp only
          rw [if_neg (append_ne_nil_left ha), if_pos hsep]
          rw [List.append_assoc, List.append_assoc]
        · rw [countChar_append, countChar_append, hsc, hjoin]
          rfl
      · refine ⟨_, suf ++ (SEPt ++ joinSep (txt "; ")
          (homCandidates db.rows lid' i w' (some (homExclItems r.association)))),
          rfl, ?_, ?_⟩
        · show some (homSelfNewAssoc db.rows lid' i w' r.association) = _
          rw [hassoc]
          unfold homSelfNewAssoc
          dsimp only
          rw [if_neg (append_ne_nil_left ha), if_neg hsep]
          rw [List.append_assoc, List.append_assoc]
        · rw [countChar_append, countChar_append, hsc, hjoin, SEPt_comma_free]
    · exact ⟨r, suf, rfl, hassoc, hsc⟩
  | homOther lid' w0 i =>
    unfold execStmt
    dsimp only
    rw [show findRow ((db.rows).map _) w lid = _ from
      findRow_map (fun r0 => by split <;> exact ⟨rfl, rfl⟩), h, Option.map_some']
    have hw0 : countChar ',' w0 = 0 := by simpa [stmtWordCommaFree] using hins
    split
    · by_cases hsep : containsSub SEPt (a ++ suf) = true
      · refine ⟨_, suf ++ (txt "; " ++ w0), rfl, ?_, ?_⟩
        · show some (homAppendCase r.association w0) = _
          rw [hassoc]
          unfold homAppendCase
          dsimp only
          rw [if_neg (append_ne_nil_left ha), if_pos hsep]
          rw [List.append_assoc, List.append_assoc]
        · rw [countChar_append, countChar_append, hsc, hw0]
          rfl
      · refine ⟨_, suf ++ (SEPt ++ w0), rfl, ?_, ?_⟩
        · show some (homAppendCase r.association w0) = _
          rw [hassoc]
          unfold homAppendCase
          dsimp only
          rw [if_neg (append_ne_nil_left ha), if_neg hsep]
          rw [List.append_assoc, List.append_assoc]
        · rw [countChar_append, countChar_append, hsc, hw0, SEPt_comma_free]
    · exact ⟨r, suf, rfl, hassoc, hsc⟩

theorem execAll_words_comma_free : ∀ (qs : List Stmt) (db : DB),
    (∀ r ∈ db.rows, countChar ',' r.word = 0) →
    (∀ s ∈ qs, stmtWordCommaFree s = true) →
    ∀ r ∈ (execAll db qs).rows, countChar ',' r.word = 0 := by
  intro qs
  induction qs with
  | nil => intro db hw _; exact hw
  | cons s rest ih =>
    intro db hw hq
    exact ih (execStmt db s)
      (execStmt_words_comma_free hw (hq s (List.mem_cons_self _ _)))
      (fun s' hs' => hq s' (List.mem_cons_of_mem _ hs'))

theorem execAll_keys_nodup : ∀ (qs : List Stmt) (db : DB),
    (db.rows.map rowKey).Nodup → ((execAll db qs).rows.map rowKey).Nodup := by
  intro qs
  induction qs with
  | nil => intro db h; exact h
  | cons s rest ih =>
    intro db h
    exact ih (execStmt db s) (execStmt_keys_nodup s h)

theorem execAll_ipa_preserved : ∀ (qs : List Stmt) (db : DB) (w : Txt) (lid : Int)
    (r : Row) (v : Txt), findRow db.rows w lid = some r → r.ipaWord = some v →
    ∃ r', findRow (execAll db qs).rows w lid = some r' ∧ r'.ipaWord = some v := by
  intro qs
  induction qs with
  | nil => intro db w lid r v h hv; exact ⟨r, h, hv⟩
  | cons s rest ih =>
    intro db w lid r v h hv
    obtain ⟨r1, h1, hv1⟩ := execStmt_ipa_preserved s h hv
    exact ih (execStmt db s) w lid r1 v h1 hv1

theorem execAll_assoc_extend : ∀ (qs : List Stmt) (db : DB) (w : Txt) (lid : Int)
    (r : Row) (a suf : Txt),
    (∀ rr ∈ db.rows, countChar ',' rr.word = 0) →
    (∀ s ∈ qs, stmtWordCommaFree s = true) →
    findRow db.rows w lid = some r → r.association = some (a ++ suf) →
    a ≠ [] → countChar ',' a < 2 → countChar ',' suf = 0 →
    ∃ r' suf', findRow (execAll db qs).rows w lid = some r' ∧
      r'.association = some (a ++ suf') ∧ countChar ',' suf' = 0 := by
  intro qs
  induction qs with
  | nil => intro db w lid r a suf _ _ h hassoc _ _ hsc; exact ⟨r, suf, h, hassoc, hsc⟩
  | cons s rest ih =>
    intro db w lid r a suf hw hq h hassoc ha hc hsc
    obtain ⟨r1, suf1, h1, hassoc1, hsc1⟩ :=
      execStmt_assoc_extend s hw (hq s (List.mem_cons_self _ _)) h hassoc ha hc hsc
    exact ih (execStmt db s) w lid r1 a suf1
      (execStmt_words_comma_free hw (hq s (List.mem_cons_self _ _)))
      (fun s' hs' => hq s' (List.mem_cons_of_mem _ hs'))
      h1 hassoc1 ha hc hsc1

/-- C1 (amended): executing a compiled statement sequence twice (a) never
creates a second row for a (word, list id) key, (b) never overwrites a
non-NULL transcription, and (c) when the stored and interpolated words are
comma-free, only ever extends a non-empty association having fewer than two
commas by a comma-free homophone suffix.  Associations that are NULL, empty,
or already contain two or more commas may be rewritten by the repair path
(see the counterexample), so the unconditional "never overwrites a non-empty
association" is false. -/
theorem c1_double_execution (inp : WordInput) (qs : List Stmt) (db : DB)
    (hok : prepareWordActionsCompile inp = Except.ok qs)
    (hnd : (db.rows.map rowKey).Nodup)
    (hwords : ∀ r ∈ db.rows, countChar ',' r.word = 0)
    (hqw : ∀ s ∈ qs, stmtWordCommaFree s = true) :
    ((execAll (execAll db qs) qs).rows.map rowKey).Nodup ∧
    (∀ w lid r v, findRow db.rows w lid = some r → r.ipaWord = some v →
      ∃ r', findRow (execAll (execAll db qs) qs).rows w lid = some r' ∧
        r'.ipaWord = some v) ∧
    (∀ w lid r a, findRow db.rows w lid = some r → r.association = some a →
      a ≠ [] → countChar ',' a < 2 →
      ∃ r' suf, findRow (execAll (execAll db qs) qs).rows w lid = some r' ∧
        r'.association = some (a ++ suf) ∧ countChar ',' suf = 0) := by
  have hwords1 := execAll_words_comma_free qs db hwords hqw
  refine ⟨?_, ?_, ?_⟩
  · exact execAll_keys_nodup qs _ (execAll_keys_nodup qs db hnd)
  · intro w lid r v h hv
    obtain ⟨r1, h1, hv1⟩ := execAll_ipa_preserved qs db w lid r v h hv
    exact execAll_ipa_preserved qs _ w lid r1 v h1 hv1
  · intro w lid r a h hassoc ha hc
    obtain ⟨r1, suf1, h1, hassoc1, hsc1⟩ := execAll_assoc_extend qs db w lid r a []
      hwords hqw h (by rw [List.append_nil]; exact hassoc) ha hc rfl
    exact execAll_assoc_extend qs _ w lid r1 a suf1 hwords1 hqw h1 hassoc1 ha hc hsc1

theorem c1_double_execution_witness :
    ((execAll (execAll
        (DB.mk [Row.mk (txt "ami") 3 (some (txt "ami, amigo")) (some (txt "/ami/"))] [])
        [Stmt.insertWord (some (RejectCfg.mk (txt "palabras_rechazadas") 5 (txt "fr")))
          (txt "ami") none 3 none])
        [Stmt.insertWord (some (RejectCfg.mk (txt "palabras_rechazadas") 5 (txt "fr")))
          (txt "ami") none 3 none]).rows.map rowKey).Nodup ∧
    (∀ w lid r v, findRow (DB.mk
        [Row.mk (txt "ami") 3 (some (txt "ami, amigo")) (some (txt "/ami/"))] []).rows
        w lid = some r → r.ipaWord = some v →
      ∃ r', findRow ((execAll (execAll
        (DB.mk [Row.mk (txt "ami") 3 (some (txt "ami, amigo")) (some (txt "/ami/"))] [])
        [Stmt.insertWord (some (RejectCfg.mk (txt "palabras_rechazadas") 5 (txt "fr")))
          (txt "ami") none 3 none])
        [Stmt.insertWord (some (RejectCfg.mk (txt "palabras_rechazadas") 5 (txt "fr")))
          (txt "ami") none 3 none]).rows) w lid = some r' ∧ r'.ipaWord = some v) ∧
    (∀ w lid r a, findRow (DB.mk
        [Row.mk (txt "ami") 3 (some (txt "ami, amigo")) (some (txt "/ami/"))] []).rows
        w lid = some r → r.association = some a →
      a ≠ [] → countChar ',' a < 2 →
      ∃ r' suf, findRow ((execAll (execAll
        (DB.mk [Row.mk (txt "ami") 3 (some (txt "ami, amigo")) (some (txt "/ami/"))] [])
        [Stmt.insertWord (some (RejectCfg.mk (txt "palabras_rechazadas") 5 (txt "fr")))
          (txt "ami") none 3 none])
        [Stmt.insertWord (some (RejectCfg.mk (txt "palabras_rechazadas") 5 (txt "fr")))
          (txt "ami") none 3 none]).rows) w lid = some r' ∧
        r'.association = some (a ++ suf) ∧ countChar ',' suf = 0) :=
  c1_double_execution
    (WordInput.mk (txt "ami") 3 (txt "fr") (some 5) none none none false false [] [] false)
    [Stmt.insertWord (some (RejectCfg.mk (txt "palabras_rechazadas") 5 (txt "fr")))
      (txt "ami") none 3 none]
    (DB.mk [Row.mk (txt "ami") 3 (some (txt "ami, amigo")) (some (txt "/ami/"))] [])
    (by rfl) (by decide) (by decide) (by decide)

/-- C2 counterexample: when the linked word's association starts out NULL,
the first run stores the bare homophone word as the association; the second
run then treats it as a base phrase and appends the same homophone again
(" | homófonos: " section referencing the word itself), so re-running the
linking changes the state — it is not idempotent, and the duplicate-avoidance
only protects the suffix section. -/
theorem c2_counterexample :
    linkHomophonesInDb
      [Row.mk (txt "a") 1 none (some (txt "/t/")),
       Row.mk (txt "b") 1 (some (txt "b, x")) (some (txt "/t/"))]
      1 (txt "a") (txt "/t/")
      = [Row.mk (txt "a") 1 (some (txt "b")) (some (txt "/t/")),
         Row.mk (txt "b") 1 (some (txt "b, x | homófonos: a")) (some (txt "/t/"))] ∧
    linkHomophonesInDb
      [Row.mk (txt "a") 1 (some (txt "b")) (some (txt "/t/")),
       Row.mk (txt "b") 1 (some (txt "b, x | homófonos: a")) (some (txt "/t/"))]
      1 (txt "a") (txt "/t/")
      = [Row.mk (txt "a") 1 (some (txt "b | homófonos: b")) (some (txt "/t/")),
         Row.mk (txt "b") 1 (some (txt "b, x | homófonos: a")) (some (txt "/t/"))] := by
  constructor
  · rfl
  · rfl

theorem splitOnChar_no_sep {sep : Char} : ∀ {t : Txt}, (∀ c ∈ t, c ≠ sep) →
    splitOnChar sep t = [t] := by
  intro t
  induction t with
  | nil => intro _; rfl
  | cons c rest ih =>
    intro h
    have hc : ¬ c = sep := h c (List.mem_cons_self _ _)
    have hrest := ih (fun d hd => h d (List.mem_cons_of_mem _ hd))
    simp [splitOnChar, hc, hrest]

theorem splitFirstSub_eq_none_of_not_contains {sep t : Txt}
    (h : containsSub sep t = false) : splitFirstSub sep t = none := by
  unfold containsSub at h
  exact Option.not_isSome_iff_eq_none.mp (fun hcon => by
    rw [h] at hcon; exact absurd hcon (by decide))

theorem pyStrip_concat {x mid y : Txt} (hx : pyStrip x = x) (hxne : x ≠ [])
    (hy : pyStrip y = y) (hyne : y ≠ []) :
    pyStrip (x ++ mid ++ y) = x ++ mid ++ y := by
  apply pyStrip_eq_self
  · intro c hc
    rw [List.append_assoc, headAppend hxne, ← hx] at hc
    exact pyStrip_head x hc
  · intro c hc
    rw [lastAppend hyne, ← hy] at hc
    exact pyStrip_last y hc

theorem SEPt_length : SEPt.length = 14 := by decide

theorem leadsWith_len_eq {p t : Txt} (h : leadsWith p t = true)
    (hlen : t.length = p.length) : t = p := by
  have ht := leadsWith_append p t h
  have hd : t.drop p.length = [] := List.drop_eq_nil_of_le (le_of_eq hlen)
  rw [hd, List.append_nil] at ht
  exact ht

theorem splitFirst_SEP_good {base tail : Txt}
    (hsep : containsSub SEPt base = false)
    (hterm : base.drop (base.length - 13) ≠ SEPt.take 13) :
    splitFirstSub SEPt (base ++ SEPt ++ tail) = some (base, tail) := by
  apply splitFirstSub_construct
  intro k hk
  by_contra hcon
  rw [Bool.not_eq_false, List.append_assoc] at hcon
  set d := base.drop k with hd
  have hdlen : d.length = base.length - k := by rw [hd, List.length_drop]
  have hm1 : 1 ≤ d.length := by omega
  by_cases hbig : 14 ≤ d.length
  · rw [leadsWith_append_indep SEPt d _ [] (by rw [SEPt_length]; exact hbig),
      List.append_nil] at hcon
    have : containsSub SEPt base = true := (containsSub_iff _ _).mpr ⟨k, hcon⟩
    rw [hsep] at this
    cases this
  · push_neg at hbig
    have htake : (d ++ (SEPt ++ tail)).take 14 = d ++ SEPt.take (14 - d.length) := by
      rw [List.take_append_eq_append_take, List.take_of_length_le (by omega)]
      congr 1
      rw [List.take_append_eq_append_take]
      rw [show 14 - d.length - SEPt.length = 0 from by rw [SEPt_length]; omega,
        List.take_zero, List.append_nil]
    have hcon' : leadsWith SEPt ((d ++ (SEPt ++ tail)).take SEPt.length) = true := by
      rw [← leadsWith_eq_take]
      exact hcon
    rw [SEPt_length, htake] at hcon'
    have hlen14 : (d ++ SEPt.take (14 - d.length)).length = SEPt.length := by
      rw [List.length_append, List.length_take, SEPt_length]
      omega
    have heq : d ++ SEPt.take (14 - d.length) = SEPt := leadsWith_len_eq hcon' hlen14
    have hX : SEPt.take (14 - d.length) = SEPt.drop d.length := by
      have hdr := congrArg (fun l => l.drop d.length) heq
      dsimp only at hdr
      rw [drop_append_self] at hdr
      exact hdr
    have hm13 : d.length = 13 := by
      rcases Nat.lt_or_ge d.length 13 with hlt | hge
      · exfalso
        interval_cases h13 : d.length <;> revert hX <;> decide
      · omega
    have hd13 : d = SEPt.take 13 := by
      have htk := congrArg (fun l => l.take 13) heq
      dsimp only at htk
      rw [List.take_append_eq_append_take, List.take_of_length_le (le_of_eq hm13),
        show 13 - d.length = 0 from by omega, List.take_zero, List.append_nil] at htk
      exact htk
    have hkval : k = base.length - 13 := by omega
    exact hterm (by rw [hkval] at hd; rw [← hd]; exact hd13)

theorem append_hom_fresh {base h : Txt}
    (hb : pyStrip base = base) (hbne : base ≠ [])
    (hsep : containsSub SEPt base = false)
    (hh : pyStrip h = h) (hhne : h ≠ []) :
    appendHomophoneToAssociation (some base) h = base ++ SEPt ++ h := by
  unfold appendHomophoneToAssociation
  dsimp only
  simp only [Option.getD_some]
  rw [hb, hh, if_neg hhne, if_neg hbne,
    splitFirstSub_eq_none_of_not_contains hsep]
  dsimp only
  rw [if_neg (List.not_mem_nil h)]
  rfl

theorem append_hom_dup {base h : Txt}
    (hb : pyStrip base = base) (hbne : base ≠ [])
    (hsep : containsSub SEPt base = false)
    (hterm : base.drop (base.length - 13) ≠ SEPt.take 13)
    (hh : pyStrip h = h) (hhne : h ≠ [])
    (hhsemi : ∀ c ∈ h, c ≠ ';') :
    appendHomophoneToAssociation (some (base ++ SEPt ++ h)) h = base ++ SEPt ++ h := by
  unfold appendHomophoneToAssociation
  dsimp only
  simp only [Option.getD_some]
  rw [pyStrip_concat hb hbne hh hhne, hh, if_neg hhne,
    if_neg (append_ne_nil_left (append_ne_nil_left hbne)),
    splitFirst_SEP_good hsep hterm]
  dsimp only
  rw [splitOnChar_no_sep hhsemi]
  rw [show List.filterMap (fun part : Txt =>
      let p := pyStrip part
      if p = [] then none else some p) [h] = [h] from by simp [hh, hhne]]
  rw [if_pos (List.mem_singleton.mpr rfl)]

theorem append_SEPt_ne {x y : Txt} : x ++ SEPt ++ y ≠ x := by
  intro hcon
  have hlen := congrArg List.length hcon
  rw [List.length_append, List.length_append, SEPt_length] at hlen
  omega

/-- C2 (amended): for two distinct canonical single-token words sharing a
stored transcription in a two-row list, one linking run adds each word to the
other's homophone suffix (symmetry), and a second run leaves both rows
unchanged (idempotence — no duplicated reference) — provided both stored
associations are non-empty stripped values that do not already contain the
homophone separator and do not end in its self-overlapping fragment
" | homófonos:".  Without such well-formedness (e.g. an initially empty
association) a second run changes the state again — see the counterexample. -/
theorem c2_homophone_link (lid : Int) (a b aA aB t : Txt)
    (hab : a ≠ b)
    (ha_c : canonicalWordForHomophones (txt "fr") a = a)
    (hb_c : canonicalWordForHomophones (txt "fr") b = b)
    (ha_s : pyStrip a = a) (hb_s : pyStrip b = b)
    (ha_ne : a ≠ []) (hb_ne : b ≠ [])
    (ha_semi : ∀ c ∈ a, c ≠ ';') (hb_semi : ∀ c ∈ b, c ≠ ';')
    (hb_nospace : containsSub (txt " ") b = false)
    (ht : pyStrip t = t) (ht_ne : t ≠ [])
    (haA : pyStrip aA = aA) (haA_ne : aA ≠ [])
    (haA_sep : containsSub SEPt aA = false)
    (haA_term : aA.drop (aA.length - 13) ≠ SEPt.take 13)
    (haB : pyStrip aB = aB) (haB_ne : aB ≠ [])
    (haB_sep : containsSub SEPt aB = false)
    (haB_term : aB.drop (aB.length - 13) ≠ SEPt.take 13) :
    linkHomophonesInDb
      [Row.mk a lid (some aA) (some t), Row.mk b lid (some aB) (some t)] lid a t
      = [Row.mk a lid (some (aA ++ SEPt ++ b)) (some t),
         Row.mk b lid (some (aB ++ SEPt ++ a)) (some t)] ∧
    linkHomophonesInDb
      [Row.mk a lid (some (aA ++ SEPt ++ b)) (some t),
       Row.mk b lid (some (aB ++ SEPt ++ a)) (some t)] lid a t
      = [Row.mk a lid (some (aA ++ SEPt ++ b)) (some t),
         Row.mk b lid (some (aB ++ SEPt ++ a)) (some t)] := by
  have hba : b ≠ a := Ne.symm hab
  constructor
  · unfold linkHomophonesInDb
    dsimp only
    rw [if_neg ht_ne, if_neg (not_not_intro ha_c), ht, if_neg ht_ne]
    rw [show List.filterMap (fun r : Row =>
        if decide (r.listId = lid) && decide (r.ipaWord = some t)
            && decide (r.word ≠ a) && ¬ containsSub (txt " ") r.word
        then some (r.word, r.association) else none)
        [Row.mk a lid (some aA) (some t), Row.mk b lid (some aB) (some t)]
        = [(b, some aB)] from by
      simp [List.filterMap_cons, hb_nospace, hba]]
    rw [if_neg (List.cons_ne_nil _ _)]
    rw [show findRow [Row.mk a lid (some aA) (some t),
        Row.mk b lid (some aB) (some t)] a lid
        = some (Row.mk a lid (some aA) (some t)) from by simp [findRow]]
    dsimp only [Option.bind]
    rw [List.foldl_cons, List.foldl_nil]
    unfold linkStep
    dsimp only
    rw [hb_s]
    rw [if_neg (show ¬(b = [] ∨ b = a) from fun hcon => hcon.elim hb_ne hba)]
    rw [if_neg (not_not_intro hb_c)]
    rw [append_hom_fresh haA haA_ne haA_sep hb_s hb_ne]
    simp only [Option.getD_some, haA]
    rw [if_pos append_SEPt_ne]
    rw [append_hom_fresh haB haB_ne haB_sep ha_s ha_ne]
    simp only [haB]
    rw [if_pos append_SEPt_ne]
    dsimp only
    rw [show updateAssocRows [Row.mk a lid (some aA) (some t),
        Row.mk b lid (some aB) (some t)] a lid (aA ++ SEPt ++ b)
        = [Row.mk a lid (some (aA ++ SEPt ++ b)) (some t),
           Row.mk b lid (some aB) (some t)] from by
      simp [updateAssocRows, hba]]
    rw [show updateAssocRows [Row.mk a lid (some (aA ++ SEPt ++ b)) (some t),
        Row.mk b lid (some aB) (some t)] b lid (aB ++ SEPt ++ a)
        = [Row.mk a lid (some (aA ++ SEPt ++ b)) (some t),
           Row.mk b lid (some (aB ++ SEPt ++ a)) (some t)] from by
      simp [updateAssocRows, hab]]
  · unfold linkHomophonesInDb
    dsimp only
    rw [if_neg ht_ne, if_neg (not_not_intro ha_c), ht, if_neg ht_ne]
    rw [show List.filterMap (fun r : Row =>
        if decide (r.listId = lid) && decide (r.ipaWord = some t)
            && decide (r.word ≠ a) && ¬ containsSub (txt " ") r.word
        then some (r.word, r.association) else none)
        [Row.mk a lid (some (aA ++ SEPt ++ b)) (some t),
         Row.mk b lid (some (aB ++ SEPt ++ a)) (some t)]
        = [(b, some (aB ++ SEPt ++ a))] from by
      simp [List.filterMap_cons, hb_nospace, hba]]
    rw [if_neg (List.cons_ne_nil _ _)]
    rw [show findRow [Row.mk a lid (some (aA ++ SEPt ++ b)) (some t),
        Row.mk b lid (some (aB ++ SEPt ++ a)) (some t)] a lid
        = some (Row.mk a lid (some (aA ++ SEPt ++ b)) (some t)) from by
      simp [findRow]]
    dsimp only [Option.bind]
    rw [List.foldl_cons, List.foldl_nil]
    unfold linkStep
    dsimp only
    rw [hb_s]
    rw [if_neg (show ¬(b = [] ∨ b = a) from fun hcon => hcon.elim hb_ne hba)]
    rw [if_neg (not_not_intro hb_c)]
    rw [append_hom_dup haA haA_ne haA_sep haA_term hb_s hb_ne hb_semi]
    simp only [Option.getD_some, pyStrip_concat haA haA_ne hb_s hb_ne]
    rw [if_neg (not_not_intro rfl)]
    rw [append_hom_dup haB haB_ne haB_sep haB_term ha_s ha_ne ha_semi]
    simp only [pyStrip_concat haB haB_ne ha_s ha_ne]
    rw [if_neg (not_not_intro rfl)]

theorem c2_homophone_link_witness :
    linkHomophonesInDb
      [Row.mk (txt "vert") 1 (some (txt "vert, verde")) (some (txt "/vɛʁ/")),
       Row.mk (txt "verre") 1 (some (txt "verre, vaso")) (some (txt "/vɛʁ/"))]
      1 (txt "vert") (txt "/vɛʁ/")
      = [Row.mk (txt "vert") 1
          (some (txt "vert, verde" ++ SEPt ++ txt "verre")) (some (txt "/vɛʁ/")),
         Row.mk (txt "verre") 1
          (some (txt "verre, vaso" ++ SEPt ++ txt "vert")) (some (txt "/vɛʁ/"))] ∧
    linkHomophonesInDb
      [Row.mk (txt "vert") 1
        (some (txt "vert, verde" ++ SEPt ++ txt "verre")) (some (txt "/vɛʁ/")),
       Row.mk (txt "verre") 1
        (some (txt "verre, vaso" ++ SEPt ++ txt "vert")) (some (txt "/vɛʁ/"))]
      1 (txt "vert") (txt "/vɛʁ/")
      = [Row.mk (txt "vert") 1
          (some (txt "vert, verde" ++ SEPt ++ txt "verre")) (some (txt "/vɛʁ/")),
         Row.mk (txt "verre") 1
          (some (txt "verre, vaso" ++ SEPt ++ txt "vert")) (some (txt "/vɛʁ/"))] :=
  c2_homophone_link 1 (txt "vert") (txt "verre") (txt "vert, verde")
    (txt "verre, vaso") (txt "/vɛʁ/")
    (by decide) (by decide) (by decide) (by decide) (by decide) (by decide)
    (by decide) (by decide) (by decide) (by decide) (by decide) (by decide)
    (by decide) (by decide) (by decide) (by decide) (by decide) (by decide)
    (by decide) (by decide)
